import Mathlib

/-!
# Hash rewriting, topological sorting, consolidation and missing-path planning

A shallow embedding of `libutil/pathhash.cc`, `libstore/hashrewrite.cc` and
`libstore/misc.cc`, followed by theorems about the embedded functions.

Conventions of the embedding.

* A `std::string` is a list of byte values (`Bytes`).
* `std::string::find` returns `Option Nat`, `none` standing for `string::npos`.
  The loop of `rewriteHashes` stores that result in an `unsigned int` of 32
  bits and compares it with `string::npos`, a `size_t`; the loop and the
  functions that run it take the width `w` of `size_t` in bits as an argument.
  The reference functions (`rewriteLoop` and the functions named `…Ideal`)
  compute with unbounded integers; they are used to state and to prove what
  the program does, and are the program for a `size_t` of 32 bits and strings
  shorter than `2^31` bytes.
* A `std::set` / `std::map` is the list of its elements in iteration order.
* A function that can abort (a failed `assert`, an exception) or loop returns
  an `Option` or a dedicated result type; loops carry a fuel argument.
-/

namespace Nix

/-! ## Path hashes (`libutil/pathhash.cc`) -/

/-- A byte string. -/
abbrev Bytes := List Nat

/-- The constant `pathHashLen`: the number of characters of a path hash. -/
def pathHashLen : Nat := 32

/-- The constant `nullPathHashRef`: `pathHashLen` zero bytes. -/
def nullPathHashRef : Bytes := List.replicate pathHashLen 0

/-- The type `PathHash`: its representation `rep`; every constructor of the
class produces `pathHashLen` characters, which is recorded in `size_eq`. -/
structure PathHash where
  rep : Bytes
  size_eq : rep.length = pathHashLen

instance : DecidableEq PathHash := fun a b =>
  decidable_of_iff (a.rep = b.rep) (by cases a; cases b; simp)

/-- The default constructor `PathHash::PathHash()`: the null hash. -/
def PathHash.null : PathHash := ⟨nullPathHashRef, by simp [nullPathHashRef]⟩

/-- The method `PathHash::toString`. -/
def PathHash.toString (h : PathHash) : Bytes := h.rep

/-- The method `PathHash::isNull`. -/
def PathHash.isNull (h : PathHash) : Bool := decide (h.rep = nullPathHashRef)

/-- Byte-lexicographic `std::string::operator<`. -/
def bytesLt : Bytes → Bytes → Bool
  | [], [] => false
  | [], _ :: _ => true
  | _ :: _, [] => false
  | a :: as, b :: bs => if a < b then true else if b < a then false else bytesLt as bs

/-- The method `PathHash::operator<`. -/
def PathHash.lt (h1 h2 : PathHash) : Bool := bytesLt h1.rep h2.rep

/-! ## Hash rewriting (`libstore/hashrewrite.cc`) -/

/-- The type `HashRewrites = map<PathHash, PathHash>`, as the list of its
entries in iteration order. -/
abbrev HashRewrites := List (PathHash × PathHash)

/-- The assignment `rewrites[k] = v` on a `map<PathHash, PathHash>`. -/
def HashRewrites.insert (k v : PathHash) : HashRewrites → HashRewrites
  | [] => [(k, v)]
  | (k', v') :: rest =>
    if k.rep = k'.rep then (k', v) :: rest
    else if k.lt k' then (k, v) :: (k', v') :: rest
    else (k', v') :: HashRewrites.insert k v rest

/-- Search of `pat` in `s`, the current offset being `k`. -/
def findAux (pat : Bytes) : Bytes → Nat → Option Nat
  | [], k => if pat.isPrefixOf [] then some k else none
  | c :: cs, k => if pat.isPrefixOf (c :: cs) then some k else findAux pat cs (k + 1)

/-- The call `s.find(pat, pos)`: the least offset `k ≥ pos` at which `pat`
occurs in `s`, `none` standing for `string::npos`. -/
def find (s pat : Bytes) (pos : Nat) : Option Nat :=
  if pos ≤ s.length then findAux pat (s.drop pos) pos else none

/-- The call `s.replace(pos, n, t)` for `pos ≤ s.size()`. -/
def replace (s : Bytes) (pos n : Nat) (t : Bytes) : Bytes :=
  s.take pos ++ t ++ s.drop (pos + n)

/-- How the `while` loop of `rewriteHashes` ends: the condition is false
(`exit`), or `s.replace` throws `std::out_of_range`, or the fuel runs out; the
first two carry the string and `positions` at that point. -/
inductive LoopEnd where
  | exit (s : Bytes) (positions : List Int)
  | outOfRange (s : Bytes) (positions : List Int)
  | outOfFuel
  deriving DecidableEq

/-- The value `string::npos` of a `size_t` of `w` bits. -/
def npos (w : Nat) : Nat := 2 ^ w - 1

/-- The conversion of the 32-bit `unsigned int j` to the `int` that
`positions.push_back(j)` stores. -/
def toInt (j : Nat) : Int := if j < 2 ^ 31 then (j : Int) else (j : Int) - 2 ^ 32

/-- The `while` loop of `rewriteHashes` for one pair `(from, to)` with the
32-bit `unsigned int j` and a `size_t` of `w` bits: the value of
`s.find(from, j)` (`npos` when there is no occurrence) is truncated to 32 bits
by the assignment to `j`, and `j` is compared with `npos` as a `size_t`;
`s.replace(j, ·, ·)` throws when `j` exceeds the size of `s`. -/
def rewriteLoopW (w : Nat) (from_ to_ : Bytes) : Nat → Bytes → Nat → List Int → LoopEnd
  | 0, _, _, _ => LoopEnd.outOfFuel
  | fuel + 1, s, j, positions =>
    let j1 := ((find s from_ j).getD (npos w)) % 2 ^ 32
    if j1 = npos w then LoopEnd.exit s positions
    else if s.length < j1 then LoopEnd.outOfRange s (positions ++ [toInt j1])
    else
      rewriteLoopW w from_ to_ fuel (replace s j1 to_.length to_) ((j1 + to_.length) % 2 ^ 32)
        (positions ++ [toInt j1])

/-- The outcome of a call of a function of `hashrewrite.cc`: the value
returned, a failed `assert`, the exception `std::out_of_range` that
`s.replace` throws, or the end of the fuel of the inner loop. -/
inductive CallResult (α : Type) where
  | ok (a : α)
  | assertFailed
  | outOfRange
  | outOfFuel
  deriving DecidableEq

/-- The outcome of a call whose returned value is passed to `f`. -/
def CallResult.map {α β : Type} (f : α → β) : CallResult α → CallResult β
  | CallResult.ok a => CallResult.ok (f a)
  | CallResult.assertFailed => CallResult.assertFailed
  | CallResult.outOfRange => CallResult.outOfRange
  | CallResult.outOfFuel => CallResult.outOfFuel

/-- The outcome of a call followed, when it returns, by the call `f`. -/
def CallResult.bind {α β : Type} (r : CallResult α) (f : α → CallResult β) : CallResult β :=
  match r with
  | CallResult.ok a => f a
  | CallResult.assertFailed => CallResult.assertFailed
  | CallResult.outOfRange => CallResult.outOfRange
  | CallResult.outOfFuel => CallResult.outOfFuel

/-- The function `rewriteHashes(s, rewrites, positions)` for a `size_t` of `w`
bits; the value is the returned string together with the final `positions`.
The inner loop gets the fuel `s.length + 1`, which is enough for every string
shorter than `2^32 - 1` bytes. -/
def rewriteHashes (w : Nat) : Bytes → HashRewrites → List Int → CallResult (Bytes × List Int)
  | s, [], positions => CallResult.ok (s, positions)
  | s, (f, t) :: rest, positions =>
    if f.toString.length = t.toString.length then
      match rewriteLoopW w f.toString t.toString (s.length + 1) s 0 positions with
      | LoopEnd.exit s' positions' => rewriteHashes w s' rest positions'
      | LoopEnd.outOfRange _ _ => CallResult.outOfRange
      | LoopEnd.outOfFuel => CallResult.outOfFuel
    else CallResult.assertFailed

/-- The two-argument overload `rewriteHashes(s, rewrites)` of line 57, which
calls `rewriteHashes(s, rewrites, dummy)`. -/
def rewriteHashes2 (w : Nat) (s : Bytes) (rewrites : HashRewrites) : CallResult Bytes :=
  (rewriteHashes w s rewrites []).map Prod.fst

/-- The decimal digits of a natural number. -/
def formatNat (n : Nat) : Bytes :=
  if n = 0 then [48] else ((Nat.digits 10 n).reverse.map (fun d => d + 48))

/-- The decimal rendering of the `int` position `i` by `format("|%1%") % i`. -/
def formatInt (i : Int) : Bytes :=
  if i < 0 then 45 :: formatNat i.natAbs else formatNat i.toNat

/-- The string `positionPrefix` built by `hashModulo`. -/
def positionPrefix (positions : List Int) : Bytes :=
  positions.foldl (fun acc i => acc ++ (124 :: formatInt i)) [] ++ [124, 124]

/-- The argument that `hashModulo(s, modulus)` passes to `hashString`, for a
`size_t` of `w` bits. -/
def hashModuloInput (w : Nat) (s : Bytes) (modulus : PathHash) : CallResult Bytes :=
  if modulus.isNull then CallResult.ok (positionPrefix [] ++ s)
  else
    (rewriteHashes w s (HashRewrites.insert modulus PathHash.null []) []).map
      (fun r => positionPrefix r.2 ++ r.1)

/-- The function `hashModulo`, over the digest function `hashString(htSHA256, ·)`. -/
def hashModulo {Hash : Type} (w : Nat) (hashString : Bytes → Hash) (s : Bytes)
    (modulus : PathHash) : CallResult Hash :=
  (hashModuloInput w s modulus).map hashString

/-! ### Reference functions over unbounded integers -/

/-- The reference loop: the `while` loop of `rewriteHashes` for one pair
`(from, to)` with an index `j` and offsets that are unbounded integers, so that
the loop ends when `find` has no result; `none` when the fuel runs out.  The
loop of the program is `rewriteLoopW`. -/
def rewriteLoop (from_ to_ : Bytes) : Nat → Bytes → Nat → List Nat → Option (Bytes × List Nat)
  | 0, _, _, _ => none
  | fuel + 1, s, j, positions =>
    match find s from_ j with
    | none => some (s, positions)
    | some k =>
      rewriteLoop from_ to_ fuel (replace s k to_.length to_) (k + to_.length) (positions ++ [k])

/-- The reference function for `rewriteHashes`: the pairs of the map are
applied in turn by the reference loop. -/
def rewriteHashesIdeal : Bytes → HashRewrites → List Nat → Option (Bytes × List Nat)
  | s, [], positions => some (s, positions)
  | s, (f, t) :: rest, positions =>
    if f.toString.length = t.toString.length then
      match rewriteLoop f.toString t.toString (s.length + 1) s 0 positions with
      | none => none
      | some (s', positions') => rewriteHashesIdeal s' rest positions'
    else none

/-- The reference function for the two-argument `rewriteHashes`. -/
def rewriteHashes2Ideal (s : Bytes) (rewrites : HashRewrites) : Option Bytes :=
  (rewriteHashesIdeal s rewrites []).map Prod.fst

/-- The position prefix of a list of offsets that are natural numbers. -/
def positionPrefixIdeal (positions : List Nat) : Bytes :=
  positions.foldl (fun acc i => acc ++ (124 :: formatNat i)) [] ++ [124, 124]

/-- The reference function for `hashModuloInput`. -/
def hashModuloInputIdeal (s : Bytes) (modulus : PathHash) : Option Bytes :=
  if modulus.isNull then some (positionPrefixIdeal [] ++ s)
  else
    match rewriteHashesIdeal s (HashRewrites.insert modulus PathHash.null []) [] with
    | none => none
    | some (s', positions) => some (positionPrefixIdeal positions ++ s')

/-- Modelled from the spec: the map `inverse(M)`, which is not part of the
sources: every entry `(from, to)` of `M` becomes the entry `(to, from)`. -/
def HashRewrites.inverse (m : HashRewrites) : HashRewrites :=
  m.foldl (fun acc p => HashRewrites.insert p.2 p.1 acc) []

/-- A content template: literal chunks, each followed by one placeholder for
the self-reference, and a last literal chunk. -/
structure Template where
  chunks : List Bytes
  tail : Bytes

/-- The content of chunks and tail with every placeholder set to `x`. -/
def fillChunks (x : Bytes) : List Bytes → Bytes → Bytes
  | [], tail => tail
  | lit :: rest, tail => lit ++ x ++ fillChunks x rest tail

/-- The content `c[x]`: the template with every placeholder set to `x`. -/
def Template.fill (c : Template) (x : PathHash) : Bytes :=
  fillChunks x.rep c.chunks c.tail

/-- The offsets of the placeholders of width `n`, the first chunk starting at `base`. -/
def holeOffsets (n : Nat) : List Bytes → Nat → List Nat
  | [], _ => []
  | lit :: rest, base => (base + lit.length) :: holeOffsets n rest (base + lit.length + n)

/-- The offsets of the placeholders of a template. -/
def Template.offsets (c : Template) : List Nat :=
  holeOffsets pathHashLen c.chunks 0

/-- The hash whose `pathHashLen` characters all equal `c`. -/
def repHash (c : Nat) : PathHash := ⟨List.replicate pathHashLen c, by simp⟩

/-- The premise of the round-trip property as the specification words it: no
key is a substring of another key or of any value, every value is unique, and
no value occurs in the blob. -/
def RoundTripPremise (b : Bytes) (m : HashRewrites) : Prop :=
  (∀ p ∈ m, ∀ q ∈ m, p ≠ q → ¬ p.1.rep <:+: q.1.rep) ∧
  (∀ p ∈ m, ∀ q ∈ m, ¬ p.1.rep <:+: q.2.rep) ∧
  (m.map (fun p => p.2.rep)).Nodup ∧
  (∀ p ∈ m, ¬ p.2.rep <:+: b)

instance (b : Bytes) (m : HashRewrites) : Decidable (RoundTripPremise b m) := by
  unfold RoundTripPremise; infer_instance

/-- The composition `rewriteHashes(rewriteHashes(b, M), inverse(M))`, for a
`size_t` of `w` bits. -/
def roundTrip (w : Nat) (b : Bytes) (m : HashRewrites) : CallResult Bytes :=
  (rewriteHashes2 w b m).bind (fun b' => rewriteHashes2 w b' (HashRewrites.inverse m))

/-- The key `ppp…pb` of the three-pair example. -/
def keyA : PathHash := ⟨List.replicate 31 112 ++ [98], by decide⟩

/-- The key `zzz…z` of the three-pair example. -/
def keyB : PathHash := repHash 122

/-- The key `rrr…r` of the three-pair example. -/
def keyC : PathHash := repHash 114

/-- The value `aaa…a` of the three-pair example. -/
def valA : PathHash := repHash 97

/-- The value `bqxx…x` of the three-pair example. -/
def valB : PathHash := ⟨[98, 113] ++ List.replicate 30 120, by decide⟩

/-- The value `qxx…x` of the three-pair example. -/
def valC : PathHash := ⟨113 :: List.replicate 31 120, by decide⟩

/-- The map `{keyA ↦ valA, keyB ↦ valB, keyC ↦ valC}`. -/
def threePairs : HashRewrites :=
  HashRewrites.insert keyA valA (HashRewrites.insert keyB valB (HashRewrites.insert keyC valC []))

/-- The template `a‹self›`: the character `a` followed by one placeholder. -/
def templateA : Template := ⟨[[97]], []⟩

/-- The template `x‹self›y`. -/
def templateXY : Template := ⟨[[120]], [121]⟩

/-! ## Store paths and the store interface (`libstore/misc.cc`) -/

/-- A store path.  Paths are encoded as numbers; the order of the numbers
stands for the order of the path strings. -/
abbrev Path := Nat

/-- The type `PathSet = set<Path>`, as the list of its elements in iteration order. -/
abbrev PathSet := List Path

/-- The type `Paths = list<Path>`. -/
abbrev Paths := List Path

/-- The call `s.insert(x)` on a `std::set`. -/
def setInsert (x : Nat) : List Nat → List Nat
  | [] => [x]
  | y :: ys => if x < y then x :: y :: ys else if x = y then y :: ys else y :: setInsert x ys

/-- The call `s.erase(x)` on a `std::set`. -/
def setErase (x : Nat) (s : List Nat) : List Nat :=
  s.filter (fun y => decide (y ≠ x))

/-- The call `s.insert(t.begin(), t.end())` on a `std::set`. -/
def setUnion (s t : List Nat) : List Nat :=
  t.foldl (fun acc x => setInsert x acc) s

/-- The type `SubstitutablePathInfo`. -/
structure SubstitutablePathInfo where
  references : PathSet
  downloadSize : Nat
  narSize : Nat
  deriving DecidableEq

/-- The read-only part of the class `StoreAPI` that `misc.cc` calls;
`querySubstitutablePathInfos` returns the map `infos` that the call fills. -/
structure StoreAPI where
  isValidPath : Path → Bool
  queryReferences : Path → PathSet
  queryReferrers : Path → PathSet
  queryDeriver : Path → Path
  queryValidDerivers : Path → PathSet
  queryDerivationOutputs : Path → PathSet
  querySubstitutablePathInfos : PathSet → List (Path × SubstitutablePathInfo)

/-- The outcome of a call that may throw the cycle `BuildError`; `outOfFuel`
stands for a call that has not returned within the given number of nested calls. -/
inductive Outcome (α : Type) where
  | ok (a : α)
  | cycle (path : Path)
  | outOfFuel
  deriving DecidableEq

/-- The three variables that `dfsVisit` updates. -/
structure DfsState where
  visited : PathSet
  sorted : Paths
  parents : PathSet
  deriving DecidableEq

/-- A `foreach` loop that calls `visit` on every element and stops at the first
call that does not return normally. -/
def forEach (visit : Path → DfsState → Outcome DfsState) :
    List Path → DfsState → Outcome DfsState
  | [], st => Outcome.ok st
  | i :: rest, st =>
    match visit i st with
    | Outcome.ok st' => forEach visit rest st'
    | Outcome.cycle p => Outcome.cycle p
    | Outcome.outOfFuel => Outcome.outOfFuel

/-- The function `dfsVisit`; the first argument bounds the depth of the recursion. -/
def dfsVisit (store : StoreAPI) (paths : PathSet) : Nat → Path → DfsState → Outcome DfsState
  | 0, _, _ => Outcome.outOfFuel
  | fuel + 1, path, st =>
    if path ∈ st.parents then Outcome.cycle path
    else if path ∈ st.visited then Outcome.ok st
    else
      let references := if store.isValidPath path then store.queryReferences path else []
      match forEach (dfsVisit store paths fuel)
          (references.filter (fun i => decide (i ≠ path ∧ i ∈ paths)))
          { visited := setInsert path st.visited, sorted := st.sorted,
            parents := setInsert path st.parents } with
      | Outcome.ok st' =>
        Outcome.ok { visited := st'.visited, sorted := path :: st'.sorted,
                     parents := setErase path st'.parents }
      | Outcome.cycle p => Outcome.cycle p
      | Outcome.outOfFuel => Outcome.outOfFuel

/-- The function `topoSortPaths`. -/
def topoSortPaths (store : StoreAPI) (paths : PathSet) : Outcome Paths :=
  match forEach (dfsVisit store paths (paths.length + 1)) paths
      { visited := [], sorted := [], parents := [] } with
  | Outcome.ok st => Outcome.ok st.sorted
  | Outcome.cycle p => Outcome.cycle p
  | Outcome.outOfFuel => Outcome.outOfFuel

/-- The reference relation induced by `paths`, self-references ignored: `p`
and `q` are distinct members of `paths`, and `q` is a reference of the valid
path `p`. -/
def RefEdge (store : StoreAPI) (paths : PathSet) (p q : Path) : Prop :=
  p ∈ paths ∧ store.isValidPath p = true ∧ q ∈ store.queryReferences p ∧ q ≠ p ∧ q ∈ paths

/-- The induced reference relation has no directed cycle. -/
def Acyclic (store : StoreAPI) (paths : PathSet) : Prop :=
  ∀ p, ¬ Relation.TransGen (RefEdge store paths) p p

/-- A store in which every path is valid and `refs` lists the references. -/
def simpleStore (refs : Path → PathSet) : StoreAPI where
  isValidPath := fun _ => true
  queryReferences := refs
  queryReferrers := fun _ => []
  queryDeriver := fun _ => 0
  queryValidDerivers := fun _ => []
  queryDerivationOutputs := fun _ => []
  querySubstitutablePathInfos := fun _ => []

/-- The store with the single reference `1 → 2`. -/
def chainStore : StoreAPI := simpleStore (fun p => if p = 1 then [2] else [])

/-- The store with the references `1 → 2` and `2 → 1`. -/
def cycleStore : StoreAPI :=
  simpleStore (fun p => if p = 1 then [2] else if p = 2 then [1] else [])

/-- A list in which no element occurs twice and every `E`-successor of an
element occurs later in the list. -/
def Good (E : Path → Path → Prop) : List Path → Prop
  | [] => True
  | u :: l => u ∉ l ∧ (∀ v, E u v → v ∈ l) ∧ Good E l

/-- The invariant of the variables of `dfsVisit`: the visited paths are the
finished paths (in `sorted`) and the active ones (in `parents`), the finished
paths are in topological order, and only members of `paths` are visited. -/
structure DfsInv (store : StoreAPI) (paths : PathSet) (st : DfsState) : Prop where
  mem_visited : ∀ x, x ∈ st.visited ↔ x ∈ st.sorted ∨ x ∈ st.parents
  good : Good (RefEdge store paths) st.sorted
  sub : ∀ x ∈ st.visited, x ∈ paths

/-- The relation between the state before and after a call that returns normally. -/
structure DfsPost (store : StoreAPI) (paths : PathSet) (st st' : DfsState) : Prop where
  inv : DfsInv store paths st'
  parents : ∀ y, y ∈ st'.parents ↔ y ∈ st.parents
  sorted : ∃ new, st'.sorted = new ++ st.sorted ∧ ∀ y ∈ new, y ∉ st.visited
  visited : ∀ y ∈ st.visited, y ∈ st'.visited

/-- The number of members of `paths` that are not yet visited. -/
def remaining (paths visited : List Path) : Nat :=
  (paths.toFinset \ visited.toFinset).card

/-- The specification of a visiting function that is sound for `bound` nested calls. -/
def VisitSpec (store : StoreAPI) (paths : PathSet)
    (visit : Path → DfsState → Outcome DfsState) (bound : Nat) : Prop :=
  ∀ x st, x ∈ paths → DfsInv store paths st →
    (∀ a ∈ st.parents, Relation.TransGen (RefEdge store paths) a x) →
    (remaining paths st.visited < bound → visit x st ≠ Outcome.outOfFuel) ∧
    (∀ st', visit x st = Outcome.ok st' → DfsPost store paths st st' ∧ x ∈ st'.sorted) ∧
    (∀ p, visit x st = Outcome.cycle p → ∃ c, Relation.TransGen (RefEdge store paths) c c)

/-! ## Closures and equivalence-class consolidation (`libstore/misc.cc`) -/

/-- A loop that threads a set through the calls `visit i` and stops at the
first call that does not return. -/
def closureLoop (visit : Path → PathSet → Option PathSet) : List Path → PathSet → Option PathSet
  | [], paths => some paths
  | i :: rest, paths =>
    match visit i paths with
    | some paths' => closureLoop visit rest paths'
    | none => none

/-- The function `computeFSClosure(store, path, paths, flipDirection,
includeOutputs, includeDerivers)`, over the missing predicate `isDerivation`;
the result is the final value of `paths`, `none` when the recursion is deeper
than the fuel. -/
def computeFSClosure (store : StoreAPI) (isDerivation : Path → Bool)
    (flipDirection includeOutputs includeDerivers : Bool) : Nat → Path → PathSet → Option PathSet
  | 0, _, _ => none
  | fuel + 1, path, paths =>
    if path ∈ paths then some paths
    else
      let edges : PathSet :=
        if flipDirection then
          let e1 := setUnion [] (store.queryReferrers path)
          let e2 := if includeOutputs then setUnion e1 (store.queryValidDerivers path) else e1
          if includeDerivers && isDerivation path then
            setUnion e2 ((store.queryDerivationOutputs path).filter
              (fun i => store.isValidPath i && decide (store.queryDeriver i = path)))
          else e2
        else
          let e1 := setUnion [] (store.queryReferences path)
          let e2 :=
            if includeOutputs && isDerivation path then
              setUnion e1 ((store.queryDerivationOutputs path).filter (fun i => store.isValidPath i))
            else e1
          if includeDerivers then
            (if store.isValidPath (store.queryDeriver path) then setInsert (store.queryDeriver path) e2
             else e2)
          else e2
      closureLoop
        (computeFSClosure store isDerivation flipDirection includeOutputs includeDerivers fuel)
        edges (setInsert path paths)

/-- The type `OutputEqClass`; class names are encoded as numbers in the order
of the names. -/
abbrev OutputEqClass := Nat

/-- The type `TrustId`. -/
abbrev TrustId := String

/-- The type `Replacements = map<Path, Path>`, in key order. -/
abbrev Replacements := List (Path × Path)

/-- The type `ClassMap = map<OutputEqClass, PathSet>`, in key order. -/
abbrev ClassMap := List (OutputEqClass × PathSet)

/-- The type `FinalClassMap = map<OutputEqClass, Path>`, in key order. -/
abbrev FinalClassMap := List (OutputEqClass × Path)

/-- The call `m.find(k)` on a `std::map` with numeric keys. -/
def mapFind {β : Type} (k : Nat) : List (Nat × β) → Option β
  | [] => none
  | (k', v) :: rest => if k = k' then some v else mapFind k rest

/-- The assignment `m[k] = v` on a `std::map` with numeric keys. -/
def mapInsert {β : Type} (k : Nat) (v : β) : List (Nat × β) → List (Nat × β)
  | [] => [(k, v)]
  | (k', v') :: rest =>
    if k < k' then (k, v) :: (k', v') :: rest
    else if k = k' then (k', v) :: rest
    else (k', v') :: mapInsert k v rest

/-- The outcome of a call that may fail an `assert` (identified by its line in
`misc.cc`) or recurse deeper than the fuel. -/
inductive Result (α : Type) where
  | ok (a : α)
  | assertFailed (line : Nat)
  | outOfFuel
  deriving DecidableEq

/-- The value of a call that returned normally. -/
def Result.toOption {α : Type} : Result α → Option α
  | Result.ok a => some a
  | _ => none

/-- The functions that `findBestRewrite`, `maybeRewrite` and `consolidatePaths`
call and that are not part of these sources, over a store state `σ`:
`queryReferences(noTxn, ·)`, `queryOutputEqClasses(noTxn, ·)`, the two-argument
`computeFSClosure`, `addToStore`, `addOutputEqMember` inside its own
transaction, `hashPartOf`, `namePartOf` and the global `currentTrustId`. -/
structure StoreOps (σ : Type) where
  queryReferences : σ → Path → PathSet
  queryOutputEqClasses : σ → Path → List OutputEqClass
  computeFSClosure : σ → Path → PathSet
  addToStore : σ → Path → PathHash → String → PathSet → HashRewrites → Path × σ
  addOutputEqMember : σ → OutputEqClass → TrustId → Path → σ
  hashPartOf : Path → PathHash
  namePartOf : Path → String
  currentTrustId : TrustId

/-- The set `badPaths` that `findBestRewrite` computes for a complete selection. -/
def badPaths (closure : Path → PathSet) (selection unselection : PathSet) : PathSet :=
  selection.foldl (fun bad i =>
    (closure i).foldl (fun bad' j => if j ∈ unselection then setInsert i bad' else bad') bad) []

/-- The function `findBestRewrite`, on the classes from `pos` to `end`; the
pair is `(bestCost, bestSelection)`, and `closure` is the closure computed by
the two-argument `computeFSClosure`.  The test `i != j` on the iterators of
one set is the test that the elements differ. -/
def findBestRewrite (closure : Path → PathSet) :
    ClassMap → PathSet → PathSet → Nat × PathSet → Nat × PathSet
  | [], selection, unselection, best =>
    if (badPaths closure selection unselection).length < best.1 then
      ((badPaths closure selection unselection).length, selection)
    else best
  | (_, members) :: rest, selection, unselection, best =>
    members.foldl (fun best' i =>
      findBestRewrite closure rest (setInsert i selection)
        (members.foldl (fun u j => if i ≠ j then setInsert j u else u) unselection) best') best

/-- The variables that `maybeRewrite` updates: the store, `replacements` and
`nrRewrites`. -/
structure RewriteState (σ : Type) where
  store : σ
  replacements : Replacements
  nrRewrites : Nat
  deriving DecidableEq

/-- The variables of the loop over the references in `maybeRewrite`. -/
structure RefLoopState (σ : Type) where
  rewrites : HashRewrites
  newReferences : PathSet
  state : RewriteState σ

/-- The loop over `references` in `maybeRewrite`; `rec` is the recursive call. -/
def refLoop {σ : Type} (ops : StoreOps σ) (finalClassMap : FinalClassMap) (sources : PathSet)
    (path : Path) (rec : Path → RewriteState σ → Result (Path × RewriteState σ)) :
    List Path → RefLoopState σ → Result (RefLoopState σ)
  | [], ls => Result.ok ls
  | i :: rest, ls =>
    if i = path ∨ i ∈ sources then
      refLoop ops finalClassMap sources path rec rest
        { ls with newReferences := setInsert i ls.newReferences }
    else
      match ops.queryOutputEqClasses ls.state.store i with
      | [] => Result.assertFailed 169
      | c :: _ =>
        match mapFind c finalClassMap with
        | none => Result.assertFailed 172
        | some chosen =>
          match rec chosen ls.state with
          | Result.ok (newPath, st') =>
            refLoop ops finalClassMap sources path rec rest
              { rewrites :=
                  if i ≠ newPath then
                    HashRewrites.insert (ops.hashPartOf i) (ops.hashPartOf newPath) ls.rewrites
                  else ls.rewrites,
                newReferences := setInsert newPath ls.newReferences,
                state := st' }
          | Result.assertFailed line => Result.assertFailed line
          | Result.outOfFuel => Result.outOfFuel

/-- The function `maybeRewrite`; the first argument bounds the depth of the recursion. -/
def maybeRewrite {σ : Type} (ops : StoreOps σ) (selection : PathSet)
    (finalClassMap : FinalClassMap) (sources : PathSet) :
    Nat → Path → RewriteState σ → Result (Path × RewriteState σ)
  | 0, _, _ => Result.outOfFuel
  | fuel + 1, path, st =>
    if path ∉ selection then Result.assertFailed 149
    else
      match mapFind path st.replacements with
      | some r => Result.ok (r, st)
      | none =>
        match refLoop ops finalClassMap sources path
            (maybeRewrite ops selection finalClassMap sources fuel)
            (ops.queryReferences st.store path)
            { rewrites := [], newReferences := [], state := st } with
        | Result.assertFailed line => Result.assertFailed line
        | Result.outOfFuel => Result.outOfFuel
        | Result.ok ls =>
          if ls.rewrites.length = 0 then
            Result.ok (path, { ls.state with
              replacements := mapInsert path path ls.state.replacements })
          else
            let added := ops.addToStore ls.state.store path (ops.hashPartOf path)
              (ops.namePartOf path) (ops.queryReferences st.store path) ls.rewrites
            let classes := ops.queryOutputEqClasses added.2 path
            let store' := classes.foldl
              (fun s c => ops.addOutputEqMember s c ops.currentTrustId added.1) added.2
            Result.ok (added.1,
              { store := store',
                replacements := mapInsert path added.1 ls.state.replacements,
                nrRewrites := ls.state.nrRewrites + 1 })

/-- The constant `infinity` of `consolidatePaths`. -/
def infinity : Nat := 1000000

/-- The first loop of `consolidatePaths`: the pair `(classMap, sources)`. -/
def classify {σ : Type} (ops : StoreOps σ) (store : σ) (paths : PathSet) : ClassMap × PathSet :=
  paths.foldl (fun acc i =>
    match ops.queryOutputEqClasses store i with
    | [] => (acc.1, setInsert i acc.2)
    | classes =>
      (classes.foldl (fun cm j => mapInsert j (setInsert i ((mapFind j cm).getD [])) cm) acc.1,
       acc.2)) ([], [])

/-- The loop of `consolidatePaths` that fills `finalClassMap`. -/
def makeFinalClassMap (classMap : ClassMap) (bestSelection : PathSet) : FinalClassMap :=
  classMap.foldl (fun fm c =>
    c.2.foldl (fun fm' j => if j ∈ bestSelection then mapInsert c.1 j fm' else fm') fm) []

/-- The loop of `consolidatePaths` over `bestSelection`: the pair of `newPaths`
and the state. -/
def rewriteAll {σ : Type} (ops : StoreOps σ) (fuel : Nat) (bestSelection : PathSet)
    (finalClassMap : FinalClassMap) (sources : PathSet) :
    List Path → PathSet × RewriteState σ → Result (PathSet × RewriteState σ)
  | [], acc => Result.ok acc
  | i :: rest, acc =>
    match maybeRewrite ops bestSelection finalClassMap sources fuel i acc.2 with
    | Result.ok (p, st') =>
      rewriteAll ops fuel bestSelection finalClassMap sources rest (setInsert p acc.1, st')
    | Result.assertFailed line => Result.assertFailed line
    | Result.outOfFuel => Result.outOfFuel

/-- What a call of `consolidatePaths` leaves behind: the returned set, the
argument `replacements`, the store, and the final value of the local counter
`nrRewrites` (`0` when the function returns before it declares the counter). -/
structure Consolidated (σ : Type) where
  newPaths : PathSet
  replacements : Replacements
  store : σ
  nrRewrites : Nat
  deriving DecidableEq

/-- The function `consolidatePaths(paths, checkOnly, replacements)` on the
store state `store`; `fuel` bounds the depth of the recursion of `maybeRewrite`. -/
def consolidatePaths {σ : Type} (ops : StoreOps σ) (fuel : Nat) (store : σ) (paths : PathSet)
    (checkOnly : Bool) (replacements : Replacements) : Result (Consolidated σ) :=
  let classMap := (classify ops store paths).1
  let sources := (classify ops store paths).2
  let conflict := classMap.any (fun c => decide (c.2.length ≥ 2))
  if !conflict then
    Result.ok { newPaths := paths, replacements := replacements, store := store, nrRewrites := 0 }
  else if checkOnly then Result.assertFailed 257
  else
    let best := findBestRewrite (ops.computeFSClosure store) classMap [] [] (infinity, [])
    if best.1 = infinity then Result.assertFailed 269
    else
      let finalClassMap := makeFinalClassMap classMap best.2
      match rewriteAll ops fuel best.2 finalClassMap sources best.2
          ([], { store := store, replacements := [], nrRewrites := 0 }) with
      | Result.assertFailed line => Result.assertFailed line
      | Result.outOfFuel => Result.outOfFuel
      | Result.ok (newPaths0, st) =>
        let newPaths := setUnion newPaths0 sources
        if st.nrRewrites ≠ best.1 then Result.assertFailed 290
        else if ¬ newPaths.length < paths.length then Result.assertFailed 292
        else
          Result.ok { newPaths := newPaths, replacements := st.replacements, store := st.store,
                      nrRewrites := st.nrRewrites }

/-! ## A store for the consolidation -/

/-- Modelled from the spec: the part of the store state that the consolidation
reads and writes, which is not part of these sources: the references of every
valid path, and the members `(class, trustId, path)` of the output equivalence
classes. -/
structure EqStore where
  references : List (Path × PathSet)
  eqMembers : List (OutputEqClass × TrustId × Path)
  deriving DecidableEq

/-- Modelled from the spec: `queryReferences(noTxn, path, ·)`. -/
def EqStore.queryReferences (s : EqStore) (p : Path) : PathSet :=
  (mapFind p s.references).getD []

/-- Modelled from the spec: `queryOutputEqClasses(noTxn, path, ·)`, the set of
the classes that have `path` as a member. -/
def EqStore.queryOutputEqClasses (s : EqStore) (p : Path) : List OutputEqClass :=
  s.eqMembers.foldl (fun acc m => if m.2.2 = p then setInsert m.1 acc else acc) []

/-- Modelled from the spec: `addOutputEqMember(txn, eqClass, trustId, path)`
followed by `txn.commit()`. -/
def EqStore.addOutputEqMember (s : EqStore) (c : OutputEqClass) (t : TrustId) (p : Path) :
    EqStore :=
  { s with eqMembers := s.eqMembers ++ [(c, t, p)] }

/-- The view of an `EqStore` as a `StoreAPI`: the valid paths are the paths
with recorded references. -/
def EqStore.toStoreAPI (s : EqStore) : StoreAPI where
  isValidPath := fun p => (mapFind p s.references).isSome
  queryReferences := s.queryReferences
  queryReferrers := fun p => (s.references.filter (fun e => decide (p ∈ e.2))).map Prod.fst
  queryDeriver := fun _ => 0
  queryValidDerivers := fun _ => []
  queryDerivationOutputs := fun _ => []
  querySubstitutablePathInfos := fun _ => []

/-- Modelled from the spec: the two-argument `computeFSClosure(path, closure)`
called on an empty set: the closure of `path` under the references, computed by
the six-argument function with its default flags. -/
def EqStore.closure (s : EqStore) (p : Path) : PathSet :=
  (computeFSClosure s.toStoreAPI (fun _ => false) false false false
    (s.references.length + (s.references.map (fun e => e.2.length)).sum + 1) p []).getD []

/-- A path that the store does not hold yet. -/
def EqStore.freshPath (s : EqStore) : Path :=
  (s.references.map Prod.fst).foldl max 0 + 1

/-- Modelled from the spec: `addToStore(srcPath, hashPart, name, references,
rewrites)`: the store copies `srcPath` to a path that it did not hold before,
and records for it the given references with the hash rewrites applied (a
reference to `srcPath` itself becomes a reference to the new path). -/
def EqStore.addToStore (hashPartOf : Path → PathHash) (s : EqStore) (srcPath : Path)
    (_hashPart : PathHash) (_name : String) (references : PathSet) (rewrites : HashRewrites) :
    Path × EqStore :=
  let newPath := s.freshPath
  let rewriteRef : Path → Path := fun r =>
    if r = srcPath then newPath
    else
      match rewrites.find? (fun kv => decide (kv.1 = hashPartOf r)) with
      | some kv =>
        ((s.references.map Prod.fst).find? (fun q => decide (hashPartOf q = kv.2))).getD r
      | none => r
  let newReferences := references.foldl (fun acc r => setInsert (rewriteRef r) acc) []
  (newPath, { s with references := mapInsert newPath newReferences s.references })

/-- The characters of the base-32 alphabet of path hashes. -/
def base32Chars : Bytes :=
  [48, 49, 50, 51, 52, 53, 54, 55, 56, 57, 97, 98, 99, 100, 102, 103, 104, 105, 106, 107, 108,
   109, 110, 112, 113, 114, 115, 118, 119, 120, 121, 122]

/-- The hash part of the example path `p`: 32 copies of the `p`-th base-32 character. -/
def exampleHash (p : Path) : PathHash := repHash (base32Chars.getD p 48)

/-- The store functions of the examples, for the trust id `foo`. -/
def eqStoreOps : StoreOps EqStore where
  queryReferences := EqStore.queryReferences
  queryOutputEqClasses := EqStore.queryOutputEqClasses
  computeFSClosure := EqStore.closure
  addToStore := EqStore.addToStore exampleHash
  addOutputEqMember := EqStore.addOutputEqMember
  hashPartOf := exampleHash
  namePartOf := fun _ => "lib"
  currentTrustId := "foo"

/-- The libXmu scenario for the paths `f = foo/libX11`, `r = root/libX11`,
`e = foo/libXext`, `t = root/libXt`, `m = foo/libXmu`, and the classes
`1 = X11`, `2 = Xext`, `3 = Xt`, `4 = Xmu`. -/
def libXmuStoreAt (f r e t m : Path) : EqStore where
  references :=
    [(f, []), (r, []), (e, [f]), (t, [r]), (m, setInsert e [t])].foldl
      (fun acc kv => mapInsert kv.1 kv.2 acc) []
  eqMembers := [(1, "foo", f), (1, "root", r), (2, "foo", e), (3, "root", t), (4, "foo", m)]

/-- The test of the libXmu scenario: `consolidatePaths` returns four paths,
exactly one of `f` and `r` among them, after two rewrites. -/
def libXmuCheck (f r e t m : Path) : Bool :=
  match consolidatePaths eqStoreOps 10 (libXmuStoreAt f r e t m) [1, 2, 3, 4, 5] false [] with
  | Result.ok c =>
    decide (c.newPaths.length = 4) && decide (c.nrRewrites = 2) &&
      decide ((f ∈ c.newPaths ∧ r ∉ c.newPaths) ∨ (f ∉ c.newPaths ∧ r ∈ c.newPaths))
  | _ => false

/-- The lists obtained by inserting `x` at one position of a list. -/
def insertions (x : Nat) : List Nat → List (List Nat)
  | [] => [[x]]
  | y :: ys => (x :: y :: ys) :: (insertions x ys).map (fun l => y :: l)

/-- The permutations of a list. -/
def perms : List Nat → List (List Nat)
  | [] => [[]]
  | x :: xs => (perms xs).flatMap (insertions x)

/-- A store in which the paths `1` and `2` are members of the class `1`, the
path `2` also of the class `2` and the path `1` also of the class `3`; the
paths `3` and `4` are the members of the class `4`, and `3` references `1`. -/
def sharedStore : EqStore where
  references := [(1, []), (2, []), (3, [1]), (4, [])]
  eqMembers := [(1, "foo", 1), (1, "foo", 2), (2, "foo", 2), (3, "foo", 1), (4, "foo", 3),
    (4, "foo", 4)]

/-- The store `sharedStore` after the consolidation of the paths `1, 2, 3, 4`:
the new path `5` references `2` and is a member of the class `4`. -/
def sharedStoreAfter : EqStore where
  references := [(1, []), (2, []), (3, [1]), (4, []), (5, [2])]
  eqMembers := [(1, "foo", 1), (1, "foo", 2), (2, "foo", 2), (3, "foo", 1), (4, "foo", 3),
    (4, "foo", 4), (4, "foo", 5)]

/-! ## Planning of missing paths (`queryMissing`) -/

/-- The type `DerivationOutput`. -/
structure DerivationOutput where
  path : Path
  eqClass : OutputEqClass
  deriving DecidableEq

/-- The type `Derivation`: `outputs` and `inputDrvs` are maps in key order. -/
structure Derivation where
  outputs : List (String × DerivationOutput)
  inputSrcs : PathSet
  inputDrvs : List (Path × List String)
  deriving DecidableEq

/-- The functions and settings that `queryMissing` uses and that are not part
of these sources. -/
structure MissingEnv where
  isDerivation : Path → Bool
  parseDrvPathWithOutputs : Path → Path × List String
  makeDrvPathWithOutputs : Path → List String → Path
  wantOutput : String → List String → Bool
  derivationFromPath : Path → Derivation
  willBuildLocally : Derivation → Bool
  useSubstitutes : Bool

/-- The five results of `queryMissing`. -/
structure Missing where
  willBuild : PathSet
  willSubstitute : PathSet
  unknown : PathSet
  downloadSize : Nat
  narSize : Nat
  deriving DecidableEq

/-- The variables of the first loop of a round of `queryMissing`. -/
structure ScanState where
  done : PathSet
  unknown : PathSet
  query : PathSet
  todoDrv : PathSet
  todoNonDrv : PathSet

/-- The set `invalid` of a derivation request: the wanted outputs that are not valid. -/
def invalidOutputs (store : StoreAPI) (env : MissingEnv) (drv : Derivation)
    (wanted : List String) : PathSet :=
  drv.outputs.foldl (fun acc j =>
    if env.wantOutput j.1 wanted && !store.isValidPath j.2.path then setInsert j.2.path acc
    else acc) []

/-- The body of the first loop of a round, for the element `i` of `todo`. -/
def scanStep (store : StoreAPI) (env : MissingEnv) (s : ScanState) (i : Path) : ScanState :=
  if i ∈ s.done then s
  else
    let s1 := { s with done := setInsert i s.done }
    let i2 := env.parseDrvPathWithOutputs i
    if env.isDerivation i2.1 then
      if !store.isValidPath i2.1 then { s1 with unknown := setInsert i s1.unknown }
      else
        let drv := env.derivationFromPath i2.1
        let invalid := invalidOutputs store env drv i2.2
        if invalid.isEmpty then s1
        else
          let s2 := { s1 with todoDrv := setInsert i s1.todoDrv }
          if env.useSubstitutes && !env.willBuildLocally drv then
            { s2 with query := setUnion s2.query invalid }
          else s2
    else
      if store.isValidPath i then s1
      else { s1 with query := setInsert i s1.query, todoNonDrv := setInsert i s1.todoNonDrv }

/-- The variables of the second loop of a round of `queryMissing`. -/
structure DrvState where
  willBuild : PathSet
  todo : PathSet
  todoNonDrv : PathSet

/-- The body of the second loop of a round, for the element `i` of `todoDrv`. -/
def drvStep (store : StoreAPI) (env : MissingEnv) (infos : List (Path × SubstitutablePathInfo))
    (s : DrvState) (i : Path) : DrvState :=
  let i2 := env.parseDrvPathWithOutputs i
  let drv := env.derivationFromPath i2.1
  let scan : Bool × PathSet :=
    if env.useSubstitutes && !env.willBuildLocally drv then
      drv.outputs.foldl (fun acc j =>
        if !env.wantOutput j.1 i2.2 then acc
        else if !store.isValidPath j.2.path then
          (if (mapFind j.2.path infos).isNone then (true, acc.2)
           else (acc.1, setInsert j.2.path acc.2))
        else acc) (false, [])
    else (true, [])
  if scan.1 then
    { s with
      willBuild := setInsert i2.1 s.willBuild,
      todo := drv.inputDrvs.foldl
        (fun t j => setInsert (env.makeDrvPathWithOutputs j.1 j.2) t)
        (setUnion s.todo drv.inputSrcs) }
  else { s with todoNonDrv := setUnion s.todoNonDrv scan.2 }

/-- The variables of the third loop of a round of `queryMissing`. -/
structure SubstState where
  done : PathSet
  willSubstitute : PathSet
  unknown : PathSet
  downloadSize : Nat
  narSize : Nat
  todo : PathSet

/-- The body of the third loop of a round, for the element `i` of `todoNonDrv`;
the sizes are `unsigned long long`. -/
def substStep (infos : List (Path × SubstitutablePathInfo)) (s : SubstState) (i : Path) :
    SubstState :=
  let s1 := { s with done := setInsert i s.done }
  match mapFind i infos with
  | some info =>
    { s1 with
      willSubstitute := setInsert i s1.willSubstitute,
      downloadSize := (s1.downloadSize + info.downloadSize) % 2 ^ 64,
      narSize := (s1.narSize + info.narSize) % 2 ^ 64,
      todo := setUnion s1.todo info.references }
  | none => { s1 with unknown := setInsert i s1.unknown }

/-- The `while (!todo.empty())` loop of `queryMissing`, for at most `fuel` rounds. -/
def queryMissingLoop (store : StoreAPI) (env : MissingEnv) :
    Nat → PathSet → PathSet → Missing → Option Missing
  | 0, todo, _, r => if todo.isEmpty then some r else none
  | fuel + 1, todo, done, r =>
    if todo.isEmpty then some r
    else
      let a := todo.foldl (scanStep store env)
        { done := done, unknown := r.unknown, query := [], todoDrv := [], todoNonDrv := [] }
      let infos := store.querySubstitutablePathInfos a.query
      let b := a.todoDrv.foldl (drvStep store env infos)
        { willBuild := r.willBuild, todo := [], todoNonDrv := a.todoNonDrv }
      let c := b.todoNonDrv.foldl (substStep infos)
        { done := a.done, willSubstitute := r.willSubstitute, unknown := a.unknown,
          downloadSize := r.downloadSize, narSize := r.narSize, todo := b.todo }
      queryMissingLoop store env fuel c.todo c.done
        { willBuild := b.willBuild, willSubstitute := c.willSubstitute, unknown := c.unknown,
          downloadSize := c.downloadSize, narSize := c.narSize }

/-- The function `queryMissing(store, targets, willBuild, willSubstitute,
unknown, downloadSize, narSize)`: the three sets are passed in, the two sizes
are reset; `none` when the loop has not ended after `fuel` rounds. -/
def queryMissing (store : StoreAPI) (env : MissingEnv) (fuel : Nat) (targets : PathSet)
    (willBuild willSubstitute unknown : PathSet) : Option Missing :=
  queryMissingLoop store env fuel (setUnion [] targets) []
    { willBuild := willBuild, willSubstitute := willSubstitute, unknown := unknown,
      downloadSize := 0, narSize := 0 }

/-- The sum of `size` of the substitute infos of the paths of `paths`. -/
def sumInfo (infos : List (Path × SubstitutablePathInfo)) (size : SubstitutablePathInfo → Nat)
    (paths : PathSet) : Nat :=
  (paths.map (fun p => ((mapFind p infos).map size).getD 0)).sum

/-- The helper functions of the planner examples: the derivations are the
paths `10` and `11`, and `110` is the request `10!out`. -/
def exampleEnv (drvs : List (Path × Derivation)) : MissingEnv where
  isDerivation := fun p => decide (p = 10 ∨ p = 11)
  parseDrvPathWithOutputs := fun p => if p = 110 then (10, ["out"]) else (p, [])
  makeDrvPathWithOutputs := fun p outs => if p = 10 ∧ outs = ["out"] then 110 else p
  wantOutput := fun name wanted => wanted.isEmpty || decide (name ∈ wanted)
  derivationFromPath := fun p =>
    (mapFind p drvs).getD { outputs := [], inputSrcs := [], inputDrvs := [] }
  willBuildLocally := fun _ => false
  useSubstitutes := true

/-- A store for the planner examples: the valid paths are those of `valid`, and
a substituter answers for the paths of `infos`. -/
def plannerStore (valid : PathSet) (infos : List (Path × SubstitutablePathInfo)) : StoreAPI where
  isValidPath := fun p => decide (p ∈ valid)
  queryReferences := fun _ => []
  queryReferrers := fun _ => []
  queryDeriver := fun _ => 0
  queryValidDerivers := fun _ => []
  queryDerivationOutputs := fun _ => []
  querySubstitutablePathInfos := fun query => infos.filter (fun e => decide (e.1 ∈ query))

/-- The substitute infos of the basic scenario: `1 = x` with the reference
`2 = y`, both substitutable. -/
def basicInfos : List (Path × SubstitutablePathInfo) :=
  [(1, { references := [2], downloadSize := 100, narSize := 400 }),
   (2, { references := [], downloadSize := 100, narSize := 300 })]

/-- The substitute info of the shared-output scenario: only the path `1` is substitutable. -/
def sharedInfos : List (Path × SubstitutablePathInfo) :=
  [(1, { references := [], downloadSize := 100, narSize := 400 })]

/-- The derivations of the shared-output scenario: the derivation `10` has the
output `1`; the derivation `11` has the output `2` and the input derivation
`10` with its output `out`. -/
def sharedDrvs : List (Path × Derivation) :=
  [(10, { outputs := [("out", { path := 1, eqClass := 0 })], inputSrcs := [], inputDrvs := [] }),
   (11, { outputs := [("out", { path := 2, eqClass := 0 })], inputSrcs := [],
          inputDrvs := [(10, ["out"])] })]

/-! ## Choices of representatives -/

/-- The call `s.insert(x)` on a `set<string>`; in `hashrewrite.cc` the elements
of a `PathSet` are the path strings themselves. -/
def stringSetInsert (x : Bytes) : List Bytes → List Bytes
  | [] => [x]
  | y :: ys =>
    if bytesLt x y then x :: y :: ys
    else if x = y then y :: ys
    else y :: stringSetInsert x ys

/-- The loop of `rewriteReferences`, `result` being the set built so far. -/
def rewriteReferencesLoop (w : Nat) (rewrites : HashRewrites) :
    List Bytes → List Bytes → CallResult (List Bytes)
  | [], result => CallResult.ok result
  | i :: rest, result =>
    match rewriteHashes2 w i rewrites with
    | CallResult.ok r => rewriteReferencesLoop w rewrites rest (stringSetInsert r result)
    | CallResult.assertFailed => CallResult.assertFailed
    | CallResult.outOfRange => CallResult.outOfRange
    | CallResult.outOfFuel => CallResult.outOfFuel

/-- The function `rewriteReferences(references, rewrites)`, for a `size_t` of
`w` bits. -/
def rewriteReferences (w : Nat) (references : List Bytes) (rewrites : HashRewrites) :
    CallResult (List Bytes) :=
  rewriteReferencesLoop w rewrites references []

/-- The reference loop for `rewriteReferencesLoop`. -/
def rewriteReferencesLoopIdeal (rewrites : HashRewrites) :
    List Bytes → List Bytes → Option (List Bytes)
  | [], result => some result
  | i :: rest, result =>
    match rewriteHashes2Ideal i rewrites with
    | none => none
    | some r => rewriteReferencesLoopIdeal rewrites rest (stringSetInsert r result)

/-- The store path `<prefix>/<pathhash>-<name>` as a string. -/
def storePath (pre : Bytes) (h : PathHash) (name : Bytes) : Bytes :=
  pre ++ 47 :: (h.rep ++ 45 :: name)

/-- The value that the map gives the hash `h`: the value of the pair with the
key `h`, and `h` itself when `h` is not a key. -/
def HashRewrites.image (m : HashRewrites) (h : PathHash) : PathHash :=
  match m.find? (fun kv => decide (kv.1 = h)) with
  | some kv => kv.2
  | none => h

/-- The path-set rewrite as the specification words it, for a map: the hash
part of each path is replaced by the value that the map gives it, and nothing
else of the path changes. -/
def rewriteHashPartsMap (m : HashRewrites) (parts : List (Bytes × PathHash × Bytes)) :
    List Bytes :=
  (parts.map (fun p => storePath p.1 (m.image p.2.1) p.2.2)).foldl
    (fun acc r => stringSetInsert r acc) []

/-- The prefix `/s` of the example paths. -/
def examplePrefix : Bytes := [47, 115]

/-! ## Conflicts of a set of paths -/

/-- A conflict: two distinct paths of `paths` are members of one output
equivalence class. -/
def Conflict {σ : Type} (ops : StoreOps σ) (store : σ) (paths : PathSet) : Prop :=
  ∃ p ∈ paths, ∃ q ∈ paths, p ≠ q ∧
    ∃ c, c ∈ ops.queryOutputEqClasses store p ∧ c ∈ ops.queryOutputEqClasses store q

/-- The invariant of the first loop of `consolidatePaths` after the paths
`seen`: every set of the class map is a sorted set of seen members of its
class, and every seen member of a class is in the set found for that class. -/
structure ClassMapInv {σ : Type} (ops : StoreOps σ) (store : σ) (seen : List Path)
    (classMap : ClassMap) : Prop where
  sound : ∀ e ∈ classMap, e.2.Sorted (· < ·) ∧
    ∀ x ∈ e.2, x ∈ seen ∧ e.1 ∈ ops.queryOutputEqClasses store x
  complete : ∀ x ∈ seen, ∀ c ∈ ops.queryOutputEqClasses store x,
    ∃ ps, mapFind c classMap = some ps ∧ x ∈ ps

/-- A store with the paths `1`, `2`, `3` in the three classes `1`, `2`, `3`. -/
def disjointStore : EqStore where
  references := [(1, []), (2, [1]), (3, [2])]
  eqMembers := [(1, "foo", 1), (2, "foo", 2), (3, "foo", 3)]

/-! ## Reachability along references -/

/-- The path `q` is reachable from `p` along reference edges through paths
that are not in `avoid` (`p` and `q` included). -/
inductive ReachAvoid (refs : Path → PathSet) (avoid : PathSet) : Path → Path → Prop where
  | refl (p : Path) : p ∉ avoid → ReachAvoid refs avoid p p
  | step (p r q : Path) : p ∉ avoid → r ∈ refs p → ReachAvoid refs avoid r q →
      ReachAvoid refs avoid p q

/-- The relation between the set `v` passed to a call of `computeFSClosure` on
`p` and the set `f` that the call leaves: nothing is removed, `p` is in `f`,
and every added path is reachable from `p` outside `v` and has its references
in `f`. -/
structure ClosurePost (refs : Path → PathSet) (v : PathSet) (p : Path) (f : PathSet) : Prop where
  mono : ∀ x ∈ v, x ∈ f
  root : p ∈ f
  closed : ∀ u ∈ f, u ∉ v → ∀ r ∈ refs u, r ∈ f
  reach : ∀ u ∈ f, u ∉ v → ReachAvoid refs v p u

/-- The specification of a closure function that is sound for `bound` nested
calls on the paths of `allPaths`. -/
def ClosureSpec (refs : Path → PathSet) (allPaths : List Path)
    (visit : Path → PathSet → Option PathSet) (bound : Nat) : Prop :=
  ∀ p v, p ∈ allPaths →
    (remaining allPaths v < bound → visit p v ≠ none) ∧
    (∀ f, visit p v = some f → ClosurePost refs v p f)

/-! ## Rounds of the planner -/

/-- The derivation path of the request `i`. -/
def requestPath (env : MissingEnv) (i : Path) : Path :=
  (env.parseDrvPathWithOutputs i).1

/-- The derivation that the request `i` names. -/
def requestDrv (env : MissingEnv) (i : Path) : Derivation :=
  env.derivationFromPath (env.parseDrvPathWithOutputs i).1

/-- The request `i` names a derivation. -/
def IsDrvRequest (env : MissingEnv) (i : Path) : Prop :=
  env.isDerivation (requestPath env i) = true

instance (env : MissingEnv) (i : Path) : Decidable (IsDrvRequest env i) := by
  unfold IsDrvRequest
  infer_instance

/-- The output path `x` is a wanted output of the request `i` that is not valid. -/
def InvalidOutput (store : StoreAPI) (env : MissingEnv) (i x : Path) : Prop :=
  ∃ j ∈ (requestDrv env i).outputs, j.2.path = x ∧
    env.wantOutput j.1 (env.parseDrvPathWithOutputs i).2 = true ∧ store.isValidPath x = false

/-- The request `i` names a valid derivation with a wanted output that is not valid. -/
def Pending (store : StoreAPI) (env : MissingEnv) (i : Path) : Prop :=
  IsDrvRequest env i ∧ store.isValidPath (requestPath env i) = true ∧
    ∃ x, InvalidOutput store env i x

/-- The derivation of the request `i` has to be built: it is marked to be
built locally, or substitutes are switched off, or `infos` has no entry for
one of its wanted outputs that are not valid. -/
def MustBuild (store : StoreAPI) (env : MissingEnv) (infos : List (Path × SubstitutablePathInfo))
    (i : Path) : Prop :=
  env.willBuildLocally (requestDrv env i) = true ∨ env.useSubstitutes = false ∨
    ∃ x, InvalidOutput store env i x ∧ mapFind x infos = none

/-- One round of the loop of `queryMissing`: the new `todo`, the new `done` and
the new results. -/
def queryMissingRound (store : StoreAPI) (env : MissingEnv) (todo done : PathSet) (r : Missing) :
    PathSet × PathSet × Missing :=
  let a := todo.foldl (scanStep store env)
    { done := done, unknown := r.unknown, query := [], todoDrv := [], todoNonDrv := [] }
  let infos := store.querySubstitutablePathInfos a.query
  let b := a.todoDrv.foldl (drvStep store env infos)
    { willBuild := r.willBuild, todo := [], todoNonDrv := a.todoNonDrv }
  let c := b.todoNonDrv.foldl (substStep infos)
    { done := a.done, willSubstitute := r.willSubstitute, unknown := a.unknown,
      downloadSize := r.downloadSize, narSize := r.narSize, todo := b.todo }
  (c.todo, c.done,
   { willBuild := b.willBuild, willSubstitute := c.willSubstitute, unknown := c.unknown,
     downloadSize := c.downloadSize, narSize := c.narSize })

/-- The request `x` has been processed: it is in `unknown`, in
`willSubstitute` or, as a derivation, in `willBuild`, or it is a valid path
that is not a derivation, or it names a valid derivation all of whose wanted
outputs that are not valid are in `willSubstitute`. -/
def Processed (store : StoreAPI) (env : MissingEnv) (res : Missing) (x : Path) : Prop :=
  x ∈ res.unknown ∨ x ∈ res.willSubstitute ∨ requestPath env x ∈ res.willBuild ∨
    (¬ IsDrvRequest env x ∧ store.isValidPath x = true) ∨
    (IsDrvRequest env x ∧ store.isValidPath (requestPath env x) = true ∧
      ∀ o, InvalidOutput store env x o → o ∈ res.willSubstitute)

/-- The pair `(mustBuild, outputs)` that the second loop of a round computes
for the request `i`. -/
def outputScan (store : StoreAPI) (env : MissingEnv) (infos : List (Path × SubstitutablePathInfo))
    (i : Path) : Bool × PathSet :=
  if env.useSubstitutes && !env.willBuildLocally (requestDrv env i) then
    (requestDrv env i).outputs.foldl (fun acc j =>
      if !env.wantOutput j.1 (env.parseDrvPathWithOutputs i).2 then acc
      else if !store.isValidPath j.2.path then
        (if (mapFind j.2.path infos).isNone then (true, acc.2)
         else (acc.1, setInsert j.2.path acc.2))
      else acc) (false, [])
  else (true, [])

/-- The requests that a derivation that has to be built adds to `todo`: its
input sources and its input derivations with their wanted outputs. -/
def InputOf (env : MissingEnv) (i x : Path) : Prop :=
  x ∈ (requestDrv env i).inputSrcs ∨
    ∃ j ∈ (requestDrv env i).inputDrvs, x = env.makeDrvPathWithOutputs j.1 j.2

/-- The map `infos` of a round of `queryMissing`: the answer of the store to
the query that the first loop of the round has collected. -/
def roundInfos (store : StoreAPI) (env : MissingEnv) (todo done : PathSet) (r : Missing) :
    List (Path × SubstitutablePathInfo) :=
  store.querySubstitutablePathInfos
    (todo.foldl (scanStep store env)
      { done := done, unknown := r.unknown, query := [], todoDrv := [], todoNonDrv := [] }).query

/-- The path `x` is handled by the third loop of the round: it is a new element
of `todo` that is neither a derivation nor valid, or a wanted output that is
not valid of a new derivation of `todo` that does not have to be built. -/
def NonDrvItem (store : StoreAPI) (env : MissingEnv) (infos : List (Path × SubstitutablePathInfo))
    (todo done : PathSet) (x : Path) : Prop :=
  (x ∈ todo ∧ x ∉ done ∧ ¬ IsDrvRequest env x ∧ store.isValidPath x = false) ∨
    ∃ i ∈ todo, i ∉ done ∧ Pending store env i ∧ ¬ MustBuild store env infos i ∧
      InvalidOutput store env i x

/-- The helper functions of `exampleEnv` with every derivation marked to be
built locally. -/
def localEnv (drvs : List (Path × Derivation)) : MissingEnv where
  isDerivation := (exampleEnv drvs).isDerivation
  parseDrvPathWithOutputs := (exampleEnv drvs).parseDrvPathWithOutputs
  makeDrvPathWithOutputs := (exampleEnv drvs).makeDrvPathWithOutputs
  wantOutput := (exampleEnv drvs).wantOutput
  derivationFromPath := (exampleEnv drvs).derivationFromPath
  willBuildLocally := fun _ => true
  useSubstitutes := true

/-! ## Trusted members of a class (`findTrustedEqClassMembers`) -/

/-- An element of `OutputEqMembers`: the trust id and the path of a member of a
class. -/
structure OutputEqMember where
  trustId : TrustId
  path : Path
  deriving DecidableEq

/-- The function `findTrustedEqClassMembers(eqClass, trustId)`, over the query
`queryOutputEqMembers(noTxn, eqClass, ·)`, which is not part of these sources. -/
def findTrustedEqClassMembers (queryOutputEqMembers : OutputEqClass → List OutputEqMember)
    (eqClass : OutputEqClass) (trustId : TrustId) : PathSet :=
  (queryOutputEqMembers eqClass).foldl
    (fun result j =>
      if j.trustId = trustId ∨ j.trustId = "root" then setInsert j.path result else result) []

/-- The function `findTrustedEqClassMember(eqClass, trustId)`; `none` when it
throws the error that no output path of the class is known. -/
def findTrustedEqClassMember (queryOutputEqMembers : OutputEqClass → List OutputEqMember)
    (eqClass : OutputEqClass) (trustId : TrustId) : Option Path :=
  match findTrustedEqClassMembers queryOutputEqMembers eqClass trustId with
  | [] => none
  | p :: _ => some p

/-- The members of a class of the examples: two paths of `foo`, one of `root`
and one of `bar`. -/
def exampleMembers (c : OutputEqClass) : List OutputEqMember :=
  if c = 1 then
    [{ trustId := "foo", path := 4 }, { trustId := "root", path := 2 },
     { trustId := "bar", path := 3 }, { trustId := "foo", path := 1 }]
  else []

/-! ## The constructor of a path hash from a string -/

/-- The two ways in which `PathHash::PathHash(const string &)` rejects its
argument: the failed `assert` on the size, and the error that `parseHash32`
throws. -/
inductive PathHashError where
  | wrongSize
  | invalidHash
  deriving DecidableEq

/-- The constructor `PathHash::PathHash(const string & h)`, over the function
`parseHash32(htSHA1, ·)`, which is not part of these sources and returns `none`
when it throws. -/
def PathHash.ofString {H : Type} (parseHash32 : Bytes → Option H) (h : Bytes) :
    Except PathHashError PathHash :=
  if hsize : h.length = pathHashLen then
    match parseHash32 h with
    | some _ => Except.ok ⟨h, hsize⟩
    | none => Except.error PathHashError.invalidHash
  else Except.error PathHashError.wrongSize

/-- Modelled from the spec: the failure of `parseHash32(htSHA1, s)`, which
throws when a character of `s` is outside the base-32 alphabet. -/
def parseHash32 (s : Bytes) : Option Unit :=
  if s.all (fun c => decide (c ∈ base32Chars)) then some () else none

/-! ## Inputs on which the consolidation fails -/

/-- A store in which the paths `1`, `2`, `3` have no references and are
pairwise members of a common class: the class `1` holds `1` and `2`, the class
`2` holds `2` and `3`, and the class `3` holds `1` and `3`. -/
def triangleStore : EqStore where
  references := [(1, []), (2, []), (3, [])]
  eqMembers := [(1, "foo", 1), (1, "foo", 2), (2, "foo", 2), (2, "foo", 3), (3, "foo", 1),
    (3, "foo", 3)]

/-- A store in which every path is a member of at most one class: the class
`1` holds `1` and `2`, the class `2` holds `5`; the paths `3` and `4` are
sources that reference `1` and `2`, and `5` references both sources. -/
def viaSourcesStore : EqStore where
  references := [(1, []), (2, []), (3, [1]), (4, [2]), (5, [3, 4])]
  eqMembers := [(1, "foo", 1), (1, "foo", 2), (2, "foo", 5)]

/-- A store in which the class `1` holds `1` and `2`, the class `2` holds `2`,
the class `3` holds `1` and the class `4` holds `3`, and `3` references `1`. -/
def sameSizeStore : EqStore where
  references := [(1, []), (2, []), (3, [1])]
  eqMembers := [(1, "foo", 1), (1, "foo", 2), (2, "foo", 2), (3, "foo", 1), (4, "foo", 3)]

/-- A store in which the class `1` holds `1` and `2`, the class `2` holds `1`,
and `1` references `2`. -/
def loopStore : EqStore where
  references := [(1, [2]), (2, [])]
  eqMembers := [(1, "foo", 1), (1, "foo", 2), (2, "foo", 1)]

/-! ## The arguments of `addToStore` -/

/-- The arguments of a call of `addToStore`. -/
structure AddToStoreCall where
  srcPath : Path
  hashPart : PathHash
  name : String
  references : PathSet
  rewrites : HashRewrites
  deriving DecidableEq

/-- The store functions `ops` on a store that also keeps the list of the calls
of `addToStore`, in the order of the calls. -/
def loggingOps {σ : Type} (ops : StoreOps σ) : StoreOps (σ × List AddToStoreCall) where
  queryReferences := fun s p => ops.queryReferences s.1 p
  queryOutputEqClasses := fun s p => ops.queryOutputEqClasses s.1 p
  computeFSClosure := fun s p => ops.computeFSClosure s.1 p
  addToStore := fun s srcPath hashPart name references rewrites =>
    ((ops.addToStore s.1 srcPath hashPart name references rewrites).1,
     ((ops.addToStore s.1 srcPath hashPart name references rewrites).2,
      s.2 ++ [{ srcPath := srcPath, hashPart := hashPart, name := name,
                references := references, rewrites := rewrites }]))
  addOutputEqMember := fun s c t p => (ops.addOutputEqMember s.1 c t p, s.2)
  hashPartOf := ops.hashPartOf
  namePartOf := ops.namePartOf
  currentTrustId := ops.currentTrustId

/-- The scenario of a single conflict: the class `1` holds `1` and `2`, the
class `2` holds `3`, and `3` references `1` and `2`. -/
def terminalStore : EqStore where
  references := [(1, []), (2, []), (3, [1, 2])]
  eqMembers := [(1, "foo", 1), (1, "root", 2), (2, "foo", 3)]

/-! ## Theorems -/

theorem findAux_eq_none (pat : Bytes) : ∀ (x : Bytes) (k : Nat),
    (∀ i, ¬ pat <+: x.drop i) → findAux pat x k = none := by
  intro x
  induction x with
  | nil =>
    intro k h
    have h0 := h 0
    simp only [List.drop_nil] at h0
    simp [findAux, h0]
  | cons c cs ih =>
    intro k h
    have h0 := h 0
    simp only [List.drop_zero] at h0
    have hrest : ∀ i, ¬ pat <+: cs.drop i := fun i => by simpa using h (i + 1)
    simp [findAux, h0, ih (k + 1) hrest]

theorem findAux_eq_some (pat : Bytes) : ∀ (x : Bytes) (m k : Nat),
    pat <+: x.drop m → (∀ i, i < m → ¬ pat <+: x.drop i) → m ≤ x.length →
    findAux pat x k = some (k + m) := by
  intro x
  induction x with
  | nil =>
    intro m k h _ hm
    have : m = 0 := by simpa using hm
    subst this
    simp only [List.drop_nil] at h
    simp [findAux, h]
  | cons c cs ih =>
    intro m k h hlt hm
    cases m with
    | zero =>
      simp only [List.drop_zero] at h
      simp [findAux, h]
    | succ m =>
      have h0 : ¬ pat <+: c :: cs := by simpa using hlt 0 (Nat.succ_pos m)
      have h1 : pat <+: cs.drop m := by simpa using h
      have h2 : ∀ i, i < m → ¬ pat <+: cs.drop i := fun i hi => by
        simpa using hlt (i + 1) (Nat.succ_lt_succ hi)
      have h3 : m ≤ cs.length := by simpa using hm
      simp [findAux, h0, ih m (k + 1) h1 h2 h3]
      omega

theorem findAux_some_spec (pat : Bytes) : ∀ (x : Bytes) (k r : Nat),
    findAux pat x k = some r →
    ∃ m, r = k + m ∧ m ≤ x.length ∧ pat <+: x.drop m ∧ ∀ i, i < m → ¬ pat <+: x.drop i := by
  intro x
  induction x with
  | nil =>
    intro k r h
    by_cases hp : pat <+: []
    · simp [findAux, hp] at h
      exact ⟨0, by omega, by simp, by simpa using hp, by simp⟩
    · simp [findAux, hp] at h
  | cons c cs ih =>
    intro k r h
    by_cases hp : pat <+: c :: cs
    · simp [findAux, hp] at h
      exact ⟨0, by omega, by simp, by simpa using hp, by simp⟩
    · simp [findAux, hp] at h
      obtain ⟨m, hr, hm, hpre, hmin⟩ := ih (k + 1) r h
      refine ⟨m + 1, by omega, by simpa using hm, by simpa using hpre, ?_⟩
      intro i hi
      cases i with
      | zero => simpa using hp
      | succ i => simpa using hmin i (by omega)

theorem find_append (pre x pat : Bytes) :
    find (pre ++ x) pat pre.length = findAux pat x pre.length := by
  simp [find]

theorem drop_of_prefix (pat x : Bytes) (m : Nat) (h : pat <+: x.drop m) :
    x.drop m = pat ++ x.drop (m + pat.length) := by
  obtain ⟨r, hr⟩ := h
  have : x.drop (m + pat.length) = r := by
    rw [← List.drop_drop, ← hr]
    simp
  rw [this, hr]

theorem rewrite_step (pre x from_ to_ : Bytes) (m : Nat) (h : from_ <+: x.drop m)
    (hlen : from_.length = to_.length) :
    x = x.take m ++ from_ ++ x.drop (m + from_.length) ∧
    replace (pre ++ x) (pre.length + m) to_.length to_
      = (pre ++ x.take m ++ to_) ++ x.drop (m + from_.length) := by
  have hd := drop_of_prefix from_ x m h
  constructor
  · conv_lhs => rw [← List.take_append_drop m x, hd]
    simp
  · unfold replace
    rw [List.take_append, ← hlen]
    have : pre.length + m + from_.length = pre.length + (m + from_.length) := by omega
    rw [this, List.drop_append]

theorem prefix_length_le (pat x : Bytes) (m : Nat) (h : pat <+: x.drop m) (hm : m ≤ x.length) :
    m + pat.length ≤ x.length := by
  have := h.length_le
  simp at this
  omega

theorem rewriteLoop_total (from_ to_ : Bytes) (hne : from_ ≠ [])
    (hlen : from_.length = to_.length) :
    ∀ (fuel : Nat) (pre x : Bytes) (positions : List Nat), x.length < fuel →
    ∃ r, rewriteLoop from_ to_ fuel (pre ++ x) pre.length positions = some r := by
  intro fuel
  induction fuel with
  | zero => intro pre x positions h; omega
  | succ fuel ih =>
    intro pre x positions hx
    unfold rewriteLoop
    rw [find_append]
    cases hf : findAux from_ x pre.length with
    | none => exact ⟨_, rfl⟩
    | some k =>
      obtain ⟨m, hk, hm, hp, _⟩ := findAux_some_spec from_ x pre.length k hf
      obtain ⟨_, hrep⟩ := rewrite_step pre x from_ to_ m hp hlen
      have hle := prefix_length_le from_ x m hp hm
      have hpos : 0 < from_.length := List.length_pos.mpr hne
      subst hk
      simp only
      rw [hrep]
      have hj : pre.length + m + to_.length = (pre ++ x.take m ++ to_).length := by
        simp [List.length_take, Nat.min_eq_left hm]; omega
      rw [hj]
      apply ih
      simp
      omega

theorem rewriteLoop_decompose (from_ to_ : Bytes) (hlen : from_.length = to_.length) :
    ∀ (fuel : Nat) (pre x : Bytes) (positions : List Nat) (s' : Bytes) (pos' : List Nat),
    rewriteLoop from_ to_ fuel (pre ++ x) pre.length positions = some (s', pos') →
    ∃ chunks tail, x = fillChunks from_ chunks tail ∧ s' = pre ++ fillChunks to_ chunks tail ∧
      pos' = positions ++ holeOffsets from_.length chunks pre.length ∧ chunks.length < fuel := by
  intro fuel
  induction fuel with
  | zero => intro pre x positions s' pos' h; simp [rewriteLoop] at h
  | succ fuel ih =>
    intro pre x positions s' pos' h
    unfold rewriteLoop at h
    rw [find_append] at h
    cases hf : findAux from_ x pre.length with
    | none =>
      rw [hf] at h
      simp only [Option.some.injEq, Prod.mk.injEq] at h
      exact ⟨[], x, rfl, h.1.symm, by simp [holeOffsets, h.2], by simp⟩
    | some k =>
      rw [hf] at h
      obtain ⟨m, hk, hm, hp, _⟩ := findAux_some_spec from_ x pre.length k hf
      obtain ⟨hx, hrep⟩ := rewrite_step pre x from_ to_ m hp hlen
      subst hk
      simp only at h
      rw [hrep] at h
      have hj : pre.length + m + to_.length = (pre ++ x.take m ++ to_).length := by
        simp [List.length_take, Nat.min_eq_left hm]; omega
      rw [hj] at h
      obtain ⟨chunks, tail, h1, h2, h3, h4⟩ := ih _ _ _ _ _ h
      refine ⟨x.take m :: chunks, tail, ?_, ?_, ?_, by simpa using h4⟩
      · rw [fillChunks, ← h1]; exact hx
      · rw [h2, fillChunks]; simp
      · rw [h3, holeOffsets, ← hj, hlen]
        simp [List.length_take, Nat.min_eq_left hm]

theorem holeOffsets_ge (n : Nat) : ∀ (chunks : List Bytes) (base x : Nat),
    x ∈ holeOffsets n chunks base → base ≤ x := by
  intro chunks
  induction chunks with
  | nil => intro base x h; simp [holeOffsets] at h
  | cons lit rest ih =>
    intro base x h
    simp only [holeOffsets, List.mem_cons] at h
    rcases h with h | h
    · omega
    · have := ih _ _ h; omega

theorem rewriteLoop_fill (pat to_ : Bytes) (hne : pat ≠ []) (hlen : pat.length = to_.length) :
    ∀ (chunks : List Bytes) (tail : Bytes) (fuel : Nat) (pre : Bytes) (positions : List Nat),
    chunks.length < fuel →
    (∀ k, pat <+: (fillChunks pat chunks tail).drop k →
      pre.length + k ∈ holeOffsets pat.length chunks pre.length) →
    rewriteLoop pat to_ fuel (pre ++ fillChunks pat chunks tail) pre.length positions
      = some (pre ++ fillChunks to_ chunks tail,
              positions ++ holeOffsets pat.length chunks pre.length) := by
  intro chunks
  induction chunks with
  | nil =>
    intro tail fuel pre positions hf hocc
    cases fuel with
    | zero => simp at hf
    | succ fuel =>
      unfold rewriteLoop
      rw [find_append]
      have : findAux pat (fillChunks pat [] tail) pre.length = none := by
        apply findAux_eq_none
        intro i hi
        have := hocc i hi
        simp [holeOffsets] at this
      rw [this]
      simp [fillChunks, holeOffsets]
  | cons lit rest ih =>
    intro tail fuel pre positions hf hocc
    have hpos : 0 < pat.length := List.length_pos.mpr hne
    cases fuel with
    | zero => simp at hf
    | succ fuel =>
      unfold rewriteLoop
      rw [find_append]
      have hat : pat <+: (fillChunks pat (lit :: rest) tail).drop lit.length := by
        simp [fillChunks]
      have hfirst : findAux pat (fillChunks pat (lit :: rest) tail) pre.length
          = some (pre.length + lit.length) := by
        apply findAux_eq_some _ _ _ _ hat
        · intro i hi hpi
          have := hocc i hpi
          simp only [holeOffsets, List.mem_cons] at this
          rcases this with h | h
          · omega
          · have := holeOffsets_ge _ _ _ _ h; omega
        · simp [fillChunks]
      rw [hfirst]
      simp only
      obtain ⟨_, hrep⟩ := rewrite_step pre (fillChunks pat (lit :: rest) tail) pat to_
        lit.length hat hlen
      rw [hrep]
      have htake : (fillChunks pat (lit :: rest) tail).take lit.length = lit := by
        simp [fillChunks]
      have hdrop : (fillChunks pat (lit :: rest) tail).drop (lit.length + pat.length)
          = fillChunks pat rest tail := by
        simp [fillChunks, ← List.drop_drop]
      rw [htake, hdrop]
      have hj : pre.length + lit.length + to_.length = (pre ++ lit ++ to_).length := by
        simp; omega
      rw [hj]
      rw [ih tail fuel (pre ++ lit ++ to_) (positions ++ [pre.length + lit.length])
        (by simpa using hf) ?_]
      · simp [fillChunks, holeOffsets, hlen, Nat.add_assoc]
      · intro k hk
        have hk' : pat <+: (fillChunks pat (lit :: rest) tail).drop (lit.length + pat.length + k) := by
          rw [← List.drop_drop, hdrop]; exact hk
        have := hocc _ hk'
        simp only [holeOffsets, List.mem_cons] at this
        rcases this with h | h
        · omega
        · have e : (pre ++ lit ++ to_).length = pre.length + lit.length + pat.length := by
            simp [hlen]; omega
          rw [e]
          have e2 : pre.length + lit.length + pat.length + k
              = pre.length + (lit.length + pat.length + k) := by omega
          rw [e2]; exact h

theorem fillChunks_length_eq (x y : Bytes) (h : x.length = y.length) :
    ∀ (chunks : List Bytes) (tail : Bytes),
    (fillChunks x chunks tail).length = (fillChunks y chunks tail).length := by
  intro chunks
  induction chunks with
  | nil => intro tail; rfl
  | cons lit rest ih => intro tail; simp [fillChunks, ih tail, h]

theorem chunks_length_le (x : Bytes) (hx : 0 < x.length) :
    ∀ (chunks : List Bytes) (tail : Bytes),
    chunks.length ≤ (fillChunks x chunks tail).length := by
  intro chunks
  induction chunks with
  | nil => intro tail; simp
  | cons lit rest ih =>
    intro tail
    have := ih tail
    simp [fillChunks]
    omega

theorem PathHash.rep_ne_nil (h : PathHash) : h.rep ≠ [] := by
  intro e
  have := h.size_eq
  rw [e] at this
  simp [pathHashLen] at this

theorem rewriteHashesIdeal_single (s : Bytes) (f t : PathHash) :
    rewriteHashesIdeal s [(f, t)] [] = rewriteLoop f.rep t.rep (s.length + 1) s 0 [] := by
  simp only [rewriteHashesIdeal, PathHash.toString, f.size_eq, t.size_eq, if_true]
  cases rewriteLoop f.rep t.rep (s.length + 1) s 0 [] with
  | none => rfl
  | some r => rfl

theorem inverse_single (f t : PathHash) : HashRewrites.inverse [(f, t)] = [(t, f)] := by
  simp [HashRewrites.inverse, HashRewrites.insert]

theorem rewriteHashesIdeal_fill (c : Template) (h z : PathHash)
    (hc : ∀ k, h.rep <+: (c.fill h).drop k → k ∈ c.offsets) :
    rewriteHashesIdeal (c.fill h) [(h, z)] [] = some (c.fill z, c.offsets) := by
  rw [rewriteHashesIdeal_single]
  have hlen : h.rep.length = z.rep.length := by rw [h.size_eq, z.size_eq]
  have := rewriteLoop_fill h.rep z.rep h.rep_ne_nil hlen c.chunks c.tail
    ((c.fill h).length + 1) [] []
    (Nat.lt_succ_of_le (chunks_length_le h.rep (List.length_pos.mpr h.rep_ne_nil) _ _))
    (by
      intro k hk
      have := hc k hk
      simpa [Template.offsets, h.size_eq] using this)
  simpa [Template.fill, Template.offsets, h.size_eq] using this

theorem rewriteHashesIdeal_template (s : Bytes) (f t : PathHash) :
    ∃ c : Template, s = c.fill f ∧ rewriteHashesIdeal s [(f, t)] [] = some (c.fill t, c.offsets) := by
  have hlen : f.rep.length = t.rep.length := by rw [f.size_eq, t.size_eq]
  obtain ⟨r, hr⟩ := rewriteLoop_total f.rep t.rep f.rep_ne_nil hlen (s.length + 1) [] s []
    (Nat.lt_succ_self _)
  obtain ⟨s', pos'⟩ := r
  obtain ⟨chunks, tail, h1, h2, h3, _⟩ := rewriteLoop_decompose f.rep t.rep hlen _ _ _ _ _ _ hr
  refine ⟨⟨chunks, tail⟩, h1, ?_⟩
  rw [rewriteHashesIdeal_single]
  simp only [List.nil_append, List.length_nil] at hr h2 h3
  rw [hr, h2, h3]
  simp [Template.fill, Template.offsets, f.size_eq]

/-- The round trip of the reference function for a map with the single pair
`(f, t)`: it returns a blob `b'` and the list of rewritten offsets; when `t`
occurs in `b'` at recorded offsets only, rewriting `b'` with the inverse map
gives `b` back. -/
theorem rewriteHashesIdeal_roundtrip_single (b : Bytes) (f t : PathHash) :
    ∃ b' positions, rewriteHashesIdeal b [(f, t)] [] = some (b', positions) ∧
      ((∀ k, t.rep <+: b'.drop k → k ∈ positions) →
        rewriteHashesIdeal b' (HashRewrites.inverse [(f, t)]) [] = some (b, positions)) := by
  obtain ⟨c, hb, hr⟩ := rewriteHashesIdeal_template b f t
  refine ⟨c.fill t, c.offsets, hr, ?_⟩
  intro hocc
  rw [inverse_single, hb]
  exact rewriteHashesIdeal_fill c t f hocc

theorem insert_nil (k v : PathHash) : HashRewrites.insert k v [] = [(k, v)] := rfl

theorem hashModuloInputIdeal_fill (c : Template) (h : PathHash) (hn : h.isNull = false)
    (hc : ∀ k, h.rep <+: (c.fill h).drop k → k ∈ c.offsets) :
    hashModuloInputIdeal (c.fill h) h
      = some (positionPrefixIdeal c.offsets ++ c.fill PathHash.null) := by
  simp [hashModuloInputIdeal, hn, insert_nil, rewriteHashesIdeal_fill c h PathHash.null hc]

theorem formatNat_ne_nil (n : Nat) : formatNat n ≠ [] := by
  unfold formatNat
  split
  · simp
  · rename_i h
    simp [Nat.digits_ne_nil_iff_ne_zero, h]

theorem formatNat_digit (n d : Nat) (h : d ∈ formatNat n) : d ≠ 124 := by
  unfold formatNat at h
  split at h
  · simp at h; omega
  · simp only [List.mem_map, List.mem_reverse] at h
    obtain ⟨a, ha, rfl⟩ := h
    have := Nat.digits_lt_base (by norm_num : 1 < 10) ha
    omega

theorem formatNat_injective (n m : Nat) (h : formatNat n = formatNat m) : n = m := by
  have key : ∀ k, k ≠ 0 → (Nat.digits 10 k).reverse.map (fun d => d + 48) ≠ [48] := by
    intro k hk e
    have hl : ((Nat.digits 10 k).reverse.map (fun d => d + 48)).length = 1 := by rw [e]; rfl
    simp at hl
    have hne : Nat.digits 10 k ≠ [] := by simp [Nat.digits_ne_nil_iff_ne_zero, hk]
    have hlast := Nat.getLast_digit_ne_zero 10 hk
    obtain ⟨a, ha⟩ := List.length_eq_one.mp hl
    simp [ha] at e hlast
    omega
  have inj : Function.Injective (fun d : Nat => d + 48) := fun a b hab => by
    simp at hab; exact hab
  unfold formatNat at h
  by_cases hn : n = 0 <;> by_cases hm : m = 0
  · rw [hn, hm]
  · simp only [hn, hm, if_true, if_false] at h
    exact absurd h.symm (key m hm)
  · simp only [hn, hm, if_true, if_false] at h
    exact absurd h (key n hn)
  · simp only [hn, hm, if_false] at h
    have := List.map_injective_iff.mpr inj h
    have := List.reverse_injective this
    exact Nat.digits.injective 10 this

theorem foldl_positions (ps : List Nat) : ∀ (a : Bytes),
    ps.foldl (fun acc i => acc ++ (124 :: formatNat i)) a
      = a ++ ps.foldl (fun acc i => acc ++ (124 :: formatNat i)) [] := by
  induction ps with
  | nil => intro a; simp
  | cons p ps ih =>
    intro a
    simp only [List.foldl_cons]
    rw [ih (a ++ 124 :: formatNat p), ih ([] ++ 124 :: formatNat p)]
    simp

theorem positionPrefixIdeal_nil : positionPrefixIdeal [] = [124, 124] := rfl

theorem positionPrefixIdeal_cons (p : Nat) (ps : List Nat) :
    positionPrefixIdeal (p :: ps) = 124 :: (formatNat p ++ positionPrefixIdeal ps) := by
  unfold positionPrefixIdeal
  simp only [List.foldl_cons]
  rw [foldl_positions]
  simp

theorem positionPrefixIdeal_head (ps : List Nat) : ∃ r, positionPrefixIdeal ps = 124 :: r := by
  cases ps with
  | nil => exact ⟨_, rfl⟩
  | cons p ps => exact ⟨_, positionPrefixIdeal_cons p ps⟩

theorem digits_run (d1 : Bytes) : ∀ (d2 r1 r2 : Bytes),
    (∀ x ∈ d1, x ≠ 124) → (∀ x ∈ d2, x ≠ 124) →
    d1 ++ 124 :: r1 = d2 ++ 124 :: r2 → d1 = d2 ∧ r1 = r2 := by
  induction d1 with
  | nil =>
    intro d2 r1 r2 _ h2 e
    cases d2 with
    | nil => simpa using e
    | cons b d2 =>
      simp only [List.nil_append, List.cons_append, List.cons.injEq] at e
      exact absurd e.1.symm (h2 b (List.mem_cons_self _ _))
  | cons a d1 ih =>
    intro d2 r1 r2 h1 h2 e
    cases d2 with
    | nil =>
      simp only [List.nil_append, List.cons_append, List.cons.injEq] at e
      exact absurd e.1 (h1 a (List.mem_cons_self _ _))
    | cons b d2 =>
      simp only [List.cons_append, List.cons.injEq] at e
      obtain ⟨hd, hr⟩ := ih d2 r1 r2 (fun x hx => h1 x (List.mem_cons_of_mem _ hx))
        (fun x hx => h2 x (List.mem_cons_of_mem _ hx)) e.2
      exact ⟨by rw [e.1, hd], hr⟩

theorem positionPrefixIdeal_parse (p1 : List Nat) : ∀ (p2 : List Nat) (z1 z2 : Bytes),
    positionPrefixIdeal p1 ++ z1 = positionPrefixIdeal p2 ++ z2 → p1 = p2 ∧ z1 = z2 := by
  induction p1 with
  | nil =>
    intro p2 z1 z2 e
    cases p2 with
    | nil => simpa [positionPrefixIdeal_nil] using e
    | cons q qs =>
      rw [positionPrefixIdeal_nil, positionPrefixIdeal_cons] at e
      obtain ⟨d, ds, hd⟩ := List.exists_cons_of_ne_nil (formatNat_ne_nil q)
      have hmem : d ∈ formatNat q := by rw [hd]; exact List.mem_cons_self _ _
      rw [hd] at e
      simp only [List.cons_append, List.cons.injEq, true_and] at e
      exact absurd e.1.symm (formatNat_digit q d hmem)
  | cons p ps ih =>
    intro p2 z1 z2 e
    cases p2 with
    | nil =>
      rw [positionPrefixIdeal_nil, positionPrefixIdeal_cons] at e
      obtain ⟨d, ds, hd⟩ := List.exists_cons_of_ne_nil (formatNat_ne_nil p)
      have hmem : d ∈ formatNat p := by rw [hd]; exact List.mem_cons_self _ _
      rw [hd] at e
      simp only [List.cons_append, List.cons.injEq, true_and] at e
      exact absurd e.1 (formatNat_digit p d hmem)
    | cons q qs =>
      rw [positionPrefixIdeal_cons, positionPrefixIdeal_cons] at e
      obtain ⟨r1, hr1⟩ := positionPrefixIdeal_head ps
      obtain ⟨r2, hr2⟩ := positionPrefixIdeal_head qs
      simp only [List.cons_append, List.cons.injEq, true_and, List.append_assoc] at e
      have e' := e
      rw [hr1, hr2] at e'
      simp only [List.cons_append] at e'
      obtain ⟨hfmt, _⟩ := digits_run _ _ _ _ (formatNat_digit p) (formatNat_digit q) e'
      have hpq := formatNat_injective p q hfmt
      subst hpq
      have := List.append_cancel_left e
      obtain ⟨h1, h2⟩ := ih qs z1 z2 this
      exact ⟨by rw [h1], h2⟩

theorem fill_offsets_inj (n : Nat) (z : Bytes) : ∀ (chunks1 chunks2 : List Bytes)
    (tail1 tail2 : Bytes) (base : Nat),
    fillChunks z chunks1 tail1 = fillChunks z chunks2 tail2 →
    holeOffsets n chunks1 base = holeOffsets n chunks2 base →
    chunks1 = chunks2 ∧ tail1 = tail2 := by
  intro chunks1
  induction chunks1 with
  | nil =>
    intro chunks2 tail1 tail2 base hf ho
    cases chunks2 with
    | nil => exact ⟨rfl, hf⟩
    | cons l2 r2 => simp [holeOffsets] at ho
  | cons l1 r1 ih =>
    intro chunks2 tail1 tail2 base hf ho
    cases chunks2 with
    | nil => simp [holeOffsets] at ho
    | cons l2 r2 =>
      simp only [holeOffsets, List.cons.injEq] at ho
      have hl : l1.length = l2.length := by omega
      simp only [fillChunks, List.append_assoc] at hf
      obtain ⟨e1, e2⟩ := List.append_inj hf hl
      have e3 := List.append_cancel_left e2
      have ho2 := ho.2
      rw [hl] at ho2
      obtain ⟨h1, h2⟩ := ih r2 tail1 tail2 _ e3 ho2
      exact ⟨by rw [e1, h1], h2⟩

theorem hashModuloInputIdeal_eq (s : Bytes) (m : PathHash) (hm : m.isNull = false) :
    ∃ c : Template, s = c.fill m ∧
      hashModuloInputIdeal s m = some (positionPrefixIdeal c.offsets ++ c.fill PathHash.null) := by
  obtain ⟨c, hs, hr⟩ := rewriteHashesIdeal_template s m PathHash.null
  exact ⟨c, hs, by simp [hashModuloInputIdeal, hm, insert_nil, hr]⟩

/-- The reference function for `hashModuloInput` with a non-null modulus `m`
always has a value, that string determines the input blob, and two blobs with
the same zeroed content but different lists of rewritten offsets give
different strings. -/
theorem hashModuloInputIdeal_injective (m : PathHash) (hm : m.isNull = false) :
    (∀ s, ∃ x, hashModuloInputIdeal s m = some x) ∧
    (∀ s1 s2, hashModuloInputIdeal s1 m = hashModuloInputIdeal s2 m → s1 = s2) ∧
    (∀ s1 s2 z p1 p2,
      rewriteHashesIdeal s1 (HashRewrites.insert m PathHash.null []) [] = some (z, p1) →
      rewriteHashesIdeal s2 (HashRewrites.insert m PathHash.null []) [] = some (z, p2) →
      p1 ≠ p2 → hashModuloInputIdeal s1 m ≠ hashModuloInputIdeal s2 m) := by
  refine ⟨?_, ?_, ?_⟩
  · intro s
    obtain ⟨c, _, hc⟩ := hashModuloInputIdeal_eq s m hm
    exact ⟨_, hc⟩
  · intro s1 s2 e
    obtain ⟨c1, hs1, h1⟩ := hashModuloInputIdeal_eq s1 m hm
    obtain ⟨c2, hs2, h2⟩ := hashModuloInputIdeal_eq s2 m hm
    rw [h1, h2] at e
    obtain ⟨hp, hz⟩ := positionPrefixIdeal_parse _ _ _ _ (Option.some.inj e)
    obtain ⟨hc, ht⟩ := fill_offsets_inj pathHashLen PathHash.null.rep c1.chunks c2.chunks
      c1.tail c2.tail 0 hz hp
    rw [hs1, hs2, Template.fill, Template.fill, hc, ht]
  · intro s1 s2 z p1 p2 h1 h2 hne e
    have e1 : hashModuloInputIdeal s1 m = some (positionPrefixIdeal p1 ++ z) := by
      simp [hashModuloInputIdeal, hm, h1]
    have e2 : hashModuloInputIdeal s2 m = some (positionPrefixIdeal p2 ++ z) := by
      simp [hashModuloInputIdeal, hm, h2]
    rw [e1, e2] at e
    exact hne (positionPrefixIdeal_parse _ _ _ _ (Option.some.inj e)).1

theorem occurrences_bounded (pat s : Bytes) (offs : List Nat) (hne : pat ≠ [])
    (h : ∀ k ∈ List.range s.length, pat <+: s.drop k → k ∈ offs) :
    ∀ k, pat <+: s.drop k → k ∈ offs := by
  intro k hk
  by_cases hlt : k < s.length
  · exact h k (List.mem_range.mpr hlt) hk
  · rw [List.drop_eq_nil_of_le (by omega)] at hk
    exact absurd (List.prefix_nil.mp hk) hne

set_option maxRecDepth 100000 in
/-- The reference functions on the template `a‹self›` and the distinct
non-null hashes `aaa…a` and `bbb…b`, neither of which occurs in the literal
text of the template: the offset `0` is recorded for the first and the offset
`1` for the second, and the strings for the digest function differ. -/
theorem hashModuloInputIdeal_shifted :
    repHash 97 ≠ repHash 98 ∧ (repHash 97).isNull = false ∧ (repHash 98).isNull = false ∧
    rewriteHashesIdeal (templateA.fill (repHash 97))
        (HashRewrites.insert (repHash 97) PathHash.null []) []
      = some (PathHash.null.rep ++ [97], [0]) ∧
    rewriteHashesIdeal (templateA.fill (repHash 98))
        (HashRewrites.insert (repHash 98) PathHash.null []) []
      = some (97 :: PathHash.null.rep, [1]) ∧
    hashModuloInputIdeal (templateA.fill (repHash 97)) (repHash 97)
      ≠ hashModuloInputIdeal (templateA.fill (repHash 98)) (repHash 98) := by
  have h1 : rewriteHashesIdeal (templateA.fill (repHash 97))
        (HashRewrites.insert (repHash 97) PathHash.null []) []
      = some (PathHash.null.rep ++ [97], [0]) := by decide
  have h2 : rewriteHashesIdeal (templateA.fill (repHash 98))
        (HashRewrites.insert (repHash 98) PathHash.null []) []
      = some (97 :: PathHash.null.rep, [1]) := by decide
  have n1 : (repHash 97).isNull = false := by decide
  have n2 : (repHash 98).isNull = false := by decide
  refine ⟨by decide, n1, n2, h1, h2, ?_⟩
  intro e
  have e1 : hashModuloInputIdeal (templateA.fill (repHash 97)) (repHash 97)
      = some (positionPrefixIdeal [0] ++ (PathHash.null.rep ++ [97])) := by
    simp [hashModuloInputIdeal, n1, h1]
  have e2 : hashModuloInputIdeal (templateA.fill (repHash 98)) (repHash 98)
      = some (positionPrefixIdeal [1] ++ (97 :: PathHash.null.rep)) := by
    simp [hashModuloInputIdeal, n2, h2]
  rw [e1, e2] at e
  have := (positionPrefixIdeal_parse _ _ _ _ (Option.some.inj e)).1
  simp at this


theorem mem_setInsert (x y : Nat) : ∀ (s : List Nat), y ∈ setInsert x s ↔ y = x ∨ y ∈ s := by
  intro s
  induction s with
  | nil => simp [setInsert]
  | cons z zs ih =>
    unfold setInsert
    split
    · simp
    · split
      · rename_i h; subst h; simp
      · simp [ih]; tauto

theorem mem_setErase (x y : Nat) (s : List Nat) : y ∈ setErase x s ↔ y ≠ x ∧ y ∈ s := by
  simp [setErase]; tauto

theorem remaining_le (paths v1 v2 : List Path) (h : ∀ y ∈ v1, y ∈ v2) :
    remaining paths v2 ≤ remaining paths v1 := by
  unfold remaining
  apply Finset.card_le_card
  intro y hy
  simp only [Finset.mem_sdiff, List.mem_toFinset] at hy ⊢
  exact ⟨hy.1, fun hv => hy.2 (h y hv)⟩

theorem remaining_insert_lt (paths v : List Path) (x : Path) (hx : x ∈ paths) (hv : x ∉ v) :
    remaining paths (setInsert x v) < remaining paths v := by
  unfold remaining
  apply Finset.card_lt_card
  rw [Finset.ssubset_iff_of_subset]
  · refine ⟨x, ?_, ?_⟩
    · simp [hx, hv]
    · simp [mem_setInsert]
  · intro y hy
    simp only [Finset.mem_sdiff, List.mem_toFinset, mem_setInsert] at hy ⊢
    exact ⟨hy.1, fun h => hy.2 (Or.inr h)⟩

theorem remaining_le_length (paths v : List Path) : remaining paths v ≤ paths.length := by
  unfold remaining
  calc (paths.toFinset \ v.toFinset).card ≤ paths.toFinset.card :=
        Finset.card_le_card Finset.sdiff_subset
    _ ≤ paths.length := List.toFinset_card_le paths

theorem DfsPost.refl {store : StoreAPI} {paths : PathSet} {st : DfsState}
    (h : DfsInv store paths st) : DfsPost store paths st st :=
  ⟨h, fun _ => Iff.rfl, ⟨[], rfl, by simp⟩, fun _ hy => hy⟩

theorem DfsPost.trans {store : StoreAPI} {paths : PathSet} {st st1 st2 : DfsState}
    (h1 : DfsPost store paths st st1) (h2 : DfsPost store paths st1 st2) :
    DfsPost store paths st st2 := by
  obtain ⟨n1, e1, f1⟩ := h1.sorted
  obtain ⟨n2, e2, f2⟩ := h2.sorted
  refine ⟨h2.inv, fun y => (h2.parents y).trans (h1.parents y), ⟨n2 ++ n1, ?_, ?_⟩,
    fun y hy => h2.visited y (h1.visited y hy)⟩
  · rw [e2, e1, List.append_assoc]
  · intro y hy
    rcases List.mem_append.mp hy with h | h
    · exact fun hv => f2 y h (h1.visited y hv)
    · exact f1 y h

theorem DfsPost.mem_sorted {store : StoreAPI} {paths : PathSet} {st st' : DfsState}
    (h : DfsPost store paths st st') {y : Path} (hy : y ∈ st.sorted) : y ∈ st'.sorted := by
  obtain ⟨n, e, _⟩ := h.sorted
  rw [e]; exact List.mem_append_right _ hy

theorem forEach_spec {store : StoreAPI} {paths : PathSet}
    {visit : Path → DfsState → Outcome DfsState} {bound : Nat}
    (hv : VisitSpec store paths visit bound) :
    ∀ (l : List Path) (st : DfsState), (∀ i ∈ l, i ∈ paths) → DfsInv store paths st →
    (∀ i ∈ l, ∀ a ∈ st.parents, Relation.TransGen (RefEdge store paths) a i) →
    (remaining paths st.visited < bound → forEach visit l st ≠ Outcome.outOfFuel) ∧
    (∀ st', forEach visit l st = Outcome.ok st' →
      DfsPost store paths st st' ∧ ∀ i ∈ l, i ∈ st'.sorted) ∧
    (∀ p, forEach visit l st = Outcome.cycle p →
      ∃ c, Relation.TransGen (RefEdge store paths) c c) := by
  intro l
  induction l with
  | nil =>
    intro st _ hinv _
    refine ⟨fun _ => by simp [forEach], ?_, fun p h => by simp [forEach] at h⟩
    intro st' h
    simp only [forEach, Outcome.ok.injEq] at h
    subst h
    exact ⟨DfsPost.refl hinv, by simp⟩
  | cons i rest ih =>
    intro st hl hinv hreach
    obtain ⟨v1, v2, v3⟩ := hv i st (hl i (List.mem_cons_self _ _)) hinv
      (hreach i (List.mem_cons_self _ _))
    unfold forEach
    cases hr : visit i st with
    | outOfFuel =>
      refine ⟨fun hb => absurd hr (v1 hb), fun st' h => by simp at h, fun p h => by simp at h⟩
    | cycle p =>
      refine ⟨fun _ => by simp, fun st' h => by simp at h, fun _ _ => v3 p hr⟩
    | ok st1 =>
      obtain ⟨hp1, hi1⟩ := v2 st1 hr
      have hreach1 : ∀ j ∈ rest, ∀ a ∈ st1.parents,
          Relation.TransGen (RefEdge store paths) a j := fun j hj a ha =>
        hreach j (List.mem_cons_of_mem _ hj) a ((hp1.parents a).mp ha)
      obtain ⟨r1, r2, r3⟩ := ih st1 (fun j hj => hl j (List.mem_cons_of_mem _ hj)) hp1.inv hreach1
      simp only
      refine ⟨fun hb => r1 (lt_of_le_of_lt (remaining_le _ _ _ hp1.visited) hb), ?_, r3⟩
      intro st' h
      obtain ⟨hp2, hi2⟩ := r2 st' h
      refine ⟨hp1.trans hp2, ?_⟩
      intro j hj
      rcases List.mem_cons.mp hj with e | hj
      · subst e; exact hp2.mem_sorted hi1
      · exact hi2 j hj

theorem dfsVisit_spec (store : StoreAPI) (paths : PathSet) :
    ∀ fuel, VisitSpec store paths (dfsVisit store paths fuel) fuel := by
  intro fuel
  induction fuel with
  | zero =>
    intro x st _ _ _
    refine ⟨fun h => by omega, fun st' h => by simp [dfsVisit] at h,
      fun p h => by simp [dfsVisit] at h⟩
  | succ fuel ih =>
    intro x st hx hinv hreach
    unfold dfsVisit
    by_cases hpar : x ∈ st.parents
    · simp only [hpar, if_true]
      exact ⟨fun _ => by simp, fun st' h => by simp at h, fun _ _ => ⟨x, hreach x hpar⟩⟩
    · simp only [hpar, if_false]
      by_cases hvis : x ∈ st.visited
      · simp only [hvis, if_true]
        refine ⟨fun _ => by simp, ?_, fun p h => by simp at h⟩
        intro st' h
        simp only [Outcome.ok.injEq] at h
        subst h
        refine ⟨DfsPost.refl hinv, ?_⟩
        rcases (hinv.mem_visited x).mp hvis with h | h
        · exact h
        · exact absurd h hpar
      · simp only [hvis, if_false]
        have hxs : x ∉ st.sorted := fun h => hvis ((hinv.mem_visited x).mpr (Or.inl h))
        set refs := (if store.isValidPath x then store.queryReferences x else []).filter
          (fun i => decide (i ≠ x ∧ i ∈ paths)) with hrefs
        set st1 : DfsState := { visited := setInsert x st.visited, sorted := st.sorted,
                                parents := setInsert x st.parents } with hst1
        have hedge : ∀ i, i ∈ refs ↔ RefEdge store paths x i := by
          intro i
          rw [hrefs]
          unfold RefEdge
          by_cases hval : store.isValidPath x = true
          · simp [hval, hx]
          · simp [hval]
        have hinv1 : DfsInv store paths st1 := by
          refine ⟨?_, hinv.good, ?_⟩
          · intro y
            simp only [hst1, mem_setInsert, hinv.mem_visited y]
            tauto
          · intro y hy
            rcases (mem_setInsert x y _).mp hy with h | h
            · rw [h]; exact hx
            · exact hinv.sub y h
        have hreach1 : ∀ i ∈ refs, ∀ a ∈ st1.parents,
            Relation.TransGen (RefEdge store paths) a i := by
          intro i hi a ha
          have he := (hedge i).mp hi
          rcases (mem_setInsert x a _).mp ha with h | h
          · rw [h]; exact Relation.TransGen.single he
          · exact Relation.TransGen.tail (hreach a h) he
        obtain ⟨r1, r2, r3⟩ := forEach_spec ih refs st1
          (fun i hi => ((hedge i).mp hi).2.2.2.2) hinv1 hreach1
        cases hr : forEach (dfsVisit store paths fuel) refs st1 with
        | outOfFuel =>
          refine ⟨fun hb => ?_, fun st' h => by simp at h, fun p h => by simp at h⟩
          have := remaining_insert_lt paths st.visited x hx hvis
          exact absurd hr (r1 (by simp only [hst1]; omega))
        | cycle p =>
          exact ⟨fun _ => by simp, fun st' h => by simp at h, fun _ _ => r3 p hr⟩
        | ok st2 =>
          obtain ⟨hp, hch⟩ := r2 st2 hr
          obtain ⟨new, enew, fnew⟩ := hp.sorted
          have hxs2 : x ∉ st2.sorted := by
            rw [enew]
            intro h
            rcases List.mem_append.mp h with h | h
            · exact fnew x h ((mem_setInsert x x _).mpr (Or.inl rfl))
            · exact hxs h
          refine ⟨fun _ => by simp, ?_, fun p h => by simp at h⟩
          intro st' h
          simp only [Outcome.ok.injEq] at h
          subst h
          have hparents : ∀ y, y ∈ setErase x st2.parents ↔ y ∈ st.parents := by
            intro y
            rw [mem_setErase, hp.parents y]
            simp only [hst1, mem_setInsert]
            constructor
            · rintro ⟨h1, h2 | h2⟩
              · exact absurd h2 h1
              · exact h2
            · intro h
              exact ⟨fun e => hpar (e ▸ h), Or.inr h⟩
          refine ⟨⟨⟨?_, ?_, hp.inv.sub⟩, hparents, ⟨x :: new, ?_, ?_⟩, ?_⟩, ?_⟩
          · intro y
            simp only [hparents, List.mem_cons]
            rw [hp.inv.mem_visited y, hp.parents y]
            simp only [hst1, mem_setInsert]
            tauto
          · exact ⟨hxs2, fun v hv => hch v ((hedge v).mpr hv), hp.inv.good⟩
          · simp [enew, hst1]
          · intro y hy
            rcases List.mem_cons.mp hy with h | h
            · rw [h]; exact hvis
            · exact fun hv => fnew y h ((mem_setInsert x y _).mpr (Or.inr hv))
          · intro y hy
            exact hp.visited y ((mem_setInsert x y _).mpr (Or.inr hy))
          · exact List.mem_cons_self _ _

theorem good_index (E : Path → Path → Prop) : ∀ (l : List Path) (u v : Path),
    Good E l → u ∈ l → E u v → v ∈ l ∧ l.indexOf u < l.indexOf v := by
  intro l
  induction l with
  | nil => intro u v _ hu; simp at hu
  | cons w l ih =>
    intro u v hg hu he
    obtain ⟨hw, hsucc, hgl⟩ := hg
    by_cases huw : u = w
    · subst huw
      have hv := hsucc v he
      have hne : u ≠ v := fun e => hw (e ▸ hv)
      refine ⟨List.mem_cons_of_mem _ hv, ?_⟩
      rw [List.indexOf_cons_self, List.indexOf_cons_ne _ hne]
      exact Nat.succ_pos _
    · have hul : u ∈ l := by
        rcases List.mem_cons.mp hu with h | h
        · exact absurd h huw
        · exact h
      obtain ⟨hv, hlt⟩ := ih u v hgl hul he
      have hne : w ≠ v := fun e => hw (e ▸ hv)
      refine ⟨List.mem_cons_of_mem _ hv, ?_⟩
      rw [List.indexOf_cons_ne _ (Ne.symm huw), List.indexOf_cons_ne _ hne]
      exact Nat.succ_lt_succ hlt

theorem good_nodup (E : Path → Path → Prop) : ∀ (l : List Path), Good E l → l.Nodup := by
  intro l
  induction l with
  | nil => intro _; exact List.nodup_nil
  | cons w l ih => intro hg; exact List.nodup_cons.mpr ⟨hg.1, ih hg.2.2⟩

theorem good_transGen (E : Path → Path → Prop) (l : List Path) (hg : Good E l) (u v : Path)
    (h : Relation.TransGen E u v) (hu : u ∈ l) : v ∈ l ∧ l.indexOf u < l.indexOf v := by
  induction h with
  | single he => exact good_index E l u _ hg hu he
  | tail _ he ih =>
    obtain ⟨hb, hlt⟩ := ih
    obtain ⟨hc, hlt2⟩ := good_index E l _ _ hg hb he
    exact ⟨hc, lt_trans hlt hlt2⟩

theorem transGen_head_mem (store : StoreAPI) (paths : PathSet) (u v : Path)
    (h : Relation.TransGen (RefEdge store paths) u v) : u ∈ paths := by
  induction h with
  | single he => exact he.1
  | tail _ _ ih => exact ih

/-- The outcome of `topoSortPaths`: it never runs out of fuel; a returned list
has no duplicates, has the members of `paths` as its elements and is in
topological order; a cycle error comes with a cycle of the induced relation. -/
theorem topoSortPaths_spec (store : StoreAPI) (paths : PathSet) :
    topoSortPaths store paths ≠ Outcome.outOfFuel ∧
    (∀ sorted, topoSortPaths store paths = Outcome.ok sorted →
      Good (RefEdge store paths) sorted ∧ ∀ x, x ∈ sorted ↔ x ∈ paths) ∧
    (∀ p, topoSortPaths store paths = Outcome.cycle p →
      ∃ c, Relation.TransGen (RefEdge store paths) c c) := by
  have hinv0 : DfsInv store paths { visited := [], sorted := [], parents := [] } :=
    ⟨by simp, trivial, by simp⟩
  obtain ⟨r1, r2, r3⟩ := forEach_spec (dfsVisit_spec store paths (paths.length + 1)) paths
    { visited := [], sorted := [], parents := [] } (fun _ h => h) hinv0 (by simp)
  unfold topoSortPaths
  cases hr : forEach (dfsVisit store paths (paths.length + 1)) paths
      { visited := [], sorted := [], parents := [] } with
  | outOfFuel =>
    exact absurd hr (r1 (Nat.lt_succ_of_le (remaining_le_length _ _)))
  | cycle p =>
    exact ⟨by simp, fun s h => by simp at h, fun _ _ => r3 p hr⟩
  | ok st =>
    obtain ⟨hp, hall⟩ := r2 st hr
    refine ⟨by simp, ?_, fun p h => by simp at h⟩
    intro sorted h
    simp only [Outcome.ok.injEq] at h
    subst h
    refine ⟨hp.inv.good, fun x => ⟨fun hx => ?_, hall x⟩⟩
    exact hp.inv.sub x ((hp.inv.mem_visited x).mpr (Or.inl hx))

theorem acyclic_of_ok (store : StoreAPI) (paths : PathSet) (sorted : Paths)
    (h : topoSortPaths store paths = Outcome.ok sorted) : Acyclic store paths := by
  obtain ⟨hg, hmem⟩ := (topoSortPaths_spec store paths).2.1 sorted h
  intro p hp
  have hps : p ∈ sorted := (hmem p).mpr (transGen_head_mem store paths p p hp)
  exact absurd (good_transGen _ sorted hg p p hp hps).2 (lt_irrefl _)

/-- C4 (counterexample). In the store with the single reference `1 → 2` the
induced relation on `{1, 2}` is acyclic and `2` is a reference of `1`, yet
`topoSortPaths` returns `[1, 2]`: the reference `2` comes after `1`, not before. -/
theorem topoSortPaths_order_counterexample :
    Acyclic chainStore [1, 2] ∧
    (1 ∈ ([1, 2] : PathSet) ∧ 2 ∈ chainStore.queryReferences 1 ∧ 2 ∈ ([1, 2] : PathSet) ∧
      (2 : Path) ≠ 1) ∧
    topoSortPaths chainStore [1, 2] = Outcome.ok [1, 2] ∧
    ¬ (List.indexOf 2 ([1, 2] : Paths) < List.indexOf 1 ([1, 2] : Paths)) :=
  ⟨acyclic_of_ok chainStore [1, 2] [1, 2] (by decide), by decide, by decide, by decide⟩

/-- C4 (amended). When the reference relation induced by `paths` is acyclic,
`topoSortPaths` returns a list in which every valid path `p` of `paths` occurs
before every `q ≠ p` of `paths` that `p` references. -/
theorem topoSortPaths_referrers_first (store : StoreAPI) (paths : PathSet)
    (h : Acyclic store paths) :
    ∃ sorted, topoSortPaths store paths = Outcome.ok sorted ∧
      ∀ p q, p ∈ paths → store.isValidPath p = true → q ∈ store.queryReferences p →
        q ∈ paths → q ≠ p →
        p ∈ sorted ∧ q ∈ sorted ∧ sorted.indexOf p < sorted.indexOf q := by
  obtain ⟨h1, h2, h3⟩ := topoSortPaths_spec store paths
  cases hr : topoSortPaths store paths with
  | outOfFuel => exact absurd hr h1
  | cycle c =>
    obtain ⟨c', hc⟩ := h3 c hr
    exact absurd hc (h c')
  | ok sorted =>
    obtain ⟨hg, hmem⟩ := h2 sorted hr
    refine ⟨sorted, rfl, ?_⟩
    intro p q hp hv hq hqp hne
    have hps : p ∈ sorted := (hmem p).mpr hp
    obtain ⟨hqs, hlt⟩ := good_index _ sorted p q hg hps ⟨hp, hv, hq, hne, hqp⟩
    exact ⟨hps, hqs, hlt⟩

/-- C4 (witness). The store with the single reference `1 → 2` and `paths = {1, 2}`. -/
theorem topoSortPaths_referrers_first_witness :
    Acyclic chainStore [1, 2] ∧
    ∃ sorted, topoSortPaths chainStore [1, 2] = Outcome.ok sorted ∧
      ∀ p q, p ∈ ([1, 2] : PathSet) → chainStore.isValidPath p = true →
        q ∈ chainStore.queryReferences p → q ∈ ([1, 2] : PathSet) → q ≠ p →
        p ∈ sorted ∧ q ∈ sorted ∧ sorted.indexOf p < sorted.indexOf q :=
  ⟨acyclic_of_ok chainStore [1, 2] [1, 2] (by decide),
   topoSortPaths_referrers_first chainStore [1, 2]
     (acyclic_of_ok chainStore [1, 2] [1, 2] (by decide))⟩

/-- C5. `topoSortPaths` raises the cycle error exactly when the reference
relation induced by `paths` has a directed cycle, it returns a list when the
relation is acyclic, and it raises the error for `1 → 2 → 1`. -/
theorem topoSortPaths_cycle_iff (store : StoreAPI) (paths : PathSet) :
    ((∃ p, topoSortPaths store paths = Outcome.cycle p) ↔
      ∃ c, Relation.TransGen (RefEdge store paths) c c) ∧
    (Acyclic store paths → ∃ sorted, topoSortPaths store paths = Outcome.ok sorted) ∧
    topoSortPaths cycleStore [1, 2] = Outcome.cycle 1 := by
  obtain ⟨h1, _, h3⟩ := topoSortPaths_spec store paths
  refine ⟨⟨fun ⟨p, hp⟩ => h3 p hp, ?_⟩, ?_, by decide⟩
  · rintro ⟨c, hc⟩
    cases hr : topoSortPaths store paths with
    | outOfFuel => exact absurd hr h1
    | cycle p => exact ⟨p, rfl⟩
    | ok sorted => exact absurd hc (acyclic_of_ok store paths sorted hr c)
  · intro hac
    cases hr : topoSortPaths store paths with
    | outOfFuel => exact absurd hr h1
    | cycle p =>
      obtain ⟨c, hc⟩ := h3 p hr
      exact absurd hc (hac c)
    | ok sorted => exact ⟨sorted, rfl⟩


theorem setInsert_sorted (x : Nat) : ∀ (l : List Nat), l.Sorted (· < ·) →
    (setInsert x l).Sorted (· < ·) := by
  intro l
  induction l with
  | nil => intro _; simp [setInsert]
  | cons y ys ih =>
    intro h
    have hy : ∀ z ∈ ys, y < z := fun z hz => List.rel_of_sorted_cons h z hz
    have hs : ys.Sorted (· < ·) := h.of_cons
    unfold setInsert
    split
    · rename_i hxy
      refine List.sorted_cons.mpr ⟨?_, h⟩
      intro z hz
      rcases List.mem_cons.mp hz with e | hz
      · rw [e]; exact hxy
      · exact lt_trans hxy (hy z hz)
    · split
      · exact h
      · rename_i h1 h2
        refine List.sorted_cons.mpr ⟨?_, ih hs⟩
        intro z hz
        rcases (mem_setInsert x z ys).mp hz with e | hz
        · rw [e]; omega
        · exact hy z hz

theorem foldl_sorted {α : Type} (f : List Nat → α → List Nat)
    (hf : ∀ l a, l.Sorted (· < ·) → (f l a).Sorted (· < ·)) :
    ∀ (as : List α) (l : List Nat), l.Sorted (· < ·) → (as.foldl f l).Sorted (· < ·) := by
  intro as
  induction as with
  | nil => intro l h; exact h
  | cons a as ih => intro l h; exact ih _ (hf l a h)

set_option maxRecDepth 100000 in
/-- C6 (failing input). In `sharedStore` the paths `1` and `2` are both members
of the class `1`; the consolidation of `{1, 2, 3, 4}` passes every assertion
and returns `{1, 2, 5}`, which still holds the two members `1` and `2` of the
class `1`. -/
theorem consolidatePaths_keeps_two_members :
    consolidatePaths eqStoreOps 10 sharedStore [1, 2, 3, 4] false []
      = Result.ok { newPaths := [1, 2, 5], replacements := [(1, 1), (2, 2), (3, 5)],
                    store := sharedStoreAfter, nrRewrites := 1 } ∧
    (1 ∈ sharedStore.queryOutputEqClasses 1 ∧ 1 ∈ sharedStore.queryOutputEqClasses 2) ∧
    (1 ∈ sharedStoreAfter.queryOutputEqClasses 1 ∧ 1 ∈ sharedStoreAfter.queryOutputEqClasses 2) ∧
    (1 : Path) ≠ 2 := by
  decide

set_option maxRecDepth 100000 in
/-- C7 (failing input). The consolidation of `{1, 2, 3, 4}` in `sharedStore`
returns `{1, 2, 5}` and the store `sharedStoreAfter`; a second consolidation of
`{1, 2, 5}` in that store does not return: the assertion `nrRewrites ==
bestCost` fails, and with `checkOnly` the assertion `!checkOnly`. -/
theorem consolidatePaths_second_call_fails :
    (consolidatePaths eqStoreOps 10 sharedStore [1, 2, 3, 4] false []).toOption.map
        (fun c => (c.newPaths, c.store)) = some ([1, 2, 5], sharedStoreAfter) ∧
    consolidatePaths eqStoreOps 10 sharedStoreAfter [1, 2, 5] false []
      = Result.assertFailed 290 ∧
    consolidatePaths eqStoreOps 10 sharedStoreAfter [1, 2, 5] true []
      = Result.assertFailed 257 := by
  decide

theorem insertions_mem (x : Nat) : ∀ (s t : List Nat), s ++ x :: t ∈ insertions x (s ++ t) := by
  intro s
  induction s with
  | nil =>
    intro t
    cases t with
    | nil => simp [insertions]
    | cons y ys => simp [insertions]
  | cons a s ih =>
    intro t
    simp only [List.cons_append, insertions, List.mem_cons, List.mem_map]
    exact Or.inr ⟨_, ih t, rfl⟩

theorem mem_perms_of_perm : ∀ (l a : List Nat), a.Perm l → a ∈ perms l := by
  intro l
  induction l with
  | nil =>
    intro a h
    rw [List.Perm.eq_nil h]
    simp [perms]
  | cons x xs ih =>
    intro a h
    have hx : x ∈ a := h.symm.subset (List.mem_cons_self _ _)
    obtain ⟨s, t, rfl⟩ := List.append_of_mem hx
    have h2 : (s ++ t).Perm xs := (List.perm_middle.symm.trans h).cons_inv
    simp only [perms, List.mem_flatMap]
    exact ⟨s ++ t, ih _ h2, insertions_mem x s t⟩

set_option maxRecDepth 1000000 in
set_option maxHeartbeats 40000000 in
theorem libXmuCheck_all : ∀ a ∈ perms [1, 2, 3, 4, 5],
    libXmuCheck (a.getD 0 0) (a.getD 1 0) (a.getD 2 0) (a.getD 3 0) (a.getD 4 0) = true := by
  decide

set_option maxRecDepth 100000 in
/-- C9 (counterexample). In the libXmu scenario with the paths in the order
`foo/libX11 < root/libX11 < foo/libXext < root/libXt < foo/libXmu`,
`consolidatePaths` returns four paths after two rewrites, not one: `root/libXt`
is rewritten to the new path `6` and `foo/libXmu` to the new path `7`. -/
theorem consolidatePaths_libXmu_counterexample :
    (consolidatePaths eqStoreOps 10 (libXmuStoreAt 1 2 3 4 5) [1, 2, 3, 4, 5] false []).toOption.map
        (fun c => (c.newPaths, c.replacements, c.nrRewrites))
      = some ([1, 3, 6, 7], [(1, 1), (3, 3), (4, 6), (5, 7)], 2) ∧
    (consolidatePaths eqStoreOps 10 (libXmuStoreAt 1 2 3 4 5) [1, 2, 3, 4, 5] false []).toOption.map
        (fun c => c.nrRewrites) ≠ some 1 := by
  decide

/-- C9 (amended). In the libXmu scenario, whatever the order of the five
paths, `consolidatePaths` returns a set of four paths that holds exactly one
of the two `libX11`, and it performs exactly two rewrites. -/
theorem consolidatePaths_libXmu (f r e t m : Path) (h : [f, r, e, t, m].Perm [1, 2, 3, 4, 5]) :
    ∃ c, consolidatePaths eqStoreOps 10 (libXmuStoreAt f r e t m) [1, 2, 3, 4, 5] false []
        = Result.ok c ∧
      c.newPaths.length = 4 ∧ c.nrRewrites = 2 ∧
      ((f ∈ c.newPaths ∧ r ∉ c.newPaths) ∨ (f ∉ c.newPaths ∧ r ∈ c.newPaths)) := by
  have hc := libXmuCheck_all [f, r, e, t, m] (mem_perms_of_perm _ _ h)
  simp only [List.getD_cons_zero, List.getD_cons_succ] at hc
  unfold libXmuCheck at hc
  cases hr : consolidatePaths eqStoreOps 10 (libXmuStoreAt f r e t m) [1, 2, 3, 4, 5] false []
    with
  | ok c =>
    rw [hr] at hc
    simp only [Bool.and_eq_true, decide_eq_true_eq] at hc
    exact ⟨c, rfl, hc.1.1, hc.1.2, hc.2⟩
  | assertFailed line => rw [hr] at hc; simp at hc
  | outOfFuel => rw [hr] at hc; simp at hc

/-- C9 (witness). The order `root/libX11 < foo/libX11 < root/libXt < foo/libXext < foo/libXmu`. -/
theorem consolidatePaths_libXmu_witness :
    [2, 1, 4, 3, 5].Perm [1, 2, 3, 4, 5] ∧
    ∃ c, consolidatePaths eqStoreOps 10 (libXmuStoreAt 2 1 4 3 5) [1, 2, 3, 4, 5] false []
        = Result.ok c ∧
      c.newPaths.length = 4 ∧ c.nrRewrites = 2 ∧
      ((2 ∈ c.newPaths ∧ 1 ∉ c.newPaths) ∨ (2 ∉ c.newPaths ∧ 1 ∈ c.newPaths)) :=
  ⟨by decide, consolidatePaths_libXmu 2 1 4 3 5 (by decide)⟩

/-- The basic scenario of the planner: the target `1` with the reference `2`,
both substitutable, gives `willSubstitute = {1, 2}` and `downloadSize = 200`. -/
theorem queryMissing_basic :
    queryMissing (plannerStore [] basicInfos) (exampleEnv []) 10 [1] [] [] []
      = some { willBuild := [], willSubstitute := [1, 2], unknown := [],
               downloadSize := 200, narSize := 700 } := by
  decide

/-- C10 (failing input). The targets are the substitutable path `1` and the
derivation `11`, which must be built and has the input derivation `10` whose
output is the path `1`: the path `1` is counted in the first round as a target
and in the second round as the output of `10`, so `queryMissing` returns
`willSubstitute = {1}` with `downloadSize = 200` and `narSize = 800`, twice
the sizes `100` and `400` of the substitute info of `1`. -/
theorem queryMissing_counts_twice :
    queryMissing (plannerStore [10, 11] sharedInfos) (exampleEnv sharedDrvs) 10 [1, 11] [] [] []
      = some { willBuild := [11], willSubstitute := [1], unknown := [],
               downloadSize := 200, narSize := 800 } ∧
    sumInfo sharedInfos (fun i => i.downloadSize) [1] = 100 ∧
    sumInfo sharedInfos (fun i => i.narSize) [1] = 400 := by
  decide

theorem findAux_none_spec (pat : Bytes) : ∀ (x : Bytes) (k : Nat),
    findAux pat x k = none → ∀ i, ¬ pat <+: x.drop i := by
  intro x
  induction x with
  | nil =>
    intro k h i hp
    simp only [List.drop_nil] at hp
    simp [findAux, hp] at h
  | cons c cs ih =>
    intro k h i hp
    by_cases h0 : pat <+: c :: cs
    · simp [findAux, h0] at h
    · simp only [findAux, List.isPrefixOf_iff_prefix, h0, if_false] at h
      cases i with
      | zero => exact h0 (by simpa using hp)
      | succ i => exact ih (k + 1) h i (by simpa using hp)

theorem holeOffsets_pairwise (n : Nat) : ∀ (chunks : List Bytes) (base : Nat),
    (holeOffsets n chunks base).Pairwise (fun p q => p + n ≤ q) := by
  intro chunks
  induction chunks with
  | nil => intro base; simp [holeOffsets]
  | cons lit rest ih =>
    intro base
    simp only [holeOffsets, List.pairwise_cons]
    refine ⟨?_, ih _⟩
    intro q hq
    have := holeOffsets_ge n rest _ q hq
    omega

theorem holeOffsets_occurrence (x : Bytes) : ∀ (chunks : List Bytes) (tail : Bytes)
    (base p : Nat), p ∈ holeOffsets x.length chunks base →
    x <+: (fillChunks x chunks tail).drop (p - base) := by
  intro chunks
  induction chunks with
  | nil => intro tail base p h; simp [holeOffsets] at h
  | cons lit rest ih =>
    intro tail base p h
    simp only [holeOffsets, List.mem_cons] at h
    rcases h with h | h
    · have e : p - base = lit.length := by omega
      rw [e]
      simp [fillChunks]
    · have hge := holeOffsets_ge _ _ _ _ h
      have e : p - base = lit.length + (x.length + (p - (base + lit.length + x.length))) := by
        omega
      have := ih tail _ p h
      rw [e, fillChunks, List.append_assoc, ← List.drop_drop, List.drop_left,
        ← List.drop_drop, List.drop_left]
      exact this

/-- The loop of `rewriteHashesIdeal` for one pair, as a scan of the rest `x` of the
blob: `x` is cut into chunks that are each followed by a rewritten occurrence
of `from_`, and every occurrence of `from_` in `x` starts inside a rewritten
window. -/
theorem rewriteLoop_scan (from_ to_ : Bytes) (hlen : from_.length = to_.length) :
    ∀ (fuel : Nat) (pre x : Bytes) (positions : List Nat) (s' : Bytes) (pos' : List Nat),
    rewriteLoop from_ to_ fuel (pre ++ x) pre.length positions = some (s', pos') →
    ∃ chunks tail, x = fillChunks from_ chunks tail ∧ s' = pre ++ fillChunks to_ chunks tail ∧
      pos' = positions ++ holeOffsets from_.length chunks pre.length ∧
      ∀ i, from_ <+: x.drop i →
        ∃ p ∈ holeOffsets from_.length chunks pre.length,
          p ≤ pre.length + i ∧ pre.length + i < p + from_.length := by
  intro fuel
  induction fuel with
  | zero => intro pre x positions s' pos' h; simp [rewriteLoop] at h
  | succ fuel ih =>
    intro pre x positions s' pos' h
    unfold rewriteLoop at h
    rw [find_append] at h
    cases hf : findAux from_ x pre.length with
    | none =>
      rw [hf] at h
      simp only [Option.some.injEq, Prod.mk.injEq] at h
      refine ⟨[], x, rfl, h.1.symm, by simp [holeOffsets, h.2], ?_⟩
      intro i hi
      exact absurd hi (findAux_none_spec from_ x pre.length hf i)
    | some k =>
      rw [hf] at h
      obtain ⟨m, hk, hm, hp, hmin⟩ := findAux_some_spec from_ x pre.length k hf
      obtain ⟨hx, hrep⟩ := rewrite_step pre x from_ to_ m hp hlen
      subst hk
      simp only at h
      rw [hrep] at h
      have hj : pre.length + m + to_.length = (pre ++ x.take m ++ to_).length := by
        simp [List.length_take, Nat.min_eq_left hm]; omega
      rw [hj] at h
      obtain ⟨chunks, tail, h1, h2, h3, h4⟩ := ih _ _ _ _ _ h
      have hbase : (pre ++ x.take m ++ to_).length
          = pre.length + (x.take m).length + from_.length := by
        simp [List.length_take, Nat.min_eq_left hm, hlen]; omega
      have htake : (x.take m).length = m := by simp [List.length_take, Nat.min_eq_left hm]
      refine ⟨x.take m :: chunks, tail, ?_, ?_, ?_, ?_⟩
      · rw [fillChunks, ← h1]; exact hx
      · rw [h2, fillChunks]; simp
      · rw [h3, holeOffsets, hbase, htake]
        simp
      · intro i hi
        simp only [holeOffsets, List.mem_cons, exists_eq_or_imp]
        by_cases hlt : i < m
        · exact absurd hi (hmin i hlt)
        · by_cases hin : i < m + from_.length
          · left
            rw [htake]
            omega
          · right
            have hi' : from_ <+: (x.drop (m + from_.length)).drop (i - (m + from_.length)) := by
              rw [List.drop_drop]
              have : m + from_.length + (i - (m + from_.length)) = i := by omega
              rw [this]; exact hi
            obtain ⟨p, hp1, hp2, hp3⟩ := h4 _ hi'
            rw [hbase] at hp1 hp2 hp3
            refine ⟨p, hp1, ?_, ?_⟩
            · rw [htake] at hp2; omega
            · rw [htake] at hp3; omega

theorem rewriteHashesIdeal_single_from (s : Bytes) (f t : PathHash) (positions : List Nat) :
    rewriteHashesIdeal s [(f, t)] positions
      = rewriteLoop f.rep t.rep (s.length + 1) s 0 positions := by
  simp only [rewriteHashesIdeal, PathHash.toString, f.size_eq, t.size_eq, if_true]
  cases rewriteLoop f.rep t.rep (s.length + 1) s 0 positions with
  | none => rfl
  | some r => rfl

/-- The scan of the reference function for a single pair `(f, t)`: it returns
and appends to `positions` the offsets of the placeholders of a template `c`
with `s = c[f]`; the returned blob is `c[t]`, of the same length; the appended
offsets are increasing and at least one hash width apart, each is the offset of
an occurrence of `f` in the original blob, and every occurrence of `f` in the
original blob starts inside one of the rewritten windows, at or after its
first byte. -/
theorem rewriteHashesIdeal_scan (s : Bytes) (f t : PathHash) (positions : List Nat) :
    ∃ c : Template, s = c.fill f ∧
      rewriteHashesIdeal s [(f, t)] positions = some (c.fill t, positions ++ c.offsets) ∧
      (c.fill t).length = s.length ∧
      c.offsets.Pairwise (fun p q => p + pathHashLen ≤ q) ∧
      (∀ p ∈ c.offsets, f.rep <+: s.drop p) ∧
      (∀ k, f.rep <+: s.drop k → ∃ p ∈ c.offsets, p ≤ k ∧ k < p + pathHashLen) := by
  have hlen : f.rep.length = t.rep.length := by rw [f.size_eq, t.size_eq]
  obtain ⟨r, hr⟩ := rewriteLoop_total f.rep t.rep f.rep_ne_nil hlen (s.length + 1) [] s positions
    (Nat.lt_succ_self _)
  obtain ⟨s', pos'⟩ := r
  obtain ⟨chunks, tail, h1, h2, h3, h4⟩ := rewriteLoop_scan f.rep t.rep hlen _ _ _ _ _ _ hr
  simp only [List.nil_append, List.length_nil, Nat.zero_add] at hr h2 h3 h4
  refine ⟨⟨chunks, tail⟩, h1, ?_, ?_, ?_, ?_, ?_⟩
  · rw [rewriteHashesIdeal_single_from, hr, h2, h3]
    simp [Template.fill, Template.offsets, f.size_eq]
  · rw [h1]
    exact fillChunks_length_eq _ _ hlen.symm _ _
  · exact holeOffsets_pairwise _ _ _
  · intro p hp
    have := holeOffsets_occurrence f.rep chunks tail 0 p
      (by simpa [Template.offsets, f.size_eq] using hp)
    rw [h1]
    simpa using this
  · intro k hk
    obtain ⟨p, hp1, hp2, hp3⟩ := h4 k hk
    exact ⟨p, by simpa [Template.offsets, f.size_eq] using hp1, hp2, by rw [← f.size_eq]; exact hp3⟩

theorem not_infix_of_occurrence (pat s : Bytes) (h : ¬ pat <:+: s) :
    ∀ i, ¬ pat <+: s.drop i := by
  intro i hp
  exact h (hp.isInfix.trans (List.drop_suffix i s).isInfix)

theorem storePath_eq_fill (pre : Bytes) (h : PathHash) (name : Bytes) :
    storePath pre h name = Template.fill ⟨[pre ++ [47]], 45 :: name⟩ h := by
  simp [storePath, Template.fill, fillChunks]

theorem rewriteHashes2Ideal_storePath (k v : PathHash) (pre : Bytes) (h : PathHash) (name : Bytes)
    (hocc : ∀ i, k.rep <+: (storePath pre h name).drop i → i = pre.length + 1 ∧ h = k) :
    rewriteHashes2Ideal (storePath pre h name) [(k, v)]
      = some (storePath pre (if h = k then v else h) name) := by
  unfold rewriteHashes2Ideal
  by_cases hk : h = k
  · subst hk
    rw [if_pos rfl, storePath_eq_fill, storePath_eq_fill]
    rw [rewriteHashesIdeal_fill ⟨[pre ++ [47]], 45 :: name⟩ h v]
    · rfl
    · intro i hi
      rw [← storePath_eq_fill] at hi
      have := (hocc i hi).1
      simp [Template.offsets, holeOffsets, this]
  · rw [if_neg hk]
    have hnone : ∀ i, ¬ k.rep <+: (storePath pre h name).drop i :=
      fun i hi => hk (hocc i hi).2
    have e : storePath pre h name = Template.fill ⟨[], storePath pre h name⟩ k := rfl
    have := rewriteHashesIdeal_fill ⟨[], storePath pre h name⟩ k v
      (fun i hi => absurd hi (hnone i))
    rw [← e] at this
    rw [this]
    rfl
theorem mem_mapInsert {β : Type} (k : Nat) (v : β) : ∀ (m : List (Nat × β)) (e : Nat × β),
    e ∈ mapInsert k v m → e = (k, v) ∨ e ∈ m := by
  intro m
  induction m with
  | nil => intro e h; simpa [mapInsert] using h
  | cons a m ih =>
    intro e h
    obtain ⟨k', v'⟩ := a
    unfold mapInsert at h
    split at h
    · simpa using h
    · split at h
      · rename_i hlt hk
        rcases List.mem_cons.mp h with h | h
        · left; rw [h, hk]
        · right; exact List.mem_cons_of_mem _ h
      · rcases List.mem_cons.mp h with h | h
        · right; rw [h]; exact List.mem_cons_self _ _
        · rcases ih e h with h | h
          · left; exact h
          · right; exact List.mem_cons_of_mem _ h

theorem mapFind_mapInsert_self {β : Type} (k : Nat) (v : β) : ∀ (m : List (Nat × β)),
    mapFind k (mapInsert k v m) = some v := by
  intro m
  induction m with
  | nil => simp [mapInsert, mapFind]
  | cons a m ih =>
    obtain ⟨k', v'⟩ := a
    unfold mapInsert
    split
    · simp [mapFind]
    · split
      · rename_i hk; simp [mapFind, hk]
      · rename_i h1 h2
        simp [mapFind, h2, ih]

theorem mapFind_mapInsert_ne {β : Type} (k k' : Nat) (v : β) (hne : k' ≠ k) :
    ∀ (m : List (Nat × β)), mapFind k' (mapInsert k v m) = mapFind k' m := by
  intro m
  induction m with
  | nil => simp [mapInsert, mapFind, hne]
  | cons a m ih =>
    obtain ⟨k'', v''⟩ := a
    unfold mapInsert
    split
    · simp [mapFind, hne]
    · split
      · rename_i hk
        subst hk
        simp [mapFind, hne]
      · simp [mapFind, ih]

theorem mapFind_mem {β : Type} (k : Nat) : ∀ (m : List (Nat × β)) (v : β),
    mapFind k m = some v → (k, v) ∈ m := by
  intro m
  induction m with
  | nil => intro v h; simp [mapFind] at h
  | cons a m ih =>
    intro v h
    obtain ⟨k', v'⟩ := a
    unfold mapFind at h
    split at h
    · rename_i hk
      simp only [Option.some.injEq] at h
      rw [hk, h]; exact List.mem_cons_self _ _
    · exact List.mem_cons_of_mem _ (ih v h)

theorem classMapInv_step {σ : Type} (ops : StoreOps σ) (store : σ) (seen : List Path)
    (i : Path) : ∀ (cs : List OutputEqClass) (classMap : ClassMap) (done : List OutputEqClass),
    (∀ j ∈ cs, j ∈ ops.queryOutputEqClasses store i) →
    (∀ e ∈ classMap, e.2.Sorted (· < ·) ∧
      ∀ x ∈ e.2, (x ∈ seen ∨ x = i) ∧ e.1 ∈ ops.queryOutputEqClasses store x) →
    (∀ x ∈ seen, ∀ c ∈ ops.queryOutputEqClasses store x,
      ∃ ps, mapFind c classMap = some ps ∧ x ∈ ps) →
    (∀ c ∈ done, ∃ ps, mapFind c classMap = some ps ∧ i ∈ ps) →
    (∀ e ∈ cs.foldl (fun cm j => mapInsert j (setInsert i ((mapFind j cm).getD [])) cm) classMap,
      e.2.Sorted (· < ·) ∧
      ∀ x ∈ e.2, (x ∈ seen ∨ x = i) ∧ e.1 ∈ ops.queryOutputEqClasses store x) ∧
    (∀ x ∈ seen, ∀ c ∈ ops.queryOutputEqClasses store x,
      ∃ ps, mapFind c
        (cs.foldl (fun cm j => mapInsert j (setInsert i ((mapFind j cm).getD [])) cm) classMap)
        = some ps ∧ x ∈ ps) ∧
    (∀ c, c ∈ done ∨ c ∈ cs → ∃ ps, mapFind c
        (cs.foldl (fun cm j => mapInsert j (setInsert i ((mapFind j cm).getD [])) cm) classMap)
        = some ps ∧ i ∈ ps) := by
  intro cs
  induction cs with
  | nil =>
    intro classMap done _ hs hc hd
    refine ⟨hs, hc, ?_⟩
    intro c hcd
    rcases hcd with h | h
    · exact hd c h
    · simp at h
  | cons j cs ih =>
    intro classMap done hcs hs hc hd
    simp only [List.foldl_cons]
    have hold : ∀ ps, mapFind j classMap = some ps →
        ps.Sorted (· < ·) ∧
        ∀ x ∈ ps, (x ∈ seen ∨ x = i) ∧ j ∈ ops.queryOutputEqClasses store x := by
      intro ps hps
      exact hs (j, ps) (mapFind_mem j classMap ps hps)
    have hnew : ((mapFind j classMap).getD []).Sorted (· < ·) ∧
        ∀ x ∈ (mapFind j classMap).getD [],
          (x ∈ seen ∨ x = i) ∧ j ∈ ops.queryOutputEqClasses store x := by
      cases hf : mapFind j classMap with
      | none => simp
      | some ps => simpa using hold ps hf
    obtain ⟨r1, r2, r3⟩ := ih (mapInsert j (setInsert i ((mapFind j classMap).getD [])) classMap)
      (j :: done) (fun j' hj' => hcs j' (List.mem_cons_of_mem _ hj'))
      (by
        intro e he
        rcases mem_mapInsert _ _ _ e he with h | h
        · rw [h]
          refine ⟨setInsert_sorted i _ hnew.1, ?_⟩
          intro x hx
          rcases (mem_setInsert i x _).mp hx with h' | h'
          · exact ⟨Or.inr h', by rw [h']; exact hcs j (List.mem_cons_self _ _)⟩
          · exact hnew.2 x h'
        · exact hs e h)
      (by
        intro x hx c hcx
        obtain ⟨ps, hps, hxps⟩ := hc x hx c hcx
        by_cases hcj : c = j
        · subst hcj
          refine ⟨_, mapFind_mapInsert_self _ _ _, ?_⟩
          rw [hps]
          exact (mem_setInsert i x _).mpr (Or.inr hxps)
        · exact ⟨ps, by rw [mapFind_mapInsert_ne _ _ _ hcj]; exact hps, hxps⟩)
      (by
        intro c hcd
        by_cases hcj : c = j
        · subst hcj
          exact ⟨_, mapFind_mapInsert_self _ _ _, (mem_setInsert i i _).mpr (Or.inl rfl)⟩
        · rcases List.mem_cons.mp hcd with h | h
          · exact absurd h hcj
          · obtain ⟨ps, hps, hi⟩ := hd c h
            exact ⟨ps, by rw [mapFind_mapInsert_ne _ _ _ hcj]; exact hps, hi⟩)
    refine ⟨r1, r2, ?_⟩
    intro c hcd
    apply r3
    rcases hcd with h | h
    · exact Or.inl (List.mem_cons_of_mem _ h)
    · rcases List.mem_cons.mp h with h | h
      · exact Or.inl (by rw [h]; exact List.mem_cons_self _ _)
      · exact Or.inr h

theorem classify_inv_aux {σ : Type} (ops : StoreOps σ) (store : σ) :
    ∀ (paths seen : List Path) (acc : ClassMap × PathSet),
    ClassMapInv ops store seen acc.1 →
    ClassMapInv ops store (seen ++ paths)
      (paths.foldl (fun acc i =>
        match ops.queryOutputEqClasses store i with
        | [] => (acc.1, setInsert i acc.2)
        | classes =>
          (classes.foldl (fun cm j => mapInsert j (setInsert i ((mapFind j cm).getD [])) cm)
            acc.1, acc.2)) acc).1 := by
  intro paths
  induction paths with
  | nil => intro seen acc h; simpa using h
  | cons i paths ih =>
    intro seen acc h
    simp only [List.foldl_cons]
    have e : seen ++ i :: paths = (seen ++ [i]) ++ paths := by simp
    rw [e]
    apply ih
    cases hcls : ops.queryOutputEqClasses store i with
    | nil =>
      simp only
      refine ⟨?_, ?_⟩
      · intro e he
        obtain ⟨h1, h2⟩ := h.sound e he
        exact ⟨h1, fun x hx => ⟨List.mem_append_left _ (h2 x hx).1, (h2 x hx).2⟩⟩
      · intro x hx c hc
        rcases List.mem_append.mp hx with hx | hx
        · exact h.complete x hx c hc
        · simp only [List.mem_singleton] at hx
          rw [hx, hcls] at hc
          simp at hc
    | cons c0 cs =>
      simp only
      obtain ⟨r1, r2, r3⟩ := classMapInv_step ops store seen i (c0 :: cs) acc.1 []
        (by intro j hj; rw [hcls]; exact hj)
        (by
          intro e he
          obtain ⟨h1, h2⟩ := h.sound e he
          exact ⟨h1, fun x hx => ⟨Or.inl (h2 x hx).1, (h2 x hx).2⟩⟩)
        h.complete (by simp)
      refine ⟨?_, ?_⟩
      · intro e he
        obtain ⟨h1, h2⟩ := r1 e he
        refine ⟨h1, fun x hx => ⟨?_, (h2 x hx).2⟩⟩
        rcases (h2 x hx).1 with h' | h'
        · exact List.mem_append_left _ h'
        · exact List.mem_append_right _ (by simp [h'])
      · intro x hx c hc
        rcases List.mem_append.mp hx with hx | hx
        · exact r2 x hx c hc
        · simp only [List.mem_singleton] at hx
          subst hx
          rw [hcls] at hc
          exact r3 c (Or.inr hc)

theorem classify_inv {σ : Type} (ops : StoreOps σ) (store : σ) (paths : PathSet) :
    ClassMapInv ops store paths (classify ops store paths).1 := by
  have := classify_inv_aux ops store paths [] ([], []) ⟨by simp, by simp⟩
  simpa [classify] using this

theorem sorted_two_le (l : List Nat) (hs : l.Sorted (· < ·)) (h : 2 ≤ l.length) :
    ∃ x ∈ l, ∃ y ∈ l, x ≠ y := by
  match l, hs, h with
  | x :: y :: _, hs, _ =>
    refine ⟨x, by simp, y, by simp, ?_⟩
    have := List.rel_of_sorted_cons hs y (List.mem_cons_self _ _)
    omega

theorem sorted_length_two (l : List Nat) (hs : l.Sorted (· < ·)) (x y : Nat) (hx : x ∈ l)
    (hy : y ∈ l) (hne : x ≠ y) : 2 ≤ l.length := by
  match l, hs, hx, hy with
  | [a], _, hx, hy =>
    simp only [List.mem_singleton] at hx hy
    exact absurd (hx.trans hy.symm) hne
  | _ :: _ :: _, _, _, _ => simp

/-- The test `conflict` of `consolidatePaths` is the existence of a conflict. -/
theorem conflict_iff {σ : Type} (ops : StoreOps σ) (store : σ) (paths : PathSet) :
    (classify ops store paths).1.any (fun c => decide (c.2.length ≥ 2)) = true ↔
      Conflict ops store paths := by
  have hinv := classify_inv ops store paths
  constructor
  · intro h
    simp only [List.any_eq_true, decide_eq_true_eq] at h
    obtain ⟨e, he, hlen⟩ := h
    obtain ⟨hs, hm⟩ := hinv.sound e he
    obtain ⟨x, hx, y, hy, hne⟩ := sorted_two_le e.2 hs hlen
    exact ⟨x, (hm x hx).1, y, (hm y hy).1, hne, e.1, (hm x hx).2, (hm y hy).2⟩
  · rintro ⟨p, hp, q, hq, hne, c, hcp, hcq⟩
    obtain ⟨ps, hps, hpp⟩ := hinv.complete p hp c hcp
    obtain ⟨qs, hqs, hqq⟩ := hinv.complete q hq c hcq
    rw [hps] at hqs
    simp only [Option.some.injEq] at hqs
    subst hqs
    have hmem := mapFind_mem c _ ps hps
    simp only [List.any_eq_true, decide_eq_true_eq]
    exact ⟨(c, ps), hmem, sorted_length_two ps (hinv.sound _ hmem).1 p q hpp hqq hne⟩

/-- C15. When no output equivalence class has two distinct members among
`paths`, `consolidatePaths` returns `paths` for both values of `checkOnly`, and
leaves the store and `replacements` as they were passed in. -/
theorem consolidatePaths_no_conflict {σ : Type} (ops : StoreOps σ) (fuel : Nat) (store : σ)
    (paths : PathSet) (checkOnly : Bool) (replacements : Replacements)
    (h : ∀ p ∈ paths, ∀ q ∈ paths, ∀ c, c ∈ ops.queryOutputEqClasses store p →
      c ∈ ops.queryOutputEqClasses store q → p = q) :
    consolidatePaths ops fuel store paths checkOnly replacements
      = Result.ok { newPaths := paths, replacements := replacements, store := store,
                    nrRewrites := 0 } := by
  have hnc : ¬ Conflict ops store paths := by
    rintro ⟨p, hp, q, hq, hne, c, hcp, hcq⟩
    exact hne (h p hp q hq c hcp hcq)
  have hb : (classify ops store paths).1.any (fun c => decide (c.2.length ≥ 2)) = false := by
    cases hv : (classify ops store paths).1.any (fun c => decide (c.2.length ≥ 2)) with
    | false => rfl
    | true => exact absurd ((conflict_iff ops store paths).mp hv) hnc
  simp only [consolidatePaths, hb]
  rfl

/-- C15 (witness). Three paths in three disjoint classes. -/
theorem consolidatePaths_no_conflict_witness :
    (∀ p ∈ ([1, 2, 3] : PathSet), ∀ q ∈ ([1, 2, 3] : PathSet), ∀ c,
      c ∈ eqStoreOps.queryOutputEqClasses disjointStore p →
      c ∈ eqStoreOps.queryOutputEqClasses disjointStore q → p = q) ∧
    consolidatePaths eqStoreOps 10 disjointStore [1, 2, 3] true []
      = Result.ok { newPaths := [1, 2, 3], replacements := [], store := disjointStore,
                    nrRewrites := 0 } :=
  have h : ∀ p ∈ ([1, 2, 3] : PathSet), ∀ q ∈ ([1, 2, 3] : PathSet), ∀ c,
      c ∈ eqStoreOps.queryOutputEqClasses disjointStore p →
      c ∈ eqStoreOps.queryOutputEqClasses disjointStore q → p = q := by
    have key : ∀ p ∈ ([1, 2, 3] : PathSet), ∀ q ∈ ([1, 2, 3] : PathSet),
        ∀ c ∈ eqStoreOps.queryOutputEqClasses disjointStore p,
        c ∈ eqStoreOps.queryOutputEqClasses disjointStore q → p = q := by decide
    exact fun p hp q hq c hc hc' => key p hp q hq c hc hc'
  ⟨h, consolidatePaths_no_conflict eqStoreOps 10 disjointStore [1, 2, 3] true [] h⟩

theorem mem_setUnion : ∀ (t s : List Nat) (x : Nat), x ∈ setUnion s t ↔ x ∈ s ∨ x ∈ t := by
  intro t
  induction t with
  | nil => intro s x; simp [setUnion]
  | cons a t ih =>
    intro s x
    have := ih (setInsert a s) x
    simp only [setUnion, List.foldl_cons] at this ⊢
    rw [this, mem_setInsert]
    simp only [List.mem_cons]
    tauto

theorem ReachAvoid.mono {refs : Path → PathSet} {v v' : PathSet} (h : ∀ x ∈ v, x ∈ v')
    {p q : Path} (hr : ReachAvoid refs v' p q) : ReachAvoid refs v p q := by
  induction hr with
  | refl p hp => exact ReachAvoid.refl p (fun hv => hp (h p hv))
  | step p r q hp hrp _ ih => exact ReachAvoid.step p r q (fun hv => hp (h p hv)) hrp ih

theorem ReachAvoid.start_not_mem {refs : Path → PathSet} {v : PathSet} {p q : Path}
    (hr : ReachAvoid refs v p q) : p ∉ v := by
  cases hr with
  | refl _ hp => exact hp
  | step _ _ _ hp _ _ => exact hp

theorem ReachAvoid.end_not_mem {refs : Path → PathSet} {v : PathSet} {p q : Path}
    (hr : ReachAvoid refs v p q) : q ∉ v := by
  induction hr with
  | refl _ hp => exact hp
  | step _ _ _ _ _ _ ih => exact ih

theorem reachAvoid_nil_iff (refs : Path → PathSet) (p q : Path) :
    ReachAvoid refs [] p q ↔ Relation.ReflTransGen (fun a b => b ∈ refs a) p q := by
  constructor
  · intro h
    induction h with
    | refl p _ => exact Relation.ReflTransGen.refl
    | step p r q _ hrp _ ih => exact Relation.ReflTransGen.head hrp ih
  · intro h
    induction h using Relation.ReflTransGen.head_induction_on with
    | refl => exact ReachAvoid.refl q (by simp)
    | head hab _ ih => exact ReachAvoid.step _ _ _ (by simp) hab ih

theorem closureLoop_spec {refs : Path → PathSet} {allPaths : List Path}
    {visit : Path → PathSet → Option PathSet} {bound : Nat}
    (hv : ClosureSpec refs allPaths visit bound) :
    ∀ (edges : List Path) (v : PathSet), (∀ e ∈ edges, e ∈ allPaths) →
    (remaining allPaths v < bound → closureLoop visit edges v ≠ none) ∧
    (∀ f, closureLoop visit edges v = some f →
      (∀ x ∈ v, x ∈ f) ∧ (∀ e ∈ edges, e ∈ f) ∧
      ∀ u ∈ f, u ∉ v → (∀ r ∈ refs u, r ∈ f) ∧ ∃ e ∈ edges, ReachAvoid refs v e u) := by
  intro edges
  induction edges with
  | nil =>
    intro v _
    refine ⟨fun _ => by simp [closureLoop], ?_⟩
    intro f h
    simp only [closureLoop, Option.some.injEq] at h
    subst h
    exact ⟨fun _ hx => hx, by simp, fun u hu hnu => absurd hu hnu⟩
  | cons e rest ih =>
    intro v hedges
    obtain ⟨v1, v2⟩ := hv e v (hedges e (List.mem_cons_self _ _))
    unfold closureLoop
    cases hr : visit e v with
    | none =>
      exact ⟨fun hb => absurd hr (v1 hb), fun f h => by simp at h⟩
    | some w =>
      have hp := v2 w hr
      obtain ⟨r1, r2⟩ := ih w (fun e' he' => hedges e' (List.mem_cons_of_mem _ he'))
      simp only
      refine ⟨fun hb => r1 (lt_of_le_of_lt (remaining_le _ _ _ hp.mono) hb), ?_⟩
      intro f h
      obtain ⟨m, em, cl⟩ := r2 f h
      refine ⟨fun x hx => m x (hp.mono x hx), ?_, ?_⟩
      · intro e' he'
        rcases List.mem_cons.mp he' with h' | h'
        · rw [h']; exact m e hp.root
        · exact em e' h'
      · intro u hu hnu
        by_cases huw : u ∈ w
        · exact ⟨fun r hr' => m r (hp.closed u huw hnu r hr'),
            e, List.mem_cons_self _ _, hp.reach u huw hnu⟩
        · obtain ⟨c1, e', he', hreach⟩ := cl u hu huw
          exact ⟨c1, e', List.mem_cons_of_mem _ he', hreach.mono hp.mono⟩

theorem computeFSClosure_closureSpec (store : StoreAPI) (isDerivation : Path → Bool)
    (allPaths : List Path)
    (hclosed : ∀ p ∈ allPaths, ∀ r ∈ store.queryReferences p, r ∈ allPaths) :
    ∀ fuel, ClosureSpec store.queryReferences allPaths
      (computeFSClosure store isDerivation false false false fuel) fuel := by
  intro fuel
  induction fuel with
  | zero =>
    intro p v _
    exact ⟨fun h => by omega, fun f h => by simp [computeFSClosure] at h⟩
  | succ fuel ih =>
    intro p v hp
    unfold computeFSClosure
    by_cases hpv : p ∈ v
    · simp only [hpv, if_true]
      refine ⟨fun _ => by simp, ?_⟩
      intro f h
      simp only [Option.some.injEq] at h
      subst h
      exact ⟨fun _ hx => hx, hpv, fun u hu hnu => absurd hu hnu, fun u hu hnu => absurd hu hnu⟩
    · simp only [hpv, if_false, Bool.false_eq_true, Bool.false_and]
      have hmem : ∀ x, x ∈ setUnion [] (store.queryReferences p) ↔
          x ∈ store.queryReferences p := by
        intro x; rw [mem_setUnion]; simp
      obtain ⟨r1, r2⟩ := closureLoop_spec ih (setUnion [] (store.queryReferences p))
        (setInsert p v) (fun e he => hclosed p hp e ((hmem e).mp he))
      refine ⟨?_, ?_⟩
      · intro hb
        have := remaining_insert_lt allPaths v p hp hpv
        exact r1 (by omega)
      · intro f h
        obtain ⟨m, em, cl⟩ := r2 f h
        have hpf : p ∈ f := m p ((mem_setInsert p p v).mpr (Or.inl rfl))
        refine ⟨fun x hx => m x ((mem_setInsert p x v).mpr (Or.inr hx)), hpf, ?_, ?_⟩
        · intro u hu hnu r hr
          by_cases hup : u = p
          · subst hup
            exact em r ((hmem r).mpr hr)
          · have : u ∉ setInsert p v := by
              rw [mem_setInsert]; tauto
            exact (cl u hu this).1 r hr
        · intro u hu hnu
          by_cases hup : u = p
          · subst hup
            exact ReachAvoid.refl u hpv
          · have : u ∉ setInsert p v := by
              rw [mem_setInsert]; tauto
            obtain ⟨_, e, he, hreach⟩ := cl u hu this
            have hreach' : ReachAvoid store.queryReferences v e u :=
              hreach.mono (fun x hx => (mem_setInsert p x v).mpr (Or.inr hx))
            exact ReachAvoid.step p e u hpv ((hmem e).mp he) hreach'

theorem closurePost_reach (refs : Path → PathSet) (v : PathSet) (p : Path) (f : PathSet)
    (hp : ClosurePost refs v p f) (u q : Path) (hu : u ∈ f)
    (hr : ReachAvoid refs v u q) : q ∈ f := by
  induction hr with
  | refl _ _ => exact hu
  | step a r _ ha hra _ ih => exact ih (hp.closed a hu ha r hra)

/-- C17. In a finite store (the references of the paths of `allPaths` are in
`allPaths`), `computeFSClosure` in the default direction without outputs and
derivers returns when it may nest deeper than the number of paths; the final
set holds the initial set `out0` and the paths reachable from `root` along
references through paths not in `out0`, and nothing else; for the empty `out0`
it is the reflexive-transitive closure of `root` under references. -/
theorem computeFSClosure_reachable (store : StoreAPI) (isDerivation : Path → Bool)
    (allPaths : List Path) (root : Path) (out0 : PathSet) (fuel : Nat)
    (hroot : root ∈ allPaths)
    (hclosed : ∀ p ∈ allPaths, ∀ r ∈ store.queryReferences p, r ∈ allPaths)
    (hfuel : allPaths.length < fuel) :
    ∃ out, computeFSClosure store isDerivation false false false fuel root out0 = some out ∧
      (∀ x, x ∈ out ↔ x ∈ out0 ∨ ReachAvoid store.queryReferences out0 root x) ∧
      (∀ x ∈ out0, x ∈ out) ∧
      (out0 = [] → ∀ x, x ∈ out ↔
        Relation.ReflTransGen (fun a b => b ∈ store.queryReferences a) root x) := by
  obtain ⟨h1, h2⟩ := computeFSClosure_closureSpec store isDerivation allPaths hclosed fuel
    root out0 hroot
  cases hr : computeFSClosure store isDerivation false false false fuel root out0 with
  | none => exact absurd hr (h1 (lt_of_le_of_lt (remaining_le_length _ _) hfuel))
  | some out =>
    have hp := h2 out hr
    have hiff : ∀ x, x ∈ out ↔ x ∈ out0 ∨ ReachAvoid store.queryReferences out0 root x := by
      intro x
      constructor
      · intro hx
        by_cases hx0 : x ∈ out0
        · exact Or.inl hx0
        · exact Or.inr (hp.reach x hx hx0)
      · rintro (hx | hx)
        · exact hp.mono x hx
        · exact closurePost_reach _ _ _ _ hp root x hp.root hx
    refine ⟨out, rfl, hiff, hp.mono, ?_⟩
    intro he x
    rw [hiff x, he, reachAvoid_nil_iff]
    simp

/-- C17 (witness). The store with the references `1 → 2` and `2 → 1`, the root
`1` and the empty initial set. -/
theorem computeFSClosure_reachable_witness :
    (1 ∈ ([1, 2] : List Path)) ∧
    (∀ p ∈ ([1, 2] : List Path), ∀ r ∈ cycleStore.queryReferences p, r ∈ ([1, 2] : List Path)) ∧
    ∃ out, computeFSClosure cycleStore (fun _ => false) false false false 3 1 [] = some out ∧
      (∀ x, x ∈ out ↔ x ∈ ([] : PathSet) ∨ ReachAvoid cycleStore.queryReferences [] 1 x) ∧
      (∀ x ∈ ([] : PathSet), x ∈ out) ∧
      (([] : PathSet) = [] → ∀ x, x ∈ out ↔
        Relation.ReflTransGen (fun a b => b ∈ cycleStore.queryReferences a) 1 x) :=
  ⟨by decide, by decide,
   computeFSClosure_reachable cycleStore (fun _ => false) [1, 2] 1 [] 3 (by decide) (by decide)
     (by decide)⟩

theorem queryMissingLoop_succ (store : StoreAPI) (env : MissingEnv) (fuel : Nat)
    (todo done : PathSet) (r : Missing) :
    queryMissingLoop store env (fuel + 1) todo done r
      = if todo.isEmpty then some r
        else queryMissingLoop store env fuel (queryMissingRound store env todo done r).1
          (queryMissingRound store env todo done r).2.1
          (queryMissingRound store env todo done r).2.2 := rfl

theorem queryMissingLoop_nil (store : StoreAPI) (env : MissingEnv) (fuel : Nat)
    (done : PathSet) (r : Missing) :
    queryMissingLoop store env fuel [] done r = some r := by
  cases fuel <;> simp [queryMissingLoop]

theorem mem_invalidOutputs_aux (store : StoreAPI) (env : MissingEnv) (wanted : List String) :
    ∀ (outs : List (String × DerivationOutput)) (acc : PathSet) (x : Path),
    x ∈ outs.foldl (fun acc j =>
        if env.wantOutput j.1 wanted && !store.isValidPath j.2.path then setInsert j.2.path acc
        else acc) acc ↔
      x ∈ acc ∨ ∃ j ∈ outs, j.2.path = x ∧ env.wantOutput j.1 wanted = true ∧
        store.isValidPath x = false := by
  intro outs
  induction outs with
  | nil => intro acc x; simp
  | cons j outs ih =>
    intro acc x
    simp only [List.foldl_cons]
    rw [ih]
    by_cases hc : (env.wantOutput j.1 wanted && !store.isValidPath j.2.path) = true
    · rw [if_pos hc, mem_setInsert]
      simp only [Bool.and_eq_true, Bool.not_eq_true'] at hc
      simp only [List.mem_cons, exists_eq_or_imp]
      constructor
      · rintro ((h | h) | h)
        · exact Or.inr (Or.inl ⟨h.symm, hc.1, by rw [h]; exact hc.2⟩)
        · exact Or.inl h
        · exact Or.inr (Or.inr h)
      · rintro (h | h | h)
        · exact Or.inl (Or.inr h)
        · exact Or.inl (Or.inl h.1.symm)
        · exact Or.inr h
    · rw [if_neg hc]
      simp only [Bool.and_eq_true, Bool.not_eq_true', not_and, Bool.not_eq_false] at hc
      simp only [List.mem_cons, exists_eq_or_imp]
      constructor
      · rintro (h | h)
        · exact Or.inl h
        · exact Or.inr (Or.inr h)
      · rintro (h | h | h)
        · exact Or.inl h
        · obtain ⟨e, hw, hv⟩ := h
          have := hc hw
          rw [e, hv] at this
          exact absurd this (by simp)
        · exact Or.inr h

theorem mem_invalidOutputs (store : StoreAPI) (env : MissingEnv) (i x : Path) :
    x ∈ invalidOutputs store env (requestDrv env i) (env.parseDrvPathWithOutputs i).2 ↔
      InvalidOutput store env i x := by
  unfold invalidOutputs InvalidOutput
  rw [mem_invalidOutputs_aux]
  simp

theorem invalidOutputs_isEmpty (store : StoreAPI) (env : MissingEnv) (i : Path) :
    (invalidOutputs store env (requestDrv env i) (env.parseDrvPathWithOutputs i).2).isEmpty = true ↔
      ¬ ∃ x, InvalidOutput store env i x := by
  rw [List.isEmpty_iff, List.eq_nil_iff_forall_not_mem]
  simp only [mem_invalidOutputs, not_exists]

theorem scanStep_eq (store : StoreAPI) (env : MissingEnv) (s : ScanState) (i : Path) :
    scanStep store env s i =
      if i ∈ s.done then s
      else if env.isDerivation (env.parseDrvPathWithOutputs i).1 = true then
        (if (!store.isValidPath (env.parseDrvPathWithOutputs i).1) = true then
          { done := setInsert i s.done, unknown := setInsert i s.unknown, query := s.query,
            todoDrv := s.todoDrv, todoNonDrv := s.todoNonDrv }
        else if (invalidOutputs store env (requestDrv env i)
            (env.parseDrvPathWithOutputs i).2).isEmpty = true then
          { done := setInsert i s.done, unknown := s.unknown, query := s.query,
            todoDrv := s.todoDrv, todoNonDrv := s.todoNonDrv }
        else if (env.useSubstitutes && !env.willBuildLocally (requestDrv env i)) = true then
          { done := setInsert i s.done, unknown := s.unknown,
            query := setUnion s.query (invalidOutputs store env (requestDrv env i)
              (env.parseDrvPathWithOutputs i).2),
            todoDrv := setInsert i s.todoDrv, todoNonDrv := s.todoNonDrv }
        else
          { done := setInsert i s.done, unknown := s.unknown, query := s.query,
            todoDrv := setInsert i s.todoDrv, todoNonDrv := s.todoNonDrv })
      else if store.isValidPath i = true then
        { done := setInsert i s.done, unknown := s.unknown, query := s.query,
          todoDrv := s.todoDrv, todoNonDrv := s.todoNonDrv }
      else
        { done := setInsert i s.done, unknown := s.unknown, query := setInsert i s.query,
          todoDrv := s.todoDrv, todoNonDrv := setInsert i s.todoNonDrv } := rfl

/-- The effect of the first loop of a round on one element of `todo`. -/
theorem scanStep_spec (store : StoreAPI) (env : MissingEnv) (s : ScanState) (i : Path) :
    (∀ x, x ∈ (scanStep store env s i).done ↔ x ∈ s.done ∨ x = i) ∧
    (∀ x, x ∈ (scanStep store env s i).todoDrv ↔
      x ∈ s.todoDrv ∨ (x = i ∧ i ∉ s.done ∧ Pending store env i)) ∧
    (∀ x, x ∈ (scanStep store env s i).todoNonDrv ↔
      x ∈ s.todoNonDrv ∨ (x = i ∧ i ∉ s.done ∧ ¬ IsDrvRequest env i ∧
        store.isValidPath i = false)) ∧
    (∀ x, x ∈ (scanStep store env s i).unknown ↔
      x ∈ s.unknown ∨ (x = i ∧ i ∉ s.done ∧ IsDrvRequest env i ∧
        store.isValidPath (requestPath env i) = false)) := by
  rw [scanStep_eq]
  by_cases hd : i ∈ s.done
  · rw [if_pos hd]
    refine ⟨fun x => ?_, fun x => ?_, fun x => ?_, fun x => ?_⟩
    · constructor
      · exact Or.inl
      · rintro (h | h)
        · exact h
        · rw [h]; exact hd
    · tauto
    · tauto
    · tauto
  · rw [if_neg hd]
    by_cases hdrv : env.isDerivation (env.parseDrvPathWithOutputs i).1 = true
    · have hreq : IsDrvRequest env i := hdrv
      rw [if_pos hdrv]
      by_cases hval : store.isValidPath (env.parseDrvPathWithOutputs i).1 = true
      · have hval' : store.isValidPath (requestPath env i) = true := hval
        have hnv : ¬ store.isValidPath (requestPath env i) = false := by simp [hval']
        have hc : ¬ (!store.isValidPath (env.parseDrvPathWithOutputs i).1) = true := by
          simp [hval]
        rw [if_neg hc]
        by_cases hemp : (invalidOutputs store env (requestDrv env i)
            (env.parseDrvPathWithOutputs i).2).isEmpty = true
        · have hno := (invalidOutputs_isEmpty store env i).mp hemp
          have hnp : ¬ Pending store env i := fun hp => hno hp.2.2
          rw [if_pos hemp]
          refine ⟨fun x => ?_, fun x => ?_, fun x => ?_, fun x => ?_⟩
          · show x ∈ setInsert i s.done ↔ _
            rw [mem_setInsert]; tauto
          · show x ∈ s.todoDrv ↔ _
            tauto
          · show x ∈ s.todoNonDrv ↔ _
            tauto
          · show x ∈ s.unknown ↔ _
            tauto
        · have hsome : ∃ x, InvalidOutput store env i x := by
            by_contra hcon
            exact hemp ((invalidOutputs_isEmpty store env i).mpr hcon)
          have hp : Pending store env i := ⟨hreq, hval', hsome⟩
          rw [if_neg hemp]
          by_cases hsub : (env.useSubstitutes && !env.willBuildLocally (requestDrv env i)) = true
          · rw [if_pos hsub]
            refine ⟨fun x => ?_, fun x => ?_, fun x => ?_, fun x => ?_⟩
            · show x ∈ setInsert i s.done ↔ _
              rw [mem_setInsert]; tauto
            · show x ∈ setInsert i s.todoDrv ↔ _
              rw [mem_setInsert]; tauto
            · show x ∈ s.todoNonDrv ↔ _
              tauto
            · show x ∈ s.unknown ↔ _
              tauto
          · rw [if_neg hsub]
            refine ⟨fun x => ?_, fun x => ?_, fun x => ?_, fun x => ?_⟩
            · show x ∈ setInsert i s.done ↔ _
              rw [mem_setInsert]; tauto
            · show x ∈ setInsert i s.todoDrv ↔ _
              rw [mem_setInsert]; tauto
            · show x ∈ s.todoNonDrv ↔ _
              tauto
            · show x ∈ s.unknown ↔ _
              tauto
      · have hval' : store.isValidPath (requestPath env i) = false := by
          simpa [requestPath] using hval
        have hnp : ¬ Pending store env i := fun hp => by
          have := hp.2.1
          rw [hval'] at this
          exact absurd this (by simp)
        have hc : (!store.isValidPath (env.parseDrvPathWithOutputs i).1) = true := by
          simpa using hval
        rw [if_pos hc]
        refine ⟨fun x => ?_, fun x => ?_, fun x => ?_, fun x => ?_⟩
        · show x ∈ setInsert i s.done ↔ _
          rw [mem_setInsert]; tauto
        · show x ∈ s.todoDrv ↔ _
          tauto
        · show x ∈ s.todoNonDrv ↔ _
          tauto
        · show x ∈ setInsert i s.unknown ↔ _
          rw [mem_setInsert]; tauto
    · have hreq : ¬ IsDrvRequest env i := hdrv
      have hnp : ¬ Pending store env i := fun hp => hreq hp.1
      rw [if_neg hdrv]
      by_cases hval : store.isValidPath i = true
      · have hnv : ¬ store.isValidPath i = false := by simp [hval]
        rw [if_pos hval]
        refine ⟨fun x => ?_, fun x => ?_, fun x => ?_, fun x => ?_⟩
        · show x ∈ setInsert i s.done ↔ _
          rw [mem_setInsert]; tauto
        · show x ∈ s.todoDrv ↔ _
          tauto
        · show x ∈ s.todoNonDrv ↔ _
          tauto
        · show x ∈ s.unknown ↔ _
          tauto
      · have hval' : store.isValidPath i = false := by simpa using hval
        rw [if_neg hval]
        refine ⟨fun x => ?_, fun x => ?_, fun x => ?_, fun x => ?_⟩
        · show x ∈ setInsert i s.done ↔ _
          rw [mem_setInsert]; tauto
        · show x ∈ s.todoDrv ↔ _
          tauto
        · show x ∈ setInsert i s.todoNonDrv ↔ _
          rw [mem_setInsert]; tauto
        · show x ∈ s.unknown ↔ _
          tauto

/-- The effect of the first loop of a round. -/
theorem scanFold_spec (store : StoreAPI) (env : MissingEnv) :
    ∀ (todo : List Path) (s : ScanState),
    (∀ x, x ∈ (todo.foldl (scanStep store env) s).done ↔ x ∈ s.done ∨ x ∈ todo) ∧
    (∀ x, x ∈ (todo.foldl (scanStep store env) s).todoDrv ↔
      x ∈ s.todoDrv ∨ (x ∈ todo ∧ x ∉ s.done ∧ Pending store env x)) ∧
    (∀ x, x ∈ (todo.foldl (scanStep store env) s).todoNonDrv ↔
      x ∈ s.todoNonDrv ∨ (x ∈ todo ∧ x ∉ s.done ∧ ¬ IsDrvRequest env x ∧
        store.isValidPath x = false)) ∧
    (∀ x, x ∈ (todo.foldl (scanStep store env) s).unknown ↔
      x ∈ s.unknown ∨ (x ∈ todo ∧ x ∉ s.done ∧ IsDrvRequest env x ∧
        store.isValidPath (requestPath env x) = false)) := by
  intro todo
  induction todo with
  | nil => intro s; simp
  | cons i todo ih =>
    intro s
    obtain ⟨a1, a2, a3, a4⟩ := scanStep_spec store env s i
    obtain ⟨b1, b2, b3, b4⟩ := ih (scanStep store env s i)
    simp only [List.foldl_cons, List.mem_cons]
    refine ⟨fun x => ?_, fun x => ?_, fun x => ?_, fun x => ?_⟩
    · rw [b1, a1]; tauto
    · rw [b2, a2, a1]
      by_cases hx : x = i
      · subst hx; tauto
      · tauto
    · rw [b3, a3, a1]
      by_cases hx : x = i
      · subst hx; tauto
      · tauto
    · rw [b4, a4, a1]
      by_cases hx : x = i
      · subst hx; tauto
      · tauto

theorem scanFold_done (store : StoreAPI) (env : MissingEnv) :
    ∀ (todo : List Path) (s : ScanState), (∀ i ∈ todo, i ∈ s.done) →
    todo.foldl (scanStep store env) s = s := by
  intro todo
  induction todo with
  | nil => intro s _; rfl
  | cons i todo ih =>
    intro s h
    have hi : i ∈ s.done := h i (List.mem_cons_self _ _)
    have e : scanStep store env s i = s := by rw [scanStep_eq, if_pos hi]
    simp only [List.foldl_cons, e]
    exact ih s (fun j hj => h j (List.mem_cons_of_mem _ hj))

theorem drvStep_eq (store : StoreAPI) (env : MissingEnv)
    (infos : List (Path × SubstitutablePathInfo)) (s : DrvState) (i : Path) :
    drvStep store env infos s i =
      if (outputScan store env infos i).1 = true then
        { willBuild := setInsert (requestPath env i) s.willBuild,
          todo := (requestDrv env i).inputDrvs.foldl
            (fun t j => setInsert (env.makeDrvPathWithOutputs j.1 j.2) t)
            (setUnion s.todo (requestDrv env i).inputSrcs),
          todoNonDrv := s.todoNonDrv }
      else
        { willBuild := s.willBuild, todo := s.todo,
          todoNonDrv := setUnion s.todoNonDrv (outputScan store env infos i).2 } := rfl

theorem outputScan_fold (store : StoreAPI) (env : MissingEnv)
    (infos : List (Path × SubstitutablePathInfo)) (wanted : List String) :
    ∀ (outs : List (String × DerivationOutput)) (acc : Bool × PathSet),
    ((outs.foldl (fun acc j =>
        if !env.wantOutput j.1 wanted then acc
        else if !store.isValidPath j.2.path then
          (if (mapFind j.2.path infos).isNone then (true, acc.2)
           else (acc.1, setInsert j.2.path acc.2))
        else acc) acc).1 = true ↔
      acc.1 = true ∨ ∃ j ∈ outs, env.wantOutput j.1 wanted = true ∧
        store.isValidPath j.2.path = false ∧ mapFind j.2.path infos = none) ∧
    (∀ x, x ∈ (outs.foldl (fun acc j =>
        if !env.wantOutput j.1 wanted then acc
        else if !store.isValidPath j.2.path then
          (if (mapFind j.2.path infos).isNone then (true, acc.2)
           else (acc.1, setInsert j.2.path acc.2))
        else acc) acc).2 ↔
      x ∈ acc.2 ∨ ∃ j ∈ outs, j.2.path = x ∧ env.wantOutput j.1 wanted = true ∧
        store.isValidPath x = false ∧ mapFind x infos ≠ none) := by
  intro outs
  induction outs with
  | nil => intro acc; simp
  | cons j outs ih =>
    intro acc
    simp only [List.foldl_cons, List.mem_cons, exists_eq_or_imp]
    by_cases hw : env.wantOutput j.1 wanted = true
    · by_cases hv : store.isValidPath j.2.path = true
      · have e1 : (!env.wantOutput j.1 wanted) = false := by simp [hw]
        have e2 : (!store.isValidPath j.2.path) = false := by simp [hv]
        simp only [e1, e2, Bool.false_eq_true, if_false]
        obtain ⟨r1, r2⟩ := ih acc
        rw [r1]
        refine ⟨by simp [hv], fun x => ?_⟩
        rw [r2]
        constructor
        · rintro (h | h)
          · exact Or.inl h
          · exact Or.inr (Or.inr h)
        · rintro (h | h | h)
          · exact Or.inl h
          · obtain ⟨e, _, hv', _⟩ := h
            rw [e, hv'] at hv
            exact absurd hv (by simp)
          · exact Or.inr h
      · have hv' : store.isValidPath j.2.path = false := by simpa using hv
        have e1 : (!env.wantOutput j.1 wanted) = false := by simp [hw]
        have e2 : (!store.isValidPath j.2.path) = true := by simp [hv']
        simp only [e1, e2, Bool.false_eq_true, if_false, if_true]
        cases hm : mapFind j.2.path infos with
        | none =>
          simp only [Option.isNone_none, if_true]
          obtain ⟨r1, r2⟩ := ih (true, acc.2)
          rw [r1]
          refine ⟨by simp [hw, hv'], fun x => ?_⟩
          rw [r2]
          constructor
          · rintro (h | h)
            · exact Or.inl h
            · exact Or.inr (Or.inr h)
          · rintro (h | h | h)
            · exact Or.inl h
            · obtain ⟨e, _, _, hne⟩ := h
              rw [← e, hm] at hne
              exact absurd rfl hne
            · exact Or.inr h
        | some info =>
          simp only [Option.isNone_some, Bool.false_eq_true, if_false]
          obtain ⟨r1, r2⟩ := ih (acc.1, setInsert j.2.path acc.2)
          rw [r1]
          refine ⟨by simp, fun x => ?_⟩
          rw [r2, mem_setInsert]
          constructor
          · rintro ((h | h) | h)
            · exact Or.inr (Or.inl ⟨h.symm, hw, by rw [h]; exact hv', by rw [h, hm]; simp⟩)
            · exact Or.inl h
            · exact Or.inr (Or.inr h)
          · rintro (h | h | h)
            · exact Or.inl (Or.inr h)
            · exact Or.inl (Or.inl h.1.symm)
            · exact Or.inr h
    · have e1 : (!env.wantOutput j.1 wanted) = true := by simpa using hw
      simp only [e1, if_true]
      obtain ⟨r1, r2⟩ := ih acc
      rw [r1]
      refine ⟨by simp [hw], fun x => ?_⟩
      rw [r2]
      constructor
      · rintro (h | h)
        · exact Or.inl h
        · exact Or.inr (Or.inr h)
      · rintro (h | h | h)
        · exact Or.inl h
        · exact absurd h.2.1 hw
        · exact Or.inr h

theorem outputScan_spec (store : StoreAPI) (env : MissingEnv)
    (infos : List (Path × SubstitutablePathInfo)) (i : Path) :
    ((outputScan store env infos i).1 = true ↔ MustBuild store env infos i) ∧
    (¬ MustBuild store env infos i → ∀ x,
      x ∈ (outputScan store env infos i).2 ↔ InvalidOutput store env i x) ∧
    (¬ MustBuild store env infos i → ∀ x, InvalidOutput store env i x →
      mapFind x infos ≠ none) := by
  have hinfo : ¬ MustBuild store env infos i → ∀ x, InvalidOutput store env i x →
      mapFind x infos ≠ none := by
    intro hmb x hx hnone
    exact hmb (Or.inr (Or.inr ⟨x, hx, hnone⟩))
  unfold outputScan
  by_cases hc : (env.useSubstitutes && !env.willBuildLocally (requestDrv env i)) = true
  · rw [if_pos hc]
    simp only [Bool.and_eq_true, Bool.not_eq_true'] at hc
    obtain ⟨r1, r2⟩ := outputScan_fold store env infos (env.parseDrvPathWithOutputs i).2
      (requestDrv env i).outputs (false, [])
    have hiff : (∃ j ∈ (requestDrv env i).outputs,
          env.wantOutput j.1 (env.parseDrvPathWithOutputs i).2 = true ∧
          store.isValidPath j.2.path = false ∧ mapFind j.2.path infos = none) ↔
        ∃ x, InvalidOutput store env i x ∧ mapFind x infos = none := by
      constructor
      · rintro ⟨j, hj, hw, hv, hm⟩
        exact ⟨j.2.path, ⟨j, hj, rfl, hw, hv⟩, hm⟩
      · rintro ⟨x, ⟨j, hj, e, hw, hv⟩, hm⟩
        exact ⟨j, hj, hw, by rw [e]; exact hv, by rw [e]; exact hm⟩
    refine ⟨?_, ?_, hinfo⟩
    · rw [r1, hiff]
      unfold MustBuild
      simp [hc.1, hc.2]
    · intro hmb x
      rw [r2]
      constructor
      · rintro (h | ⟨j, hj, e, hw, hv, _⟩)
        · simp at h
        · exact ⟨j, hj, e, hw, hv⟩
      · rintro ⟨j, hj, e, hw, hv⟩
        exact Or.inr ⟨j, hj, e, hw, hv, hinfo hmb x ⟨j, hj, e, hw, hv⟩⟩
  · rw [if_neg hc]
    have hmb : MustBuild store env infos i := by
      simp only [Bool.and_eq_true, Bool.not_eq_true', not_and, Bool.not_eq_false] at hc
      by_cases hu : env.useSubstitutes = true
      · exact Or.inl (hc hu)
      · exact Or.inr (Or.inl (by simpa using hu))
    exact ⟨by simp [hmb], fun h => absurd hmb h, hinfo⟩

theorem mem_foldl_make (env : MissingEnv) : ∀ (l : List (Path × List String)) (t : PathSet)
    (x : Path),
    x ∈ l.foldl (fun t j => setInsert (env.makeDrvPathWithOutputs j.1 j.2) t) t ↔
      x ∈ t ∨ ∃ j ∈ l, x = env.makeDrvPathWithOutputs j.1 j.2 := by
  intro l
  induction l with
  | nil => intro t x; simp
  | cons j l ih =>
    intro t x
    simp only [List.foldl_cons, List.mem_cons, exists_eq_or_imp]
    rw [ih, mem_setInsert]
    tauto

/-- The effect of the second loop of a round on one element of `todoDrv`. -/
theorem drvStep_spec (store : StoreAPI) (env : MissingEnv)
    (infos : List (Path × SubstitutablePathInfo)) (s : DrvState) (i : Path) :
    (MustBuild store env infos i →
      (∀ x, x ∈ (drvStep store env infos s i).willBuild ↔
        x = requestPath env i ∨ x ∈ s.willBuild) ∧
      (∀ x, x ∈ (drvStep store env infos s i).todo ↔ x ∈ s.todo ∨ InputOf env i x) ∧
      (drvStep store env infos s i).todoNonDrv = s.todoNonDrv) ∧
    (¬ MustBuild store env infos i →
      (drvStep store env infos s i).willBuild = s.willBuild ∧
      (drvStep store env infos s i).todo = s.todo ∧
      (∀ x, x ∈ (drvStep store env infos s i).todoNonDrv ↔
        x ∈ s.todoNonDrv ∨ InvalidOutput store env i x) ∧
      (∀ x, InvalidOutput store env i x → mapFind x infos ≠ none)) := by
  obtain ⟨h1, h2, h3⟩ := outputScan_spec store env infos i
  rw [drvStep_eq]
  constructor
  · intro hmb
    rw [if_pos (h1.mpr hmb)]
    refine ⟨fun x => ?_, fun x => ?_, rfl⟩
    · show x ∈ setInsert (requestPath env i) s.willBuild ↔ _
      rw [mem_setInsert]
    · show x ∈ (requestDrv env i).inputDrvs.foldl _ _ ↔ _
      rw [mem_foldl_make, mem_setUnion]
      unfold InputOf
      tauto
  · intro hmb
    rw [if_neg (fun h => hmb (h1.mp h))]
    refine ⟨rfl, rfl, fun x => ?_, h3 hmb⟩
    show x ∈ setUnion s.todoNonDrv _ ↔ _
    rw [mem_setUnion, h2 hmb]

/-- The effect of the second loop of a round. -/
theorem drvFold_spec (store : StoreAPI) (env : MissingEnv)
    (infos : List (Path × SubstitutablePathInfo)) :
    ∀ (l : List Path) (s : DrvState),
    (∀ x, x ∈ (l.foldl (drvStep store env infos) s).willBuild ↔
      x ∈ s.willBuild ∨ ∃ i ∈ l, MustBuild store env infos i ∧ x = requestPath env i) ∧
    (∀ x, x ∈ (l.foldl (drvStep store env infos) s).todo ↔
      x ∈ s.todo ∨ ∃ i ∈ l, MustBuild store env infos i ∧ InputOf env i x) ∧
    (∀ x, x ∈ (l.foldl (drvStep store env infos) s).todoNonDrv ↔
      x ∈ s.todoNonDrv ∨ ∃ i ∈ l, ¬ MustBuild store env infos i ∧
        InvalidOutput store env i x) := by
  intro l
  induction l with
  | nil => intro s; simp
  | cons i l ih =>
    intro s
    obtain ⟨b1, b2, b3⟩ := ih (drvStep store env infos s i)
    obtain ⟨a1, a2⟩ := drvStep_spec store env infos s i
    simp only [List.foldl_cons, List.mem_cons, exists_eq_or_imp]
    by_cases hmb : MustBuild store env infos i
    · obtain ⟨c1, c2, c3⟩ := a1 hmb
      refine ⟨fun x => ?_, fun x => ?_, fun x => ?_⟩
      · rw [b1, c1]; tauto
      · rw [b2, c2]; tauto
      · rw [b3, c3]; tauto
    · obtain ⟨c1, c2, c3, _⟩ := a2 hmb
      refine ⟨fun x => ?_, fun x => ?_, fun x => ?_⟩
      · rw [b1, c1]; tauto
      · rw [b2, c2]; tauto
      · rw [b3, c3]; tauto

theorem substStep_eq (infos : List (Path × SubstitutablePathInfo)) (s : SubstState) (i : Path) :
    substStep infos s i =
      match mapFind i infos with
      | some info =>
        { done := setInsert i s.done, willSubstitute := setInsert i s.willSubstitute,
          unknown := s.unknown,
          downloadSize := (s.downloadSize + info.downloadSize) % 2 ^ 64,
          narSize := (s.narSize + info.narSize) % 2 ^ 64,
          todo := setUnion s.todo info.references }
      | none =>
        { done := setInsert i s.done, willSubstitute := s.willSubstitute,
          unknown := setInsert i s.unknown, downloadSize := s.downloadSize,
          narSize := s.narSize, todo := s.todo } := by
  unfold substStep
  cases mapFind i infos <;> rfl

/-- The effect of the third loop of a round. -/
theorem substFold_spec (infos : List (Path × SubstitutablePathInfo)) :
    ∀ (l : List Path) (s : SubstState),
    (∀ x, x ∈ (l.foldl (substStep infos) s).done ↔ x ∈ s.done ∨ x ∈ l) ∧
    (∀ x, x ∈ (l.foldl (substStep infos) s).willSubstitute ↔
      x ∈ s.willSubstitute ∨ (x ∈ l ∧ mapFind x infos ≠ none)) ∧
    (∀ x, x ∈ (l.foldl (substStep infos) s).unknown ↔
      x ∈ s.unknown ∨ (x ∈ l ∧ mapFind x infos = none)) ∧
    (∀ x, x ∈ (l.foldl (substStep infos) s).todo ↔
      x ∈ s.todo ∨ ∃ i ∈ l, ∃ info, mapFind i infos = some info ∧ x ∈ info.references) := by
  intro l
  induction l with
  | nil => intro s; simp
  | cons i l ih =>
    intro s
    obtain ⟨b1, b2, b3, b4⟩ := ih (substStep infos s i)
    simp only [List.foldl_cons, List.mem_cons, exists_eq_or_imp]
    rw [substStep_eq] at b1 b2 b3 b4 ⊢
    cases hm : mapFind i infos with
    | none =>
      simp only [hm] at b1 b2 b3 b4 ⊢
      refine ⟨fun x => ?_, fun x => ?_, fun x => ?_, fun x => ?_⟩
      · rw [b1, mem_setInsert]; tauto
      · rw [b2]
        constructor
        · rintro (h | h)
          · exact Or.inl h
          · exact Or.inr ⟨Or.inr h.1, h.2⟩
        · rintro (h | ⟨h | h, h2⟩)
          · exact Or.inl h
          · rw [h, hm] at h2; exact absurd rfl h2
          · exact Or.inr ⟨h, h2⟩
      · rw [b3, mem_setInsert]
        constructor
        · rintro ((h | h) | h)
          · exact Or.inr ⟨Or.inl h, by rw [h]; exact hm⟩
          · exact Or.inl h
          · exact Or.inr ⟨Or.inr h.1, h.2⟩
        · rintro (h | ⟨h | h, h2⟩)
          · exact Or.inl (Or.inr h)
          · exact Or.inl (Or.inl h)
          · exact Or.inr ⟨h, h2⟩
      · rw [b4]
        simp
    | some info =>
      simp only [hm] at b1 b2 b3 b4 ⊢
      refine ⟨fun x => ?_, fun x => ?_, fun x => ?_, fun x => ?_⟩
      · rw [b1, mem_setInsert]; tauto
      · rw [b2, mem_setInsert]
        constructor
        · rintro ((h | h) | h)
          · exact Or.inr ⟨Or.inl h, by rw [h, hm]; simp⟩
          · exact Or.inl h
          · exact Or.inr ⟨Or.inr h.1, h.2⟩
        · rintro (h | ⟨h | h, h2⟩)
          · exact Or.inl (Or.inr h)
          · exact Or.inl (Or.inl h)
          · exact Or.inr ⟨h, h2⟩
      · rw [b3]
        constructor
        · rintro (h | h)
          · exact Or.inl h
          · exact Or.inr ⟨Or.inr h.1, h.2⟩
        · rintro (h | ⟨h | h, h2⟩)
          · exact Or.inl h
          · rw [h, hm] at h2; exact absurd h2 (by simp)
          · exact Or.inr ⟨h, h2⟩
      · rw [b4, mem_setUnion]
        simp only [Option.some.injEq, exists_eq_left']
        tauto

/-- The effect of one round of the loop of `queryMissing` on the five sets. -/
theorem queryMissingRound_spec (store : StoreAPI) (env : MissingEnv) (todo done : PathSet)
    (r : Missing) :
    (∀ x, x ∈ (queryMissingRound store env todo done r).2.1 ↔
      x ∈ done ∨ x ∈ todo ∨ ∃ i ∈ todo, i ∉ done ∧ Pending store env i ∧
        ¬ MustBuild store env (roundInfos store env todo done r) i ∧
        InvalidOutput store env i x) ∧
    (∀ x, x ∈ (queryMissingRound store env todo done r).2.2.willBuild ↔
      x ∈ r.willBuild ∨ ∃ i ∈ todo, i ∉ done ∧ Pending store env i ∧
        MustBuild store env (roundInfos store env todo done r) i ∧ x = requestPath env i) ∧
    (∀ x, x ∈ (queryMissingRound store env todo done r).2.2.willSubstitute ↔
      x ∈ r.willSubstitute ∨
        (NonDrvItem store env (roundInfos store env todo done r) todo done x ∧
          mapFind x (roundInfos store env todo done r) ≠ none)) ∧
    (∀ x, x ∈ (queryMissingRound store env todo done r).2.2.unknown ↔
      x ∈ r.unknown ∨
        (x ∈ todo ∧ x ∉ done ∧ IsDrvRequest env x ∧
          store.isValidPath (requestPath env x) = false) ∨
        (NonDrvItem store env (roundInfos store env todo done r) todo done x ∧
          mapFind x (roundInfos store env todo done r) = none)) ∧
    (∀ x, x ∈ (queryMissingRound store env todo done r).1 ↔
      (∃ i ∈ todo, i ∉ done ∧ Pending store env i ∧
        MustBuild store env (roundInfos store env todo done r) i ∧ InputOf env i x) ∨
      ∃ i, NonDrvItem store env (roundInfos store env todo done r) todo done i ∧
        ∃ info, mapFind i (roundInfos store env todo done r) = some info ∧
          x ∈ info.references) := by
  obtain ⟨a1, a2, a3, a4⟩ := scanFold_spec store env todo
    { done := done, unknown := r.unknown, query := [], todoDrv := [], todoNonDrv := [] }
  obtain ⟨b1, b2, b3⟩ := drvFold_spec store env (roundInfos store env todo done r)
    (todo.foldl (scanStep store env)
      { done := done, unknown := r.unknown, query := [], todoDrv := [], todoNonDrv := [] }).todoDrv
    { willBuild := r.willBuild, todo := [],
      todoNonDrv := (todo.foldl (scanStep store env)
        { done := done, unknown := r.unknown, query := [], todoDrv := [],
          todoNonDrv := [] }).todoNonDrv }
  obtain ⟨c1, c2, c3, c4⟩ := substFold_spec (roundInfos store env todo done r)
    ((todo.foldl (scanStep store env)
      { done := done, unknown := r.unknown, query := [], todoDrv := [],
        todoNonDrv := [] }).todoDrv.foldl
      (drvStep store env (roundInfos store env todo done r))
      { willBuild := r.willBuild, todo := [],
        todoNonDrv := (todo.foldl (scanStep store env)
          { done := done, unknown := r.unknown, query := [], todoDrv := [],
            todoNonDrv := [] }).todoNonDrv }).todoNonDrv
    { done := (todo.foldl (scanStep store env)
        { done := done, unknown := r.unknown, query := [], todoDrv := [],
          todoNonDrv := [] }).done,
      willSubstitute := r.willSubstitute,
      unknown := (todo.foldl (scanStep store env)
        { done := done, unknown := r.unknown, query := [], todoDrv := [],
          todoNonDrv := [] }).unknown,
      downloadSize := r.downloadSize, narSize := r.narSize,
      todo := ((todo.foldl (scanStep store env)
        { done := done, unknown := r.unknown, query := [], todoDrv := [],
          todoNonDrv := [] }).todoDrv.foldl
        (drvStep store env (roundInfos store env todo done r))
        { willBuild := r.willBuild, todo := [],
          todoNonDrv := (todo.foldl (scanStep store env)
            { done := done, unknown := r.unknown, query := [], todoDrv := [],
              todoNonDrv := [] }).todoNonDrv }).todo }
  simp only [List.not_mem_nil, false_or] at a2 a3 b2
  dsimp only at a1 a4
  have hnd : ∀ x, x ∈ ((todo.foldl (scanStep store env)
      { done := done, unknown := r.unknown, query := [], todoDrv := [],
        todoNonDrv := [] }).todoDrv.foldl
      (drvStep store env (roundInfos store env todo done r))
      { willBuild := r.willBuild, todo := [],
        todoNonDrv := (todo.foldl (scanStep store env)
          { done := done, unknown := r.unknown, query := [], todoDrv := [],
            todoNonDrv := [] }).todoNonDrv }).todoNonDrv ↔
      NonDrvItem store env (roundInfos store env todo done r) todo done x := by
    intro x
    rw [b3, a3]
    unfold NonDrvItem
    constructor
    · rintro (h | ⟨i, hi, hmb, ho⟩)
      · exact Or.inl h
      · obtain ⟨h1, h2, h3⟩ := (a2 i).mp hi
        exact Or.inr ⟨i, h1, h2, h3, hmb, ho⟩
    · rintro (h | ⟨i, h1, h2, h3, hmb, ho⟩)
      · exact Or.inl h
      · exact Or.inr ⟨i, (a2 i).mpr ⟨h1, h2, h3⟩, hmb, ho⟩
  refine ⟨fun x => ?_, fun x => ?_, fun x => ?_, fun x => ?_, fun x => ?_⟩
  · refine (c1 x).trans ?_
    rw [hnd, a1]
    unfold NonDrvItem
    constructor
    · rintro ((h | h) | h | h)
      · exact Or.inl h
      · exact Or.inr (Or.inl h)
      · exact Or.inr (Or.inl h.1)
      · exact Or.inr (Or.inr h)
    · rintro (h | h | h)
      · exact Or.inl (Or.inl h)
      · exact Or.inl (Or.inr h)
      · exact Or.inr (Or.inr h)
  · refine (b1 x).trans ?_
    constructor
    · rintro (h | ⟨i, hi, hmb, e⟩)
      · exact Or.inl h
      · obtain ⟨h1, h2, h3⟩ := (a2 i).mp hi
        exact Or.inr ⟨i, h1, h2, h3, hmb, e⟩
    · rintro (h | ⟨i, h1, h2, h3, hmb, e⟩)
      · exact Or.inl h
      · exact Or.inr ⟨i, (a2 i).mpr ⟨h1, h2, h3⟩, hmb, e⟩
  · refine (c2 x).trans ?_
    rw [hnd]
  · refine (c3 x).trans ?_
    rw [hnd, a4]
    tauto
  · refine (c4 x).trans ?_
    rw [b2]
    constructor
    · rintro (⟨i, hi, hmb, e⟩ | ⟨i, hi, h⟩)
      · obtain ⟨h1, h2, h3⟩ := (a2 i).mp hi
        exact Or.inl ⟨i, h1, h2, h3, hmb, e⟩
      · exact Or.inr ⟨i, (hnd i).mp hi, h⟩
    · rintro (⟨i, h1, h2, h3, hmb, e⟩ | ⟨i, hi, h⟩)
      · exact Or.inl ⟨i, (a2 i).mpr ⟨h1, h2, h3⟩, hmb, e⟩
      · exact Or.inr ⟨i, (hnd i).mpr hi, h⟩

/-- A round whose `todo` holds nothing new changes nothing and empties `todo`. -/
theorem queryMissingRound_idle (store : StoreAPI) (env : MissingEnv) (todo done : PathSet)
    (r : Missing) (h : ∀ i ∈ todo, i ∈ done) :
    queryMissingRound store env todo done r = ([], done, r) := by
  unfold queryMissingRound
  rw [scanFold_done store env todo _ h]
  rfl

theorem remaining_lt (paths v1 v2 : List Path) (x : Path) (hx : x ∈ paths) (h1 : x ∉ v1)
    (h2 : x ∈ v2) (hsub : ∀ y ∈ v1, y ∈ v2) : remaining paths v2 < remaining paths v1 := by
  unfold remaining
  apply Finset.card_lt_card
  rw [Finset.ssubset_iff_of_subset]
  · refine ⟨x, ?_, ?_⟩
    · simp [hx, h1]
    · simp [h2]
  · intro y hy
    simp only [Finset.mem_sdiff, List.mem_toFinset] at hy ⊢
    exact ⟨hy.1, fun hv => hy.2 (hsub y hv)⟩

/-- The loop of `queryMissing` ends within `fuel` rounds when `todo` stays in
the finite set `allPaths` and fewer than `fuel` paths of it are not in `done`. -/
theorem queryMissingLoop_total (store : StoreAPI) (env : MissingEnv) (allPaths : List Path)
    (hinputs : ∀ i ∈ allPaths, (∀ x ∈ (requestDrv env i).inputSrcs, x ∈ allPaths) ∧
      ∀ j ∈ (requestDrv env i).inputDrvs, env.makeDrvPathWithOutputs j.1 j.2 ∈ allPaths)
    (hrefs : ∀ query p info, mapFind p (store.querySubstitutablePathInfos query) = some info →
      ∀ x ∈ info.references, x ∈ allPaths) :
    ∀ (fuel : Nat) (todo done : PathSet) (r : Missing), (∀ x ∈ todo, x ∈ allPaths) →
      remaining allPaths done < fuel →
      ∃ res, queryMissingLoop store env fuel todo done r = some res := by
  intro fuel
  induction fuel with
  | zero => intro todo done r _ h; exact absurd h (Nat.not_lt_zero _)
  | succ fuel ih =>
    intro todo done r htodo hrem
    rw [queryMissingLoop_succ]
    by_cases he : todo.isEmpty = true
    · rw [if_pos he]; exact ⟨r, rfl⟩
    · rw [if_neg he]
      by_cases hnew : ∃ i ∈ todo, i ∉ done
      · obtain ⟨i, hi, hid⟩ := hnew
        obtain ⟨s1, _, _, _, s5⟩ := queryMissingRound_spec store env todo done r
        apply ih
        · intro x hx
          rcases (s5 x).mp hx with ⟨k, hk, _, _, _, hin⟩ | ⟨k, _, info, hm, hx2⟩
          · rcases hin with h | ⟨j, hj, e⟩
            · exact (hinputs k (htodo k hk)).1 x h
            · rw [e]; exact (hinputs k (htodo k hk)).2 j hj
          · unfold roundInfos at hm
            exact hrefs _ k info hm x hx2
        · have hlt : remaining allPaths (queryMissingRound store env todo done r).2.1
              < remaining allPaths done :=
            remaining_lt allPaths done _ i (htodo i hi) hid ((s1 i).mpr (Or.inr (Or.inl hi)))
              (fun y hy => (s1 y).mpr (Or.inl hy))
          omega
      · have hall : ∀ i ∈ todo, i ∈ done := by
          intro i hi
          by_contra hd
          exact hnew ⟨i, hi, hd⟩
        rw [queryMissingRound_idle store env todo done r hall]
        exact ⟨r, queryMissingLoop_nil store env fuel done r⟩

theorem queryMissing_total (store : StoreAPI) (env : MissingEnv) (allPaths : List Path)
    (targets willBuild willSubstitute unknown : PathSet)
    (htargets : ∀ x ∈ targets, x ∈ allPaths)
    (hinputs : ∀ i ∈ allPaths, (∀ x ∈ (requestDrv env i).inputSrcs, x ∈ allPaths) ∧
      ∀ j ∈ (requestDrv env i).inputDrvs, env.makeDrvPathWithOutputs j.1 j.2 ∈ allPaths)
    (hrefs : ∀ query p info, mapFind p (store.querySubstitutablePathInfos query) = some info →
      ∀ x ∈ info.references, x ∈ allPaths)
    (fuel : Nat) (hfuel : allPaths.length < fuel) :
    ∃ res, queryMissing store env fuel targets willBuild willSubstitute unknown = some res := by
  unfold queryMissing
  apply queryMissingLoop_total store env allPaths hinputs hrefs
  · intro x hx
    rw [mem_setUnion] at hx
    rcases hx with h | h
    · simp at h
    · exact htargets x h
  · exact Nat.lt_of_le_of_lt (remaining_le_length allPaths []) hfuel

theorem processed_mono (store : StoreAPI) (env : MissingEnv) (r1 r2 : Missing)
    (hu : ∀ x ∈ r1.unknown, x ∈ r2.unknown)
    (hs : ∀ x ∈ r1.willSubstitute, x ∈ r2.willSubstitute)
    (hb : ∀ x ∈ r1.willBuild, x ∈ r2.willBuild) (x : Path)
    (h : Processed store env r1 x) : Processed store env r2 x := by
  rcases h with h | h | h | h | ⟨h1, h2, h3⟩
  · exact Or.inl (hu x h)
  · exact Or.inr (Or.inl (hs x h))
  · exact Or.inr (Or.inr (Or.inl (hb _ h)))
  · exact Or.inr (Or.inr (Or.inr (Or.inl h)))
  · exact Or.inr (Or.inr (Or.inr (Or.inr ⟨h1, h2, fun o ho => hs o (h3 o ho)⟩)))

/-- After a round every element of `done` has been processed. -/
theorem queryMissingRound_processed (store : StoreAPI) (env : MissingEnv) (todo done : PathSet)
    (r : Missing) (hinv : ∀ x ∈ done, Processed store env r x) :
    ∀ x ∈ (queryMissingRound store env todo done r).2.1,
      Processed store env (queryMissingRound store env todo done r).2.2 x := by
  obtain ⟨s1, s2, s3, s4, _⟩ := queryMissingRound_spec store env todo done r
  have hmono : ∀ x, Processed store env r x →
      Processed store env (queryMissingRound store env todo done r).2.2 x :=
    processed_mono store env r _ (fun x hx => (s4 x).mpr (Or.inl hx))
      (fun x hx => (s3 x).mpr (Or.inl hx)) (fun x hx => (s2 x).mpr (Or.inl hx))
  have hout : ∀ i ∈ todo, i ∉ done → Pending store env i →
      ¬ MustBuild store env (roundInfos store env todo done r) i →
      ∀ o, InvalidOutput store env i o →
        o ∈ (queryMissingRound store env todo done r).2.2.willSubstitute := by
    intro i hi hd hp hmb o ho
    refine (s3 o).mpr (Or.inr ⟨Or.inr ⟨i, hi, hd, hp, hmb, ho⟩, ?_⟩)
    intro hnone
    exact hmb (Or.inr (Or.inr ⟨o, ho, hnone⟩))
  intro x hx
  by_cases hd : x ∈ done
  · exact hmono x (hinv x hd)
  rcases (s1 x).mp hx with h | h | ⟨i, hi, hid, hp, hmb, ho⟩
  · exact absurd h hd
  · by_cases hdrv : IsDrvRequest env x
    · by_cases hv : store.isValidPath (requestPath env x) = true
      · by_cases hp : ∃ o, InvalidOutput store env x o
        · by_cases hmb : MustBuild store env (roundInfos store env todo done r) x
          · exact Or.inr (Or.inr (Or.inl ((s2 _).mpr (Or.inr ⟨x, h, hd, ⟨hdrv, hv, hp⟩, hmb, rfl⟩))))
          · exact Or.inr (Or.inr (Or.inr (Or.inr ⟨hdrv, hv,
              hout x h hd ⟨hdrv, hv, hp⟩ hmb⟩)))
        · exact Or.inr (Or.inr (Or.inr (Or.inr ⟨hdrv, hv, fun o ho => absurd ⟨o, ho⟩ hp⟩)))
      · have hv2 : store.isValidPath (requestPath env x) = false := by simpa using hv
        exact Or.inl ((s4 x).mpr (Or.inr (Or.inl ⟨h, hd, hdrv, hv2⟩)))
    · by_cases hv : store.isValidPath x = true
      · exact Or.inr (Or.inr (Or.inr (Or.inl ⟨hdrv, hv⟩)))
      · have hv2 : store.isValidPath x = false := by simpa using hv
        by_cases hm : mapFind x (roundInfos store env todo done r) = none
        · exact Or.inl ((s4 x).mpr (Or.inr (Or.inr ⟨Or.inl ⟨h, hd, hdrv, hv2⟩, hm⟩)))
        · exact Or.inr (Or.inl ((s3 x).mpr (Or.inr ⟨Or.inl ⟨h, hd, hdrv, hv2⟩, hm⟩)))
  · exact Or.inr (Or.inl (hout i hi hid hp hmb x ho))

/-- When the loop of `queryMissing` returns, every element of `done` and of
`todo` has been processed, and `willBuild` has only grown. -/
theorem queryMissingLoop_processed (store : StoreAPI) (env : MissingEnv) :
    ∀ (fuel : Nat) (todo done : PathSet) (r res : Missing),
      queryMissingLoop store env fuel todo done r = some res →
      (∀ x ∈ done, Processed store env r x) →
      (∀ x, x ∈ done ∨ x ∈ todo → Processed store env res x) ∧
      (∀ x ∈ r.willBuild, x ∈ res.willBuild) := by
  have hbase : ∀ (todo done : PathSet) (r res : Missing), todo.isEmpty = true → some r = some res →
      (∀ x ∈ done, Processed store env r x) →
      (∀ x, x ∈ done ∨ x ∈ todo → Processed store env res x) ∧
      (∀ x ∈ r.willBuild, x ∈ res.willBuild) := by
    intro todo done r res he h hinv
    have e : r = res := Option.some.inj h
    subst e
    have hn : todo = [] := List.isEmpty_iff.mp he
    subst hn
    refine ⟨fun x hx => ?_, fun x hx => hx⟩
    rcases hx with hx | hx
    · exact hinv x hx
    · simp at hx
  intro fuel
  induction fuel with
  | zero =>
    intro todo done r res h hinv
    unfold queryMissingLoop at h
    by_cases he : todo.isEmpty = true
    · rw [if_pos he] at h
      exact hbase todo done r res he h hinv
    · rw [if_neg he] at h
      exact absurd h (by simp)
  | succ fuel ih =>
    intro todo done r res h hinv
    rw [queryMissingLoop_succ] at h
    by_cases he : todo.isEmpty = true
    · rw [if_pos he] at h
      exact hbase todo done r res he h hinv
    · rw [if_neg he] at h
      obtain ⟨s1, s2, _, _, _⟩ := queryMissingRound_spec store env todo done r
      obtain ⟨p1, p2⟩ := ih _ _ _ res h (queryMissingRound_processed store env todo done r hinv)
      refine ⟨fun x hx => ?_, fun x hx => p2 x ((s2 x).mpr (Or.inl hx))⟩
      apply p1 x
      rcases hx with hx | hx
      · exact Or.inl ((s1 x).mpr (Or.inl hx))
      · exact Or.inl ((s1 x).mpr (Or.inr (Or.inl hx)))

/-- The first round of `queryMissing` for a target that has to be built. -/
theorem queryMissing_target_built (store : StoreAPI) (env : MissingEnv)
    (targets willBuild willSubstitute unknown : PathSet) (i : Path)
    (hi : i ∈ targets) (hp : Pending store env i)
    (hmb : ∀ infos, (∀ p info, mapFind p infos = some info →
      ∃ query, mapFind p (store.querySubstitutablePathInfos query) = some info) →
      MustBuild store env infos i)
    (fuel : Nat) (res : Missing)
    (h : queryMissing store env fuel targets willBuild willSubstitute unknown = some res) :
    requestPath env i ∈ res.willBuild ∧ ∀ y, InputOf env i y → Processed store env res y := by
  unfold queryMissing at h
  have hit : i ∈ setUnion [] targets := (mem_setUnion targets [] i).mpr (Or.inr hi)
  have hne : ¬ (setUnion [] targets).isEmpty = true := by
    intro he
    rw [List.isEmpty_iff.mp he] at hit
    simp at hit
  cases fuel with
  | zero =>
    unfold queryMissingLoop at h
    rw [if_neg hne] at h
    exact absurd h (by simp)
  | succ fuel =>
    rw [queryMissingLoop_succ, if_neg hne] at h
    obtain ⟨_, s2, _, _, s5⟩ := queryMissingRound_spec store env (setUnion [] targets) []
      { willBuild := willBuild, willSubstitute := willSubstitute, unknown := unknown,
        downloadSize := 0, narSize := 0 }
    have hm := hmb (roundInfos store env (setUnion [] targets) []
      { willBuild := willBuild, willSubstitute := willSubstitute, unknown := unknown,
        downloadSize := 0, narSize := 0 }) (fun p info hpi => ⟨_, hpi⟩)
    obtain ⟨p1, p2⟩ := queryMissingLoop_processed store env fuel _ _ _ res h
      (queryMissingRound_processed store env _ _ _ (fun x hx => absurd hx (by simp)))
    refine ⟨p2 _ ((s2 _).mpr (Or.inr ⟨i, hit, by simp, hp, hm, rfl⟩)), fun y hy => ?_⟩
    exact p1 y (Or.inr ((s5 y).mpr (Or.inl ⟨i, hit, by simp, hp, hm, hy⟩)))

theorem plannerStore_references (valid : PathSet) (infos : List (Path × SubstitutablePathInfo))
    (allPaths : List Path) (h : ∀ e ∈ infos, ∀ x ∈ e.2.references, x ∈ allPaths) :
    ∀ query p info,
      mapFind p ((plannerStore valid infos).querySubstitutablePathInfos query) = some info →
      ∀ x ∈ info.references, x ∈ allPaths := by
  intro query p info hm x hx
  have hmem := mapFind_mem p _ info hm
  exact h (p, info) (List.mem_of_mem_filter hmem) x hx

/-- C11 (counterexample). The derivation `10` is valid, its only output `1` is
not valid and has substitute info, and every derivation is marked to be built
locally: no wanted output that is not valid lacks substitute info while the
derivation is unmarked, yet `queryMissing` puts `10` into `willBuild` and
substitutes nothing. -/
theorem queryMissing_classification_counterexample :
    Pending (plannerStore [10] sharedInfos) (localEnv sharedDrvs) 10 ∧
    (localEnv sharedDrvs).willBuildLocally (requestDrv (localEnv sharedDrvs) 10) = true ∧
    ¬ ((localEnv sharedDrvs).willBuildLocally (requestDrv (localEnv sharedDrvs) 10) = false ∧
        ∃ x, InvalidOutput (plannerStore [10] sharedInfos) (localEnv sharedDrvs) 10 x ∧
          mapFind x ((plannerStore [10] sharedInfos).querySubstitutablePathInfos [x]) = none) ∧
    queryMissing (plannerStore [10] sharedInfos) (localEnv sharedDrvs) 5 [10] [] [] []
      = some { willBuild := [10], willSubstitute := [], unknown := [],
               downloadSize := 0, narSize := 0 } :=
  ⟨⟨by decide, by decide, 1, ("out", { path := 1, eqClass := 0 }), by decide, rfl, by decide,
      by decide⟩,
   rfl, fun h => absurd h.1 (by decide), by decide⟩

/-- C11 (amended). In a round of `queryMissing`, a new element `i` of `todo`
that names a valid derivation with a wanted output that is not valid is put
into `willBuild`, with its input sources and its input derivations pushed to
`todo`, when the derivation has to be built: it is marked to be built locally,
or substitutes are switched off, or a wanted output that is not valid has no
substitute info. Otherwise the loop body adds nothing to `willBuild` and
`todo`, and every wanted output that is not valid has substitute info and is
handled as a non-derivation item: it ends in `done` and in `willSubstitute`.
The round adds to `willBuild` the derivations that have to be built and
nothing else. -/
theorem queryMissing_derivation_classification (store : StoreAPI) (env : MissingEnv)
    (todo done : PathSet) (r : Missing) (i : Path)
    (hi : i ∈ todo) (hd : i ∉ done) (hp : Pending store env i) :
    (MustBuild store env (roundInfos store env todo done r) i →
      requestPath env i ∈ (queryMissingRound store env todo done r).2.2.willBuild ∧
      (∀ x ∈ (requestDrv env i).inputSrcs, x ∈ (queryMissingRound store env todo done r).1) ∧
      (∀ j ∈ (requestDrv env i).inputDrvs,
        env.makeDrvPathWithOutputs j.1 j.2 ∈ (queryMissingRound store env todo done r).1)) ∧
    (¬ MustBuild store env (roundInfos store env todo done r) i →
      (∀ s, (drvStep store env (roundInfos store env todo done r) s i).willBuild = s.willBuild ∧
        (drvStep store env (roundInfos store env todo done r) s i).todo = s.todo) ∧
      ∀ x, InvalidOutput store env i x →
        mapFind x (roundInfos store env todo done r) ≠ none ∧
        x ∈ (queryMissingRound store env todo done r).2.1 ∧
        x ∈ (queryMissingRound store env todo done r).2.2.willSubstitute) ∧
    (∀ x, x ∈ (queryMissingRound store env todo done r).2.2.willBuild ↔
      x ∈ r.willBuild ∨ ∃ k ∈ todo, k ∉ done ∧ Pending store env k ∧
        MustBuild store env (roundInfos store env todo done r) k ∧ x = requestPath env k) := by
  obtain ⟨s1, s2, s3, _, s5⟩ := queryMissingRound_spec store env todo done r
  refine ⟨fun hmb => ⟨?_, fun x hx => ?_, fun j hj => ?_⟩, fun hmb => ⟨fun s => ?_, fun x hx => ?_⟩,
    s2⟩
  · exact (s2 _).mpr (Or.inr ⟨i, hi, hd, hp, hmb, rfl⟩)
  · exact (s5 x).mpr (Or.inl ⟨i, hi, hd, hp, hmb, Or.inl hx⟩)
  · exact (s5 _).mpr (Or.inl ⟨i, hi, hd, hp, hmb, Or.inr ⟨j, hj, rfl⟩⟩)
  · obtain ⟨c1, c2, _, _⟩ := (drvStep_spec store env (roundInfos store env todo done r) s i).2 hmb
    exact ⟨c1, c2⟩
  · have hinfo : mapFind x (roundInfos store env todo done r) ≠ none :=
      fun hnone => hmb (Or.inr (Or.inr ⟨x, hx, hnone⟩))
    exact ⟨hinfo, (s1 x).mpr (Or.inr (Or.inr ⟨i, hi, hd, hp, hmb, hx⟩)),
      (s3 x).mpr (Or.inr ⟨Or.inr ⟨i, hi, hd, hp, hmb, hx⟩, hinfo⟩)⟩

/-- C11 (witness). The round for the target `10` of the shared-output scenario:
the derivation `10` is valid and its output `1` is not. -/
theorem queryMissing_derivation_classification_witness :
    Pending (plannerStore [10, 11] sharedInfos) (exampleEnv sharedDrvs) 10 ∧
    ∀ x, x ∈ (queryMissingRound (plannerStore [10, 11] sharedInfos) (exampleEnv sharedDrvs)
        [10] [] { willBuild := [], willSubstitute := [], unknown := [],
                  downloadSize := 0, narSize := 0 }).2.2.willBuild ↔
      x ∈ ([] : PathSet) ∨ ∃ k ∈ ([10] : PathSet), k ∉ ([] : PathSet) ∧
        Pending (plannerStore [10, 11] sharedInfos) (exampleEnv sharedDrvs) k ∧
        MustBuild (plannerStore [10, 11] sharedInfos) (exampleEnv sharedDrvs)
          (roundInfos (plannerStore [10, 11] sharedInfos) (exampleEnv sharedDrvs) [10] []
            { willBuild := [], willSubstitute := [], unknown := [],
              downloadSize := 0, narSize := 0 }) k ∧
        x = requestPath (exampleEnv sharedDrvs) k :=
  ⟨⟨by decide, by decide, 1, ("out", { path := 1, eqClass := 0 }), by decide, rfl, by decide,
      by decide⟩,
   (queryMissing_derivation_classification (plannerStore [10, 11] sharedInfos)
      (exampleEnv sharedDrvs) [10] []
      { willBuild := [], willSubstitute := [], unknown := [], downloadSize := 0, narSize := 0 }
      10 (by decide) (by decide)
      ⟨by decide, by decide, 1, ("out", { path := 1, eqClass := 0 }), by decide, rfl, by decide,
        by decide⟩).2.2⟩

/-- C12. Let the request `i` be a target that names a valid derivation with a
wanted output `x` that is not valid and for which the store returns no
substitute info. Whenever `queryMissing` returns, the derivation is in
`willBuild`, and every input source and every input derivation with its wanted
outputs has been processed: it is valid and skipped, or in `willBuild`, in
`willSubstitute` or in `unknown`. In a finite store `queryMissing` returns. -/
theorem queryMissing_fallthrough (store : StoreAPI) (env : MissingEnv)
    (targets willBuild willSubstitute unknown : PathSet) (i x : Path)
    (hi : i ∈ targets) (hdrv : IsDrvRequest env i)
    (hvalid : store.isValidPath (requestPath env i) = true)
    (hx : InvalidOutput store env i x)
    (hnone : ∀ query, mapFind x (store.querySubstitutablePathInfos query) = none) :
    (∀ fuel res, queryMissing store env fuel targets willBuild willSubstitute unknown = some res →
      requestPath env i ∈ res.willBuild ∧
      (∀ y ∈ (requestDrv env i).inputSrcs, Processed store env res y) ∧
      (∀ j ∈ (requestDrv env i).inputDrvs,
        Processed store env res (env.makeDrvPathWithOutputs j.1 j.2))) ∧
    (∀ allPaths : List Path, (∀ t ∈ targets, t ∈ allPaths) →
      (∀ k ∈ allPaths, (∀ y ∈ (requestDrv env k).inputSrcs, y ∈ allPaths) ∧
        ∀ j ∈ (requestDrv env k).inputDrvs, env.makeDrvPathWithOutputs j.1 j.2 ∈ allPaths) →
      (∀ query p info, mapFind p (store.querySubstitutablePathInfos query) = some info →
        ∀ y ∈ info.references, y ∈ allPaths) →
      ∀ fuel, allPaths.length < fuel →
        ∃ res, queryMissing store env fuel targets willBuild willSubstitute unknown
          = some res) := by
  constructor
  · intro fuel res h
    have hmb : ∀ infos, (∀ p info, mapFind p infos = some info →
        ∃ query, mapFind p (store.querySubstitutablePathInfos query) = some info) →
        MustBuild store env infos i := by
      intro infos hsub
      refine Or.inr (Or.inr ⟨x, hx, ?_⟩)
      cases hm : mapFind x infos with
      | none => rfl
      | some info =>
        obtain ⟨query, hq⟩ := hsub x info hm
        rw [hnone query] at hq
        exact absurd hq (by simp)
    obtain ⟨h1, h2⟩ := queryMissing_target_built store env targets willBuild willSubstitute
      unknown i hi ⟨hdrv, hvalid, x, hx⟩ hmb fuel res h
    exact ⟨h1, fun y hy => h2 y (Or.inl hy), fun j hj => h2 _ (Or.inr ⟨j, hj, rfl⟩)⟩
  · intro allPaths htargets hinputs hrefs fuel hfuel
    exact queryMissing_total store env allPaths targets willBuild willSubstitute unknown
      htargets hinputs hrefs fuel hfuel

/-- C12 (witness). The target is the derivation `11` of the shared-output
scenario in a store without substitutes: its output `2` is not valid. -/
theorem queryMissing_fallthrough_witness :
    queryMissing (plannerStore [10, 11] []) (exampleEnv sharedDrvs) 5 [11] [] [] []
      = some { willBuild := [10, 11], willSubstitute := [], unknown := [],
               downloadSize := 0, narSize := 0 } ∧
    ∀ fuel res,
      queryMissing (plannerStore [10, 11] []) (exampleEnv sharedDrvs) fuel [11] [] [] []
        = some res →
      requestPath (exampleEnv sharedDrvs) 11 ∈ res.willBuild ∧
      (∀ y ∈ (requestDrv (exampleEnv sharedDrvs) 11).inputSrcs,
        Processed (plannerStore [10, 11] []) (exampleEnv sharedDrvs) res y) ∧
      (∀ j ∈ (requestDrv (exampleEnv sharedDrvs) 11).inputDrvs,
        Processed (plannerStore [10, 11] []) (exampleEnv sharedDrvs) res
          ((exampleEnv sharedDrvs).makeDrvPathWithOutputs j.1 j.2)) :=
  ⟨by decide,
   (queryMissing_fallthrough (plannerStore [10, 11] []) (exampleEnv sharedDrvs) [11] [] [] []
      11 2 (by decide) (by decide) (by decide)
      ⟨("out", { path := 2, eqClass := 0 }), by decide, rfl, by decide, by decide⟩
      (fun _ => rfl)).1⟩

/-- C18. Let `allPaths` be a finite list that holds the targets, the input
sources and the input derivations (with their wanted outputs) of every
derivation that a request of `allPaths` names, and the references of every
substitute info of the store. Then `queryMissing` returns within
`allPaths.length + 1` rounds: a round either puts a new element of `todo` into
`done`, or it changes nothing and leaves `todo` empty; `done` never loses an
element. -/
theorem queryMissing_terminates (store : StoreAPI) (env : MissingEnv) (allPaths : List Path)
    (targets willBuild willSubstitute unknown : PathSet)
    (htargets : ∀ x ∈ targets, x ∈ allPaths)
    (hinputs : ∀ i ∈ allPaths, (∀ x ∈ (requestDrv env i).inputSrcs, x ∈ allPaths) ∧
      ∀ j ∈ (requestDrv env i).inputDrvs, env.makeDrvPathWithOutputs j.1 j.2 ∈ allPaths)
    (hrefs : ∀ query p info, mapFind p (store.querySubstitutablePathInfos query) = some info →
      ∀ x ∈ info.references, x ∈ allPaths) :
    (∀ fuel, allPaths.length < fuel →
      ∃ res, queryMissing store env fuel targets willBuild willSubstitute unknown = some res) ∧
    (∀ todo done r,
      (∃ i ∈ todo, i ∉ done ∧ i ∈ (queryMissingRound store env todo done r).2.1) ∨
      queryMissingRound store env todo done r = ([], done, r)) ∧
    (∀ todo done r, ∀ x ∈ done, x ∈ (queryMissingRound store env todo done r).2.1) := by
  refine ⟨fun fuel hfuel => queryMissing_total store env allPaths targets willBuild
    willSubstitute unknown htargets hinputs hrefs fuel hfuel, fun todo done r => ?_,
    fun todo done r x hx => ?_⟩
  · by_cases hnew : ∃ i ∈ todo, i ∉ done
    · obtain ⟨i, hi, hid⟩ := hnew
      exact Or.inl ⟨i, hi, hid,
        ((queryMissingRound_spec store env todo done r).1 i).mpr (Or.inr (Or.inl hi))⟩
    · refine Or.inr (queryMissingRound_idle store env todo done r ?_)
      intro i hi
      by_contra hd
      exact hnew ⟨i, hi, hd⟩
  · exact ((queryMissingRound_spec store env todo done r).1 x).mpr (Or.inl hx)

/-- C18 (witness). The basic scenario with the derivations of the shared-output
scenario: the paths are `1`, `2`, `10`, `11` and the request `110`. -/
theorem queryMissing_terminates_witness :
    (∀ x ∈ ([1, 11] : PathSet), x ∈ ([1, 2, 10, 11, 110] : List Path)) ∧
    ∃ res, queryMissing (plannerStore [10, 11] basicInfos) (exampleEnv sharedDrvs) 6 [1, 11]
      [] [] [] = some res :=
  ⟨by decide,
   (queryMissing_terminates (plannerStore [10, 11] basicInfos) (exampleEnv sharedDrvs)
      [1, 2, 10, 11, 110] [1, 11] [] [] [] (by decide) (by decide)
      (plannerStore_references [10, 11] basicInfos [1, 2, 10, 11, 110] (by decide))).1 6
      (by decide)⟩


theorem mem_findTrusted_aux (trustId : TrustId) : ∀ (members : List OutputEqMember)
    (result : PathSet) (x : Path),
    x ∈ members.foldl (fun result j =>
        if j.trustId = trustId ∨ j.trustId = "root" then setInsert j.path result else result)
        result ↔
      x ∈ result ∨ ∃ m ∈ members, m.path = x ∧ (m.trustId = trustId ∨ m.trustId = "root") := by
  intro members
  induction members with
  | nil => intro result x; simp
  | cons j members ih =>
    intro result x
    simp only [List.foldl_cons, List.mem_cons, exists_eq_or_imp]
    rw [ih]
    by_cases hc : j.trustId = trustId ∨ j.trustId = "root"
    · rw [if_pos hc, mem_setInsert]
      constructor
      · rintro ((h | h) | h)
        · exact Or.inr (Or.inl ⟨h.symm, hc⟩)
        · exact Or.inl h
        · exact Or.inr (Or.inr h)
      · rintro (h | h | h)
        · exact Or.inl (Or.inr h)
        · exact Or.inl (Or.inl h.1.symm)
        · exact Or.inr h
    · rw [if_neg hc]
      constructor
      · rintro (h | h)
        · exact Or.inl h
        · exact Or.inr (Or.inr h)
      · rintro (h | h | h)
        · exact Or.inl h
        · exact absurd h.2 hc
        · exact Or.inr h

/-- C21. The set that `findTrustedEqClassMembers(c, t)` returns holds exactly
the paths of the members of `c` whose trust id is `t` or `root`; it is a set
(increasing, without duplicates), and it is empty exactly when the class has no
such member, in which case `findTrustedEqClassMember` throws. -/
theorem findTrustedEqClassMembers_spec
    (queryOutputEqMembers : OutputEqClass → List OutputEqMember) (c : OutputEqClass)
    (t : TrustId) :
    (∀ x, x ∈ findTrustedEqClassMembers queryOutputEqMembers c t ↔
      ∃ m ∈ queryOutputEqMembers c, m.path = x ∧ (m.trustId = t ∨ m.trustId = "root")) ∧
    (findTrustedEqClassMembers queryOutputEqMembers c t).Sorted (· < ·) ∧
    (findTrustedEqClassMembers queryOutputEqMembers c t = [] ↔
      ¬ ∃ m ∈ queryOutputEqMembers c, m.trustId = t ∨ m.trustId = "root") ∧
    (findTrustedEqClassMember queryOutputEqMembers c t = none ↔
      findTrustedEqClassMembers queryOutputEqMembers c t = []) ∧
    findTrustedEqClassMembers exampleMembers 1 "foo" = [1, 2, 4] := by
  have hmem : ∀ x, x ∈ findTrustedEqClassMembers queryOutputEqMembers c t ↔
      ∃ m ∈ queryOutputEqMembers c, m.path = x ∧ (m.trustId = t ∨ m.trustId = "root") := by
    intro x
    unfold findTrustedEqClassMembers
    rw [mem_findTrusted_aux]
    simp
  refine ⟨hmem, ?_, ?_, ?_, by decide⟩
  · unfold findTrustedEqClassMembers
    apply foldl_sorted
    · intro l a hl
      split
      · exact setInsert_sorted _ l hl
      · exact hl
    · exact List.sorted_nil
  · rw [List.eq_nil_iff_forall_not_mem]
    constructor
    · rintro h ⟨m, hm, hc⟩
      exact h m.path ((hmem _).mpr ⟨m, hm, rfl, hc⟩)
    · rintro h x hx
      obtain ⟨m, hm, _, hc⟩ := (hmem x).mp hx
      exact h ⟨m, hm, hc⟩
  · unfold findTrustedEqClassMember
    cases findTrustedEqClassMembers queryOutputEqMembers c t <;> simp

/-- C22. The constructor from a string rejects a string whose size is not 32
(the `assert` fails) and, when `parseHash32` throws for every string with a
character outside the alphabet, a string with such a character; it accepts a
string of size 32 that `parseHash32` accepts; for an accepted string `h`,
`toString` returns `h`, of 32 characters, and `isNull` is false, as the zero
byte is not in the alphabet. The default-constructed hash is 32 zero bytes, and
its `isNull` is true. -/
theorem pathHash_ofString_spec {H : Type} (parseHash32 : Bytes → Option H) (alphabet : Bytes)
    (hparse : ∀ s, (∃ c ∈ s, c ∉ alphabet) → parseHash32 s = none)
    (hzero : 0 ∉ alphabet) (h : Bytes) :
    (h.length ≠ 32 → PathHash.ofString parseHash32 h = Except.error PathHashError.wrongSize) ∧
    ((∃ c ∈ h, c ∉ alphabet) → ∀ p, PathHash.ofString parseHash32 h ≠ Except.ok p) ∧
    (h.length = 32 → parseHash32 h ≠ none → ∃ p, PathHash.ofString parseHash32 h = Except.ok p) ∧
    (∀ p, PathHash.ofString parseHash32 h = Except.ok p →
      p.toString = h ∧ p.toString.length = 32 ∧ p.isNull = false) ∧
    (PathHash.null.toString = List.replicate 32 0 ∧ PathHash.null.isNull = true) := by
  have hok : ∀ p, PathHash.ofString parseHash32 h = Except.ok p →
      p.rep = h ∧ parseHash32 h ≠ none := by
    intro p hp
    unfold PathHash.ofString at hp
    split at hp
    · cases hq : parseHash32 h with
      | none => rw [hq] at hp; simp at hp
      | some v =>
        rw [hq] at hp
        simp only [Except.ok.injEq] at hp
        subst hp
        exact ⟨rfl, by simp⟩
    · simp at hp
  refine ⟨?_, ?_, ?_, ?_, rfl, by decide⟩
  · intro hne
    unfold PathHash.ofString
    rw [dif_neg (by simpa [pathHashLen] using hne)]
  · intro hc p hp
    exact (hok p hp).2 (hparse h hc)
  · intro hlen hsome
    unfold PathHash.ofString
    rw [dif_pos (by simpa [pathHashLen] using hlen)]
    cases hq : parseHash32 h with
    | none => exact absurd hq hsome
    | some v => exact ⟨_, rfl⟩
  · intro p hp
    obtain ⟨hrep, hsome⟩ := hok p hp
    refine ⟨hrep, ?_, ?_⟩
    · show p.rep.length = 32
      exact p.size_eq
    · unfold PathHash.isNull
      rw [decide_eq_false_iff_not]
      intro hnull
      apply hsome
      apply hparse
      refine ⟨0, ?_, hzero⟩
      rw [← hrep, hnull]
      simp [nullPathHashRef, pathHashLen]

/-- C22 (witness). The alphabet `0123456789abcdfghijklmnpqrsvwxyz`: the string
of 32 characters `a` is accepted, and a string of 31 characters is not. -/
theorem pathHash_ofString_spec_witness :
    (0 ∉ base32Chars) ∧
    PathHash.ofString parseHash32 (List.replicate 32 97) = Except.ok (repHash 97) ∧
    PathHash.ofString parseHash32 (List.replicate 31 97)
      = Except.error PathHashError.wrongSize ∧
    PathHash.ofString parseHash32 (List.replicate 32 101)
      = Except.error PathHashError.invalidHash ∧
    (∀ p, PathHash.ofString parseHash32 (List.replicate 32 97) = Except.ok p →
      p.toString = List.replicate 32 97 ∧ p.toString.length = 32 ∧ p.isNull = false) :=
  ⟨by decide, rfl, rfl, rfl,
   (pathHash_ofString_spec parseHash32 base32Chars
      (by
        intro s hs
        unfold parseHash32
        rw [if_neg]
        simp only [List.all_eq_true, decide_eq_true_eq, not_forall]
        obtain ⟨c, hc, hn⟩ := hs
        exact ⟨c, hc, hn⟩)
      (by decide) (List.replicate 32 97)).2.2.2.1⟩

/-- C26. When the reference relation induced by `paths` is acyclic,
`topoSortPaths` returns a list without duplicates whose elements are the
elements of `paths`, in which every valid path `p` occurs before every `q ≠ p`
of `paths` that `p` references. -/
theorem topoSortPaths_result (store : StoreAPI) (paths : PathSet)
    (h : Acyclic store paths) :
    ∃ sorted, topoSortPaths store paths = Outcome.ok sorted ∧
      sorted.Nodup ∧ (∀ x, x ∈ sorted ↔ x ∈ paths) ∧
      ∀ p q, p ∈ paths → store.isValidPath p = true → q ∈ store.queryReferences p →
        q ∈ paths → q ≠ p → sorted.indexOf p < sorted.indexOf q := by
  obtain ⟨h1, h2, h3⟩ := topoSortPaths_spec store paths
  cases hr : topoSortPaths store paths with
  | outOfFuel => exact absurd hr h1
  | cycle c =>
    obtain ⟨c', hc⟩ := h3 c hr
    exact absurd hc (h c')
  | ok sorted =>
    obtain ⟨hg, hmem⟩ := h2 sorted hr
    refine ⟨sorted, rfl, good_nodup _ sorted hg, hmem, ?_⟩
    intro p q hp hv hq hqp hne
    exact (good_index _ sorted p q hg ((hmem p).mpr hp) ⟨hp, hv, hq, hne, hqp⟩).2

/-- C26 (witness). The paths `1`, `2`, `3` with the references `2 → 1` and
`3 → 2`: the result is `[3, 2, 1]`. -/
theorem topoSortPaths_result_witness :
    topoSortPaths disjointStore.toStoreAPI [1, 2, 3] = Outcome.ok [3, 2, 1] ∧
    ∃ sorted, topoSortPaths disjointStore.toStoreAPI [1, 2, 3] = Outcome.ok sorted ∧
      sorted.Nodup ∧ (∀ x, x ∈ sorted ↔ x ∈ ([1, 2, 3] : PathSet)) ∧
      ∀ p q, p ∈ ([1, 2, 3] : PathSet) → disjointStore.toStoreAPI.isValidPath p = true →
        q ∈ disjointStore.toStoreAPI.queryReferences p →
        q ∈ ([1, 2, 3] : PathSet) → q ≠ p → sorted.indexOf p < sorted.indexOf q :=
  ⟨by decide,
   topoSortPaths_result disjointStore.toStoreAPI [1, 2, 3]
     (acyclic_of_ok disjointStore.toStoreAPI [1, 2, 3] [3, 2, 1] (by decide))⟩


theorem find_some_bound (s pat : Bytes) (j k : Nat) (h : find s pat j = some k) :
    j ≤ k ∧ k + pat.length ≤ s.length := by
  unfold find at h
  split at h
  · rename_i hj
    obtain ⟨m, hk, hm, hp, _⟩ := findAux_some_spec pat (s.drop j) j k h
    have hl := hp.length_le
    simp only [List.length_drop] at hl hm
    omega
  · simp at h

theorem replace_length (s t : Bytes) (k : Nat) (h : k + t.length ≤ s.length) :
    (replace s k t.length t).length = s.length := by
  unfold replace
  simp only [List.length_append, List.length_take, List.length_drop]
  omega

theorem toInt_neg_one : toInt (2 ^ 32 - 1) = -1 := by
  unfold toInt
  norm_num

/-- A round of the loop that finds an occurrence at an offset that fits into
32 bits. -/
theorem rewriteLoopW_step (w : Nat) (hw : 32 ≤ w) (from_ to_ : Bytes) (fuel : Nat) (s : Bytes)
    (j : Nat) (ip : List Int) (k : Nat) (hk : find s from_ j = some k)
    (hb : k + to_.length ≤ s.length) (hne : to_ ≠ []) (hs : s.length < 2 ^ 32) :
    rewriteLoopW w from_ to_ (fuel + 1) s j ip
      = rewriteLoopW w from_ to_ fuel (replace s k to_.length to_) (k + to_.length)
          (ip ++ [toInt k]) := by
  have hpos : 0 < to_.length := List.length_pos.mpr hne
  have hk1 : k % 2 ^ 32 = k := Nat.mod_eq_of_lt (by omega)
  have hk2 : (k + to_.length) % 2 ^ 32 = k + to_.length := Nat.mod_eq_of_lt (by omega)
  have hnp : 2 ^ 32 ≤ 2 ^ w := Nat.pow_le_pow_right (by norm_num) hw
  have hk3 : k ≠ npos w := by
    unfold npos
    omega
  simp only [rewriteLoopW, hk, Option.getD_some, hk1, hk2]
  rw [if_neg hk3, if_neg (by omega)]

/-- With a `size_t` of 32 bits the loop ends normally when there is no further
occurrence. -/
theorem rewriteLoopW_none_32 (from_ to_ : Bytes) (fuel : Nat) (s : Bytes) (j : Nat)
    (ip : List Int) (h : find s from_ j = none) :
    rewriteLoopW 32 from_ to_ (fuel + 1) s j ip = LoopEnd.exit s ip := by
  simp [rewriteLoopW, h, npos]

/-- With a `size_t` of 64 bits the sentinel is truncated to `2^32 - 1`, which
is not `npos`, and `s.replace` throws. -/
theorem rewriteLoopW_none_64 (from_ to_ : Bytes) (fuel : Nat) (s : Bytes) (j : Nat)
    (ip : List Int) (h : find s from_ j = none) (hs : s.length < 2 ^ 32 - 1) :
    rewriteLoopW 64 from_ to_ (fuel + 1) s j ip = LoopEnd.outOfRange s (ip ++ [-1]) := by
  have e : (npos 64) % 2 ^ 32 = 2 ^ 32 - 1 := by unfold npos; norm_num
  have hne : (2 ^ 32 - 1 : Nat) ≠ npos 64 := by unfold npos; norm_num
  simp only [rewriteLoopW, h, Option.getD_none, e]
  rw [if_neg hne, if_pos hs, toInt_neg_one]

theorem rewriteLoopW_32_agrees (from_ to_ : Bytes) (hne : from_ ≠ [])
    (hlen : from_.length = to_.length) :
    ∀ (fuel : Nat) (s : Bytes) (j : Nat) (positions : List Nat) (s' : Bytes) (pos' : List Nat),
    s.length < 2 ^ 32 → rewriteLoop from_ to_ fuel s j positions = some (s', pos') →
    rewriteLoopW 32 from_ to_ fuel s j (positions.map toInt)
      = LoopEnd.exit s' (pos'.map toInt) := by
  intro fuel
  induction fuel with
  | zero => intro s j positions s' pos' _ h; simp [rewriteLoop] at h
  | succ fuel ih =>
    intro s j positions s' pos' hs h
    unfold rewriteLoop at h
    cases hf : find s from_ j with
    | none =>
      rw [hf] at h
      simp only [Option.some.injEq, Prod.mk.injEq] at h
      rw [rewriteLoopW_none_32 from_ to_ fuel s j _ hf, h.1, h.2]
    | some k =>
      rw [hf] at h
      obtain ⟨_, hb⟩ := find_some_bound s from_ j k hf
      have hto : to_ ≠ [] := by
        intro e
        rw [e] at hlen
        exact hne (List.length_eq_zero.mp hlen)
      rw [rewriteLoopW_step 32 (le_refl _) from_ to_ fuel s j _ k hf (by omega) hto hs]
      have := ih (replace s k to_.length to_) (k + to_.length) (positions ++ [k]) s' pos'
        (by rw [replace_length s to_ k (by omega)]; exact hs) h
      simpa using this

theorem rewriteLoopW_64_throws (from_ to_ : Bytes) (hne : from_ ≠ [])
    (hlen : from_.length = to_.length) :
    ∀ (fuel : Nat) (s : Bytes) (j : Nat) (positions : List Nat) (s' : Bytes) (pos' : List Nat),
    s.length < 2 ^ 32 - 1 → rewriteLoop from_ to_ fuel s j positions = some (s', pos') →
    rewriteLoopW 64 from_ to_ fuel s j (positions.map toInt)
      = LoopEnd.outOfRange s' (pos'.map toInt ++ [-1]) := by
  intro fuel
  induction fuel with
  | zero => intro s j positions s' pos' _ h; simp [rewriteLoop] at h
  | succ fuel ih =>
    intro s j positions s' pos' hs h
    unfold rewriteLoop at h
    cases hf : find s from_ j with
    | none =>
      rw [hf] at h
      simp only [Option.some.injEq, Prod.mk.injEq] at h
      rw [rewriteLoopW_none_64 from_ to_ fuel s j _ hf hs, h.1, h.2]
    | some k =>
      rw [hf] at h
      obtain ⟨_, hb⟩ := find_some_bound s from_ j k hf
      have hto : to_ ≠ [] := by
        intro e
        rw [e] at hlen
        exact hne (List.length_eq_zero.mp hlen)
      rw [rewriteLoopW_step 64 (by norm_num) from_ to_ fuel s j _ k hf (by omega) hto (by omega)]
      have := ih (replace s k to_.length to_) (k + to_.length) (positions ++ [k]) s' pos'
        (by rw [replace_length s to_ k (by omega)]; exact hs) h
      simpa using this

theorem rewriteLoopW_64_no_exit (from_ to_ : Bytes) :
    ∀ (fuel : Nat) (s : Bytes) (j : Nat) (ip : List Int) (s1 : Bytes) (p1 : List Int),
    rewriteLoopW 64 from_ to_ fuel s j ip ≠ LoopEnd.exit s1 p1 := by
  intro fuel
  induction fuel with
  | zero => intro s j ip s1 p1; simp [rewriteLoopW]
  | succ fuel ih =>
    intro s j ip s1 p1
    have hlt : ((find s from_ j).getD (npos 64)) % 2 ^ 32 < 2 ^ 32 := Nat.mod_lt _ (by norm_num)
    have hne : ((find s from_ j).getD (npos 64)) % 2 ^ 32 ≠ npos 64 := by
      unfold npos at hlt ⊢
      omega
    simp only [rewriteLoopW]
    rw [if_neg hne]
    split
    · simp
    · exact ih _ _ _ _ _

/-- C28 (failing input). For every blob `s` and pair `(f, t)` of path hashes:
with a `size_t` of 32 bits and fewer than `2^32` bytes the loop ends normally,
with the string and the offsets of the loop over unbounded integers; with a
`size_t` of 64 bits the loop never ends normally, and for fewer than
`2^32 - 1` bytes it ends, after the same replacements, with the offset `-1`
pushed to `positions` and `std::out_of_range` thrown by `s.replace`. -/
theorem rewriteLoopW_exit (f t : PathHash) (s : Bytes) :
    (s.length < 2 ^ 32 →
      ∃ s' positions, rewriteLoop f.rep t.rep (s.length + 1) s 0 [] = some (s', positions) ∧
        rewriteLoopW 32 f.rep t.rep (s.length + 1) s 0 []
          = LoopEnd.exit s' (positions.map toInt)) ∧
    (s.length < 2 ^ 32 - 1 →
      ∃ s' positions, rewriteLoop f.rep t.rep (s.length + 1) s 0 [] = some (s', positions) ∧
        rewriteLoopW 64 f.rep t.rep (s.length + 1) s 0 []
          = LoopEnd.outOfRange s' (positions.map toInt ++ [-1])) ∧
    (∀ fuel j ip s1 p1, rewriteLoopW 64 f.rep t.rep fuel s j ip ≠ LoopEnd.exit s1 p1) := by
  have hlen : f.rep.length = t.rep.length := by rw [f.size_eq, t.size_eq]
  obtain ⟨r, hr⟩ := rewriteLoop_total f.rep t.rep f.rep_ne_nil hlen (s.length + 1) [] s []
    (Nat.lt_succ_self _)
  obtain ⟨s', pos'⟩ := r
  simp only [List.nil_append, List.length_nil] at hr
  refine ⟨fun hs => ⟨s', pos', hr, ?_⟩, fun hs => ⟨s', pos', hr, ?_⟩,
    fun fuel j ip s1 p1 => rewriteLoopW_64_no_exit f.rep t.rep fuel s j ip s1 p1⟩
  · exact rewriteLoopW_32_agrees f.rep t.rep f.rep_ne_nil hlen _ s 0 [] s' pos' hs hr
  · exact rewriteLoopW_64_throws f.rep t.rep f.rep_ne_nil hlen _ s 0 [] s' pos' hs hr

/-- C28 (witness). The blob `xy` and the pair `(aaa…a, bbb…b)`: there is no
occurrence; with a `size_t` of 32 bits the loop ends normally, with a `size_t`
of 64 bits `j` is `4294967295` and `s.replace` throws. -/
theorem rewriteLoopW_exit_witness :
    rewriteLoopW 32 (repHash 97).rep (repHash 98).rep 3 [120, 121] 0 []
      = LoopEnd.exit [120, 121] [] ∧
    rewriteLoopW 64 (repHash 97).rep (repHash 98).rep 3 [120, 121] 0 []
      = LoopEnd.outOfRange [120, 121] [-1] ∧
    ∀ fuel j ip s1 p1,
      rewriteLoopW 64 (repHash 97).rep (repHash 98).rep fuel [120, 121] j ip
        ≠ LoopEnd.exit s1 p1 :=
  ⟨by decide, by decide, (rewriteLoopW_exit (repHash 97) (repHash 98) [120, 121]).2.2⟩

/-- C23 (failing input). In `triangleStore` the paths `1`, `2` of the input
`{1, 2, 3}` are in conflict and every query succeeds; the cheapest selection
`{1, 2}` costs one bad representative, no path has a reference, so
`maybeRewrite` rewrites nothing, and `assert(nrRewrites == bestCost)` fails
with `0` against `1`. The same happens in `viaSourcesStore`, where no path is
a member of two classes: the selected path `5` reaches the unselected member
of the class `1` through a source, which `maybeRewrite` keeps. -/
theorem consolidatePaths_rewrite_count_fails :
    Conflict eqStoreOps triangleStore [1, 2, 3] ∧
    findBestRewrite (eqStoreOps.computeFSClosure triangleStore)
      (classify eqStoreOps triangleStore [1, 2, 3]).1 [] [] (infinity, []) = (1, [1, 2]) ∧
    (rewriteAll eqStoreOps 10 [1, 2]
      (makeFinalClassMap (classify eqStoreOps triangleStore [1, 2, 3]).1 [1, 2])
      (classify eqStoreOps triangleStore [1, 2, 3]).2 [1, 2]
      ([], { store := triangleStore, replacements := [], nrRewrites := 0 })).toOption.map
        (fun r => r.2.nrRewrites) = some 0 ∧
    consolidatePaths eqStoreOps 10 triangleStore [1, 2, 3] false [] = Result.assertFailed 290 ∧
    Conflict eqStoreOps viaSourcesStore [1, 2, 3, 4, 5] ∧
    (∀ p ∈ ([1, 2, 3, 4, 5] : PathSet),
      (eqStoreOps.queryOutputEqClasses viaSourcesStore p).length ≤ 1) ∧
    findBestRewrite (eqStoreOps.computeFSClosure viaSourcesStore)
      (classify eqStoreOps viaSourcesStore [1, 2, 3, 4, 5]).1 [] [] (infinity, [])
        = (1, [1, 5]) ∧
    consolidatePaths eqStoreOps 10 viaSourcesStore [1, 2, 3, 4, 5] false []
      = Result.assertFailed 290 :=
  ⟨⟨1, by decide, 2, by decide, by decide, 1, by decide, by decide⟩, by decide, by decide,
   by decide,
   ⟨1, by decide, 2, by decide, by decide, 1, by decide, by decide⟩, by decide, by decide,
   by decide⟩

/-- C24 (failing input). In `sameSizeStore` the paths `1`, `2` of the input
`{1, 2, 3}` are in conflict; the cheapest selection holds all three paths, as
`2` is the only member of the class `2` and `1` the only member of the class
`3`; the path `3` is rewritten to the new path `4`, the rewrite count `1`
equals the cost, and the new set `{1, 2, 4}` has the size of the input:
`assert(newPaths.size() < paths.size())` fails. -/
theorem consolidatePaths_size_fails :
    Conflict eqStoreOps sameSizeStore [1, 2, 3] ∧
    findBestRewrite (eqStoreOps.computeFSClosure sameSizeStore)
      (classify eqStoreOps sameSizeStore [1, 2, 3]).1 [] [] (infinity, []) = (1, [1, 2, 3]) ∧
    (rewriteAll eqStoreOps 10 [1, 2, 3]
      (makeFinalClassMap (classify eqStoreOps sameSizeStore [1, 2, 3]).1 [1, 2, 3])
      (classify eqStoreOps sameSizeStore [1, 2, 3]).2 [1, 2, 3]
      ([], { store := sameSizeStore, replacements := [], nrRewrites := 0 })).toOption.map
        (fun r => (r.1, r.2.nrRewrites)) = some ([1, 2, 4], 1) ∧
    consolidatePaths eqStoreOps 10 sameSizeStore [1, 2, 3] false [] = Result.assertFailed 292 :=
  ⟨⟨1, by decide, 2, by decide, by decide, 1, by decide, by decide⟩, by decide, by decide,
   by decide⟩

/-- In `loopStore` the call `maybeRewrite(1)` calls itself for the reference
`2`, whose class `1` has the chosen member `1`, before `replacements` has an
entry for `1`. -/
theorem maybeRewrite_loops : ∀ fuel : Nat,
    maybeRewrite eqStoreOps [1] [(1, 1), (2, 1)] [] fuel 1
      { store := loopStore, replacements := [], nrRewrites := 0 } = Result.outOfFuel := by
  intro fuel
  induction fuel with
  | zero => rfl
  | succ fuel ih =>
    have hrefs : eqStoreOps.queryReferences loopStore 1 = [2] := by decide
    have hcls : eqStoreOps.queryOutputEqClasses loopStore 2 = [1] := by decide
    have hloop : refLoop eqStoreOps [(1, 1), (2, 1)] [] 1
        (maybeRewrite eqStoreOps [1] [(1, 1), (2, 1)] [] fuel) [2]
        { rewrites := [], newReferences := [],
          state := { store := loopStore, replacements := [], nrRewrites := 0 } }
          = Result.outOfFuel := by
      have hne : ¬ ((2 : Path) = 1 ∨ (2 : Path) ∈ ([] : PathSet)) := by decide
      simp only [refLoop, if_neg hne, hcls, mapFind, if_true, ih]
    have hsel : ¬ ((1 : Path) ∉ ([1] : PathSet)) := by decide
    simp only [maybeRewrite, if_neg hsel, mapFind, hrefs, hloop]

/-- C27 (failing input). In `loopStore` the only reference is `1 → 2`, so the
reference relation is acyclic, and the paths `1` and `2` are in conflict; the
selection `{1}` is the first cheapest one, and `consolidatePaths` does not
return for any bound on the depth of the recursion of `maybeRewrite`. -/
theorem consolidatePaths_loops :
    Acyclic loopStore.toStoreAPI [1, 2] ∧
    loopStore.references = [(1, [2]), (2, [])] ∧
    Conflict eqStoreOps loopStore [1, 2] ∧
    ∀ fuel : Nat, consolidatePaths eqStoreOps fuel loopStore [1, 2] false []
      = Result.outOfFuel := by
  refine ⟨acyclic_of_ok loopStore.toStoreAPI [1, 2] [1, 2] (by decide), rfl,
    ⟨1, by decide, 2, by decide, by decide, 1, by decide, by decide⟩, ?_⟩
  intro fuel
  have hc : classify eqStoreOps loopStore [1, 2] = ([(1, [1, 2]), (2, [1])], []) := by decide
  have hb : findBestRewrite (eqStoreOps.computeFSClosure loopStore) [(1, [1, 2]), (2, [1])]
      [] [] (infinity, []) = (1, [1]) := by decide
  have hf : makeFinalClassMap [(1, [1, 2]), (2, [1])] [1] = [(1, 1), (2, 1)] := by decide
  have hi : (1 : Nat) ≠ infinity := by decide
  simp only [consolidatePaths, hc, hb, hf, rewriteAll, maybeRewrite_loops fuel]
  simp [hi]

theorem loggingOps_addMembers_log {σ : Type} (ops : StoreOps σ) (t : TrustId) (p : Path) :
    ∀ (classes : List OutputEqClass) (s : σ × List AddToStoreCall),
    (classes.foldl (fun s c => (loggingOps ops).addOutputEqMember s c t p) s).2 = s.2 := by
  intro classes
  induction classes with
  | nil => intro s; rfl
  | cons c classes ih =>
    intro s
    simp only [List.foldl_cons]
    rw [ih]
    rfl

set_option maxRecDepth 100000 in
/-- C25 (counterexample). In the scenario of a single conflict the path `3`
references `1` and `2`, and `1` is chosen for their class: the loop over the
references leaves `newReferences = {1}` and the rewrite of the hash part of
`2` to that of `1`, and the only call of `addToStore` has the source path `3`,
its hash part and name, the rewrites, and the references `{1, 2}`, which are
the references of `3` and not `newReferences`. -/
theorem maybeRewrite_references_counterexample :
    (refLoop (loggingOps eqStoreOps) [(1, 1), (2, 3)] [] 3
      (maybeRewrite (loggingOps eqStoreOps) [1, 3] [(1, 1), (2, 3)] [] 9) [1, 2]
      { rewrites := [], newReferences := [],
        state := { store := (terminalStore, []), replacements := [(1, 1)],
                   nrRewrites := 0 } }).toOption.map
        (fun ls => (ls.rewrites, ls.newReferences))
      = some ([(exampleHash 2, exampleHash 1)], [1]) ∧
    (maybeRewrite (loggingOps eqStoreOps) [1, 3] [(1, 1), (2, 3)] [] 10 3
      { store := (terminalStore, []), replacements := [(1, 1)],
        nrRewrites := 0 }).toOption.map (fun r => r.2.store.2)
      = some [{ srcPath := 3, hashPart := exampleHash 3, name := "lib", references := [1, 2],
                rewrites := [(exampleHash 2, exampleHash 1)] }] ∧
    (consolidatePaths (loggingOps eqStoreOps) 10 (terminalStore, []) [1, 2, 3] false
      []).toOption.map (fun c => (c.newPaths, c.store.2))
      = some ([1, 4],
          [{ srcPath := 3, hashPart := exampleHash 3, name := "lib", references := [1, 2],
             rewrites := [(exampleHash 2, exampleHash 1)] }]) ∧
    ([1, 2] : PathSet) ≠ [1] := by
  decide

/-- C25 (amended). A call of `maybeRewrite` for a selected path `p` without
an entry in `replacements`, whose loop over the references returns with the
map `rewrites`: when `rewrites` is not empty, the call makes, after the calls
of the loop, one call of `addToStore`, with the source path `p`, the hash part
and the name of `p`, the references of `p` as `queryReferences` returned them
at the start of the call, and `rewrites`, and it counts one rewrite; when
`rewrites` is empty, the call returns `p` without a call of `addToStore`. -/
theorem maybeRewrite_addToStore_call {σ : Type} (ops : StoreOps σ) (selection : PathSet)
    (finalClassMap : FinalClassMap) (sources : PathSet) (fuel : Nat) (p : Path)
    (st : RewriteState (σ × List AddToStoreCall)) (ls : RefLoopState (σ × List AddToStoreCall))
    (hsel : p ∈ selection) (hmemo : mapFind p st.replacements = none)
    (hloop : refLoop (loggingOps ops) finalClassMap sources p
      (maybeRewrite (loggingOps ops) selection finalClassMap sources fuel)
      ((loggingOps ops).queryReferences st.store p)
      { rewrites := [], newReferences := [], state := st } = Result.ok ls) :
    (ls.rewrites.length ≠ 0 →
      ∃ newPath st',
        maybeRewrite (loggingOps ops) selection finalClassMap sources (fuel + 1) p st
          = Result.ok (newPath, st') ∧
        st'.store.2 = ls.state.store.2 ++
          [{ srcPath := p, hashPart := ops.hashPartOf p, name := ops.namePartOf p,
             references := ops.queryReferences st.store.1 p, rewrites := ls.rewrites }] ∧
        st'.nrRewrites = ls.state.nrRewrites + 1) ∧
    (ls.rewrites.length = 0 →
      maybeRewrite (loggingOps ops) selection finalClassMap sources (fuel + 1) p st
        = Result.ok (p, { store := ls.state.store,
                          replacements := mapInsert p p ls.state.replacements,
                          nrRewrites := ls.state.nrRewrites })) := by
  have hsel2 : ¬ (p ∉ selection) := not_not.mpr hsel
  constructor
  · intro hrw
    simp only [maybeRewrite, if_neg hsel2, hmemo, hloop, if_neg hrw]
    refine ⟨_, _, rfl, ?_, rfl⟩
    simp only [loggingOps_addMembers_log]
    rfl
  · intro hrw
    simp only [maybeRewrite, if_neg hsel2, hmemo, hloop, if_pos hrw]

set_option maxRecDepth 100000 in
/-- C25 (witness). The call `maybeRewrite(3)` in the scenario of a single
conflict, after the call for the path `1`. -/
theorem maybeRewrite_addToStore_call_witness :
    ∃ newPath st',
      maybeRewrite (loggingOps eqStoreOps) [1, 3] [(1, 1), (2, 3)] [] 10 3
        { store := (terminalStore, []), replacements := [(1, 1)], nrRewrites := 0 }
        = Result.ok (newPath, st') ∧
      st'.store.2 = ([] : List AddToStoreCall) ++
        [{ srcPath := 3, hashPart := eqStoreOps.hashPartOf 3, name := eqStoreOps.namePartOf 3,
           references := eqStoreOps.queryReferences terminalStore 3,
           rewrites := [(exampleHash 2, exampleHash 1)] }] ∧
      st'.nrRewrites = 0 + 1 :=
  (maybeRewrite_addToStore_call eqStoreOps [1, 3] [(1, 1), (2, 3)] [] 9 3
    { store := (terminalStore, []), replacements := [(1, 1)], nrRewrites := 0 }
    { rewrites := [(exampleHash 2, exampleHash 1)], newReferences := [1],
      state := { store := (terminalStore, []), replacements := [(1, 1)], nrRewrites := 0 } }
    (by decide) (by decide) (by rfl)).1 (by decide)


/-- The loop of the program against the reference loop: when the reference loop
returns, the string keeps its length and every recorded offset is the start of
a window inside the string; for a `size_t` of 32 bits and a string shorter
than `2^32` bytes the loop of the program ends normally with the same string
and offsets; for a `size_t` of 64 bits and a string shorter than `2^32 - 1`
bytes it makes the same replacements, pushes `-1` and throws. -/
theorem rewriteLoop_sim (from_ to_ : Bytes) (hne : from_ ≠ [])
    (hlen : from_.length = to_.length) :
    ∀ (fuel : Nat) (s : Bytes) (j : Nat) (positions : List Nat) (s' : Bytes) (pos' : List Nat),
    rewriteLoop from_ to_ fuel s j positions = some (s', pos') →
    ∃ d, pos' = positions ++ d ∧ s'.length = s.length ∧
      (∀ p ∈ d, p + from_.length ≤ s.length) ∧
      (s.length < 2 ^ 32 → ∀ ip,
        rewriteLoopW 32 from_ to_ fuel s j ip = LoopEnd.exit s' (ip ++ d.map toInt)) ∧
      (s.length < 2 ^ 32 - 1 → ∀ ip,
        rewriteLoopW 64 from_ to_ fuel s j ip
          = LoopEnd.outOfRange s' (ip ++ d.map toInt ++ [-1])) := by
  have hto : to_ ≠ [] := by
    intro e
    rw [e] at hlen
    exact hne (List.length_eq_zero.mp hlen)
  intro fuel
  induction fuel with
  | zero => intro s j positions s' pos' h; simp [rewriteLoop] at h
  | succ fuel ih =>
    intro s j positions s' pos' h
    unfold rewriteLoop at h
    cases hf : find s from_ j with
    | none =>
      rw [hf] at h
      simp only [Option.some.injEq, Prod.mk.injEq] at h
      obtain ⟨h1, h2⟩ := h
      subst h1 h2
      refine ⟨[], by simp, rfl, by simp, fun _ ip => ?_, fun hs ip => ?_⟩
      · rw [rewriteLoopW_none_32 from_ to_ fuel s j ip hf]
        simp
      · rw [rewriteLoopW_none_64 from_ to_ fuel s j ip hf hs]
        simp
    | some k =>
      rw [hf] at h
      obtain ⟨_, hb⟩ := find_some_bound s from_ j k hf
      have hrl : (replace s k to_.length to_).length = s.length :=
        replace_length s to_ k (by omega)
      obtain ⟨d, hd, hl, hbound, h32, h64⟩ := ih _ _ _ s' pos' h
      rw [hrl] at hl hbound h32 h64
      refine ⟨k :: d, by rw [hd]; simp, hl, ?_, fun hs ip => ?_, fun hs ip => ?_⟩
      · intro p hp
        rcases List.mem_cons.mp hp with e | hp
        · rw [e]; exact hb
        · exact hbound p hp
      · rw [rewriteLoopW_step 32 (le_refl _) from_ to_ fuel s j ip k hf (by omega) hto hs,
          h32 hs]
        simp
      · rw [rewriteLoopW_step 64 (by norm_num) from_ to_ fuel s j ip k hf (by omega) hto
          (by omega), h64 hs]
        simp

theorem rewriteHashesIdeal_cons (s : Bytes) (f t : PathHash) (rest : HashRewrites)
    (positions : List Nat) :
    rewriteHashesIdeal s ((f, t) :: rest) positions
      = match rewriteLoop f.rep t.rep (s.length + 1) s 0 positions with
        | none => none
        | some (s', positions') => rewriteHashesIdeal s' rest positions' := by
  simp only [rewriteHashesIdeal, PathHash.toString, f.size_eq, t.size_eq, if_true]

theorem rewriteHashes_cons (w : Nat) (s : Bytes) (f t : PathHash) (rest : HashRewrites)
    (positions : List Int) :
    rewriteHashes w s ((f, t) :: rest) positions
      = match rewriteLoopW w f.rep t.rep (s.length + 1) s 0 positions with
        | LoopEnd.exit s' positions' => rewriteHashes w s' rest positions'
        | LoopEnd.outOfRange _ _ => CallResult.outOfRange
        | LoopEnd.outOfFuel => CallResult.outOfFuel := by
  simp only [rewriteHashes, PathHash.toString, f.size_eq, t.size_eq, if_true]

/-- The function `rewriteHashes` for a `size_t` of 32 bits against its
reference function. -/
theorem rewriteHashesIdeal_sim : ∀ (m : HashRewrites) (s : Bytes) (positions : List Nat)
    (s' : Bytes) (pos' : List Nat),
    rewriteHashesIdeal s m positions = some (s', pos') →
    ∃ d, pos' = positions ++ d ∧ s'.length = s.length ∧
      (∀ p ∈ d, p + pathHashLen ≤ s.length) ∧
      (s.length < 2 ^ 32 → ∀ ip,
        rewriteHashes 32 s m ip = CallResult.ok (s', ip ++ d.map toInt)) := by
  intro m
  induction m with
  | nil =>
    intro s positions s' pos' h
    simp only [rewriteHashesIdeal, Option.some.injEq, Prod.mk.injEq] at h
    obtain ⟨h1, h2⟩ := h
    subst h1 h2
    exact ⟨[], by simp, rfl, by simp, fun _ ip => by simp [rewriteHashes]⟩
  | cons p rest ih =>
    obtain ⟨f, t⟩ := p
    intro s positions s' pos' h
    rw [rewriteHashesIdeal_cons] at h
    have hlen : f.rep.length = t.rep.length := by rw [f.size_eq, t.size_eq]
    cases hl : rewriteLoop f.rep t.rep (s.length + 1) s 0 positions with
    | none => rw [hl] at h; simp at h
    | some r =>
      obtain ⟨s1, p1⟩ := r
      rw [hl] at h
      simp only at h
      obtain ⟨d1, hd1, hl1, hb1, h32, _⟩ :=
        rewriteLoop_sim f.rep t.rep f.rep_ne_nil hlen _ _ _ _ _ _ hl
      obtain ⟨d2, hd2, hl2, hb2, h32b⟩ := ih s1 p1 s' pos' h
      rw [hl1] at hl2 hb2 h32b
      rw [f.size_eq] at hb1
      refine ⟨d1 ++ d2, by rw [hd2, hd1]; simp, hl2, ?_, fun hs ip => ?_⟩
      · intro p hp
        rcases List.mem_append.mp hp with hp | hp
        · exact hb1 p hp
        · exact hb2 p hp
      · rw [rewriteHashes_cons, h32 hs ip]
        simp only
        rw [h32b hs]
        simp

/-- With a `size_t` of 64 bits, `rewriteHashes` throws for every map that is
not empty and every string shorter than `2^32 - 1` bytes. -/
theorem rewriteHashes_64_throws (m : HashRewrites) (s : Bytes) (hm : m ≠ [])
    (hs : s.length < 2 ^ 32 - 1) (ip : List Int) :
    rewriteHashes 64 s m ip = CallResult.outOfRange := by
  cases m with
  | nil => exact absurd rfl hm
  | cons p rest =>
    obtain ⟨f, t⟩ := p
    have hlen : f.rep.length = t.rep.length := by rw [f.size_eq, t.size_eq]
    obtain ⟨r, hr⟩ := rewriteLoop_total f.rep t.rep f.rep_ne_nil hlen (s.length + 1) [] s []
      (Nat.lt_succ_self _)
    obtain ⟨s', pos'⟩ := r
    simp only [List.nil_append, List.length_nil] at hr
    obtain ⟨d, _, _, _, _, h64⟩ :=
      rewriteLoop_sim f.rep t.rep f.rep_ne_nil hlen _ _ _ _ _ _ hr
    rw [rewriteHashes_cons, h64 hs ip]

theorem toInt_of_lt (p : Nat) (h : p < 2 ^ 31) : toInt p = (p : Int) := by
  unfold toInt
  rw [if_pos h]

theorem map_toInt (d : List Nat) (h : ∀ p ∈ d, p < 2 ^ 31) :
    d.map toInt = d.map (fun p : Nat => (p : Int)) := by
  apply List.map_congr_left
  intro p hp
  exact toInt_of_lt p (h p hp)

theorem formatInt_natCast (n : Nat) : formatInt (n : Int) = formatNat n := by
  unfold formatInt
  rw [if_neg (by omega)]
  simp

theorem positionPrefix_natCast (d : List Nat) :
    positionPrefix (d.map (fun p : Nat => (p : Int))) = positionPrefixIdeal d := by
  unfold positionPrefix positionPrefixIdeal
  rw [List.foldl_map]
  simp only [formatInt_natCast]

/-- The function `hashModuloInput` for a `size_t` of 32 bits and a blob shorter
than `2^31` bytes has the value of its reference function. -/
theorem hashModuloInput_32 (s : Bytes) (m : PathHash) (hs : s.length < 2 ^ 31) :
    ∃ x, hashModuloInputIdeal s m = some x ∧ hashModuloInput 32 s m = CallResult.ok x := by
  by_cases hn : m.isNull = true
  · exact ⟨positionPrefixIdeal [] ++ s, by simp [hashModuloInputIdeal, hn],
      by simp [hashModuloInput, hn, positionPrefix, positionPrefixIdeal]⟩
  · have hn' : m.isNull = false := by simpa using hn
    obtain ⟨c, hc, he⟩ := rewriteHashesIdeal_template s m PathHash.null
    obtain ⟨d, hd, _, hb, h32⟩ := rewriteHashesIdeal_sim _ _ _ _ _ he
    simp only [List.nil_append] at hd
    subst hd
    refine ⟨positionPrefixIdeal c.offsets ++ c.fill PathHash.null, ?_, ?_⟩
    · simp [hashModuloInputIdeal, hn', insert_nil, he]
    · have hmap : c.offsets.map toInt = c.offsets.map (fun p : Nat => (p : Int)) := by
        apply map_toInt
        intro p hp
        have := hb p hp
        omega
      simp only [hashModuloInput, hn', insert_nil, Bool.false_eq_true, if_false,
        h32 (by omega) [], List.nil_append, CallResult.map, hmap, positionPrefix_natCast]

/-- With a `size_t` of 64 bits, `hashModuloInput` throws for every modulus
that is not null and every blob shorter than `2^32 - 1` bytes. -/
theorem hashModuloInput_64 (s : Bytes) (m : PathHash) (hn : m.isNull = false)
    (hs : s.length < 2 ^ 32 - 1) : hashModuloInput 64 s m = CallResult.outOfRange := by
  have h := rewriteHashes_64_throws [(m, PathHash.null)] s (by simp) hs []
  simp only [hashModuloInput, hn, insert_nil, Bool.false_eq_true, if_false, h, CallResult.map]

theorem hashModuloInput_null (w : Nat) (s : Bytes) (m : PathHash) (hn : m.isNull = true) :
    hashModuloInput w s m = CallResult.ok ([124, 124] ++ s) := by
  simp [hashModuloInput, hn, positionPrefix]

theorem rewriteHashes2_32 (s : Bytes) (m : HashRewrites) (s' : Bytes)
    (h : rewriteHashes2Ideal s m = some s') (hs : s.length < 2 ^ 32) :
    rewriteHashes2 32 s m = CallResult.ok s' ∧ s'.length = s.length := by
  unfold rewriteHashes2Ideal at h
  cases hr : rewriteHashesIdeal s m [] with
  | none => rw [hr] at h; simp at h
  | some r =>
    obtain ⟨s1, p1⟩ := r
    rw [hr] at h
    simp only [Option.map_some', Option.some.injEq] at h
    subst h
    obtain ⟨d, _, hl, _, h32⟩ := rewriteHashesIdeal_sim _ _ _ _ _ hr
    exact ⟨by simp [rewriteHashes2, h32 hs [], CallResult.map], hl⟩

theorem rewriteHashes2_64_throws (s : Bytes) (m : HashRewrites) (hm : m ≠ [])
    (hs : s.length < 2 ^ 32 - 1) : rewriteHashes2 64 s m = CallResult.outOfRange := by
  simp [rewriteHashes2, rewriteHashes_64_throws m s hm hs [], CallResult.map]

theorem rewriteReferencesLoop_32 (rewrites : HashRewrites) :
    ∀ (refs result out : List Bytes), (∀ r ∈ refs, r.length < 2 ^ 32) →
    rewriteReferencesLoopIdeal rewrites refs result = some out →
    rewriteReferencesLoop 32 rewrites refs result = CallResult.ok out := by
  intro refs
  induction refs with
  | nil =>
    intro result out _ h
    simp only [rewriteReferencesLoopIdeal, Option.some.injEq] at h
    simp [rewriteReferencesLoop, h]
  | cons i rest ih =>
    intro result out hlen h
    simp only [rewriteReferencesLoopIdeal] at h
    cases hr : rewriteHashes2Ideal i rewrites with
    | none => rw [hr] at h; simp at h
    | some r =>
      rw [hr] at h
      simp only at h
      have h32 := (rewriteHashes2_32 i rewrites r hr (hlen i (List.mem_cons_self _ _))).1
      simp only [rewriteReferencesLoop, h32]
      exact ih _ _ (fun x hx => hlen x (List.mem_cons_of_mem _ hx)) h

/-- With a `size_t` of 64 bits, `rewriteReferences` throws for every map and
every set of paths that are not empty, the first path being shorter than
`2^32 - 1` bytes. -/
theorem rewriteReferences_64_throws (rewrites : HashRewrites) (i : Bytes) (rest : List Bytes)
    (hm : rewrites ≠ []) (hs : i.length < 2 ^ 32 - 1) :
    rewriteReferences 64 (i :: rest) rewrites = CallResult.outOfRange := by
  simp only [rewriteReferences, rewriteReferencesLoop, rewriteHashes2_64_throws i rewrites hm hs]

/-- C20. With the empty map, `rewriteHashes` returns the blob unchanged and
`positions` as passed in, whatever the width of `size_t`; the two-argument
overload returns the blob. -/
theorem rewriteHashes_empty (w : Nat) (b : Bytes) (positions : List Int) :
    rewriteHashes w b [] positions = CallResult.ok (b, positions) ∧
    rewriteHashes w b [] [] = CallResult.ok (b, []) ∧
    rewriteHashes2 w b [] = CallResult.ok b :=
  ⟨rfl, rfl, rfl⟩

/-- C13 (failing input). For a single pair `(f, t)` the blob is a template `c`
with `s = c[f]` whose placeholder offsets are increasing and at least one hash
width apart, each the offset of an occurrence of `f` in the blob, and every
occurrence of `f` in the blob starts inside one of these windows.  With a
`size_t` of 32 bits and fewer than `2^32` bytes, `rewriteHashes` returns
`c[t]`, of the same length, and appends these offsets to `positions` (as
they are, below `2^31` bytes).  With a `size_t` of 64 bits and fewer than
`2^32 - 1` bytes it throws `std::out_of_range` and returns nothing. -/
theorem rewriteHashes_scan (s : Bytes) (f t : PathHash) (positions : List Int) :
    ∃ c : Template, s = c.fill f ∧ (c.fill t).length = s.length ∧
      c.offsets.Pairwise (fun p q => p + pathHashLen ≤ q) ∧
      (∀ p ∈ c.offsets, f.rep <+: s.drop p) ∧
      (∀ k, f.rep <+: s.drop k → ∃ p ∈ c.offsets, p ≤ k ∧ k < p + pathHashLen) ∧
      (s.length < 2 ^ 32 →
        rewriteHashes 32 s [(f, t)] positions
          = CallResult.ok (c.fill t, positions ++ c.offsets.map toInt)) ∧
      (s.length < 2 ^ 31 → c.offsets.map toInt = c.offsets.map (fun p : Nat => (p : Int))) ∧
      (s.length < 2 ^ 32 - 1 →
        rewriteHashes 64 s [(f, t)] positions = CallResult.outOfRange) := by
  obtain ⟨c, h1, h2, h3, h4, h5, h6⟩ := rewriteHashesIdeal_scan s f t []
  obtain ⟨d, hd, _, hb, h32⟩ := rewriteHashesIdeal_sim _ _ _ _ _ h2
  simp only [List.nil_append] at hd
  subst hd
  refine ⟨c, h1, h3, h4, h5, h6, fun hs => h32 hs positions, fun hs => ?_,
    fun hs => rewriteHashes_64_throws _ s (by simp) hs positions⟩
  apply map_toInt
  intro p hp
  have := hb p hp
  omega

set_option maxRecDepth 100000 in
/-- C13 (witness). The blob `x aaa…a y` and the pair `(aaa…a, bbb…b)`: with a
`size_t` of 32 bits the result is `x bbb…b y` with the offset `1`, with a
`size_t` of 64 bits the call throws. -/
theorem rewriteHashes_scan_witness :
    rewriteHashes 32 (templateXY.fill (repHash 97)) [(repHash 97, repHash 98)] []
      = CallResult.ok (templateXY.fill (repHash 98), [1]) ∧
    rewriteHashes 64 (templateXY.fill (repHash 97)) [(repHash 97, repHash 98)] []
      = CallResult.outOfRange ∧
    ∃ c : Template, templateXY.fill (repHash 97) = c.fill (repHash 97) ∧
      (c.fill (repHash 98)).length = (templateXY.fill (repHash 97)).length ∧
      c.offsets.Pairwise (fun p q => p + pathHashLen ≤ q) ∧
      (∀ p ∈ c.offsets, (repHash 97).rep <+: (templateXY.fill (repHash 97)).drop p) ∧
      (∀ k, (repHash 97).rep <+: (templateXY.fill (repHash 97)).drop k →
        ∃ p ∈ c.offsets, p ≤ k ∧ k < p + pathHashLen) ∧
      ((templateXY.fill (repHash 97)).length < 2 ^ 32 →
        rewriteHashes 32 (templateXY.fill (repHash 97)) [(repHash 97, repHash 98)] []
          = CallResult.ok (c.fill (repHash 98), [] ++ c.offsets.map toInt)) ∧
      ((templateXY.fill (repHash 97)).length < 2 ^ 31 →
        c.offsets.map toInt = c.offsets.map (fun p : Nat => (p : Int))) ∧
      ((templateXY.fill (repHash 97)).length < 2 ^ 32 - 1 →
        rewriteHashes 64 (templateXY.fill (repHash 97)) [(repHash 97, repHash 98)] []
          = CallResult.outOfRange) :=
  ⟨by decide, by decide,
   rewriteHashes_scan (templateXY.fill (repHash 97)) (repHash 97) (repHash 98) []⟩

theorem rewriteHashesIdeal_absent (c : Bytes) (f t : PathHash) (h : ¬ f.rep <:+: c) :
    rewriteHashesIdeal c [(f, t)] [] = some (c, []) := by
  have hfind : findAux f.rep c 0 = none :=
    findAux_eq_none f.rep c 0 (not_infix_of_occurrence f.rep c h)
  rw [rewriteHashesIdeal_single_from]
  have : find c f.rep 0 = none := by
    have := find_append [] c f.rep
    simpa using this.trans hfind
  simp [rewriteLoop, this]

/-- C19 (failing input). With the null modulus, `hashModulo(c, m)` is the
digest of `"||"` followed by `c`.  With a modulus that is not null and does
not occur in `c`, this holds for a `size_t` of 32 bits (and fewer than `2^32`
bytes); for a `size_t` of 64 bits (and fewer than `2^32 - 1` bytes)
`hashModulo` throws `std::out_of_range` for every modulus that is not null,
before the digest function is called. -/
theorem hashModulo_no_self_reference {Hash : Type} (hashString : Bytes → Hash) (c : Bytes)
    (m : PathHash) :
    (m.isNull = true → ∀ w,
      hashModulo w hashString c m = CallResult.ok (hashString ([124, 124] ++ c))) ∧
    (m.isNull = false → ¬ m.rep <:+: c → c.length < 2 ^ 32 →
      hashModulo 32 hashString c m = CallResult.ok (hashString ([124, 124] ++ c))) ∧
    (m.isNull = false → c.length < 2 ^ 32 - 1 →
      hashModulo 64 hashString c m = CallResult.outOfRange) := by
  refine ⟨fun hn w => ?_, fun hn hocc hs => ?_, fun hn hs => ?_⟩
  · simp [hashModulo, hashModuloInput_null w c m hn, CallResult.map]
  · have hr := rewriteHashesIdeal_absent c m PathHash.null hocc
    obtain ⟨d, hd, _, _, h32⟩ := rewriteHashesIdeal_sim _ _ _ _ _ hr
    simp only [List.nil_append] at hd
    subst hd
    simp [hashModulo, hashModuloInput, hn, insert_nil, h32 hs [], CallResult.map, positionPrefix]
  · simp [hashModulo, hashModuloInput_64 c m hn hs, CallResult.map]

/-- C19 (witness). The blob `xy` and the modulus `aaa…a`, which is not null and
does not occur in it: with a `size_t` of 32 bits the digest function gets
`||xy`, with a `size_t` of 64 bits `hashModulo` throws. -/
theorem hashModulo_no_self_reference_witness :
    hashModulo 32 (fun b => b) [120, 121] (repHash 97) = CallResult.ok [124, 124, 120, 121] ∧
    hashModulo 64 (fun b => b) [120, 121] (repHash 97) = CallResult.outOfRange :=
  ⟨(hashModulo_no_self_reference (fun b => b) [120, 121] (repHash 97)).2.1 (by decide)
      (by decide) (by decide),
   (hashModulo_no_self_reference (fun b => b) [120, 121] (repHash 97)).2.2 (by decide)
      (by decide)⟩

/-- C3 (failing input). For a modulus `m` that is not null: with a `size_t` of
64 bits (and fewer than `2^32 - 1` bytes) `hashModulo` throws and passes no
string to the digest function.  With a `size_t` of 32 bits and blobs shorter
than `2^31` bytes it always passes a string, that string determines the input
blob, and two blobs with the same zeroed content but different lists of
rewritten offsets give different strings. -/
theorem hashModuloInput_injective (m : PathHash) (hm : m.isNull = false) :
    (∀ s, s.length < 2 ^ 32 - 1 → hashModuloInput 64 s m = CallResult.outOfRange) ∧
    (∀ s, s.length < 2 ^ 31 → ∃ x, hashModuloInput 32 s m = CallResult.ok x) ∧
    (∀ s1 s2, s1.length < 2 ^ 31 → s2.length < 2 ^ 31 →
      hashModuloInput 32 s1 m = hashModuloInput 32 s2 m → s1 = s2) ∧
    (∀ s1 s2 z p1 p2, s1.length < 2 ^ 31 → s2.length < 2 ^ 31 →
      rewriteHashes 32 s1 (HashRewrites.insert m PathHash.null []) [] = CallResult.ok (z, p1) →
      rewriteHashes 32 s2 (HashRewrites.insert m PathHash.null []) [] = CallResult.ok (z, p2) →
      p1 ≠ p2 → hashModuloInput 32 s1 m ≠ hashModuloInput 32 s2 m) := by
  have hinj : ∀ s1 s2, s1.length < 2 ^ 31 → s2.length < 2 ^ 31 →
      hashModuloInput 32 s1 m = hashModuloInput 32 s2 m → s1 = s2 := by
    intro s1 s2 h1 h2 e
    obtain ⟨x1, i1, f1⟩ := hashModuloInput_32 s1 m h1
    obtain ⟨x2, i2, f2⟩ := hashModuloInput_32 s2 m h2
    rw [f1, f2] at e
    simp only [CallResult.ok.injEq] at e
    exact (hashModuloInputIdeal_injective m hm).2.1 s1 s2 (by rw [i1, i2, e])
  refine ⟨fun s hs => hashModuloInput_64 s m hm hs, fun s hs => ?_, hinj, ?_⟩
  · obtain ⟨x, _, hx⟩ := hashModuloInput_32 s m hs
    exact ⟨x, hx⟩
  · intro s1 s2 z p1 p2 h1 h2 e1 e2 hne e
    have := hinj s1 s2 h1 h2 e
    subst this
    rw [e1] at e2
    simp only [CallResult.ok.injEq, Prod.mk.injEq, true_and] at e2
    exact hne e2

/-- C3 (witness). The modulus `aaa…a`, and the blobs `aaa…a 0…0` and
`0…0 aaa…a`: with a `size_t` of 32 bits the strings for the digest function
differ, with a `size_t` of 64 bits both calls throw. -/
theorem hashModuloInput_injective_witness :
    (repHash 97).isNull = false ∧
    hashModuloInput 32 ((repHash 97).rep ++ PathHash.null.rep) (repHash 97)
      ≠ hashModuloInput 32 (PathHash.null.rep ++ (repHash 97).rep) (repHash 97) ∧
    hashModuloInput 64 ((repHash 97).rep ++ PathHash.null.rep) (repHash 97)
      = CallResult.outOfRange ∧
    hashModuloInput 64 (PathHash.null.rep ++ (repHash 97).rep) (repHash 97)
      = CallResult.outOfRange :=
  ⟨by decide,
   fun e => absurd ((hashModuloInput_injective (repHash 97) (by decide)).2.2.1 _ _
     (by decide) (by decide) e) (by decide),
   (hashModuloInput_injective (repHash 97) (by decide)).1 _ (by decide),
   (hashModuloInput_injective (repHash 97) (by decide)).1 _ (by decide)⟩

/-- C2 (failing input). For a template `c` and hashes `h`, `h'` that are not
null: with a `size_t` of 64 bits (and fewer than `2^32 - 1` bytes) both calls
of `hashModulo` throw `std::out_of_range`, whatever the template, and no
digest is computed.  With a `size_t` of 32 bits and fewer than `2^31` bytes,
when `h` occurs in `c[h]`, and `h'` in `c[h']`, at the placeholder offsets
only, both calls hash the same string: the prefix of the placeholder offsets
followed by the template with its placeholders zeroed. -/
theorem hashModulo_self_reference (c : Template) (h h' : PathHash)
    (hn : h.isNull = false) (hn' : h'.isNull = false) :
    ((c.fill h).length < 2 ^ 32 - 1 →
      ∀ (Hash : Type) (hashString : Bytes → Hash),
        hashModulo 64 hashString (c.fill h) h = CallResult.outOfRange ∧
        hashModulo 64 hashString (c.fill h') h' = CallResult.outOfRange) ∧
    ((c.fill h).length < 2 ^ 31 →
      (∀ k, h.rep <+: (c.fill h).drop k → k ∈ c.offsets) →
      (∀ k, h'.rep <+: (c.fill h').drop k → k ∈ c.offsets) →
      hashModuloInput 32 (c.fill h) h
        = CallResult.ok (positionPrefix (c.offsets.map (fun p : Nat => (p : Int)))
            ++ c.fill PathHash.null) ∧
      hashModuloInput 32 (c.fill h') h'
        = CallResult.ok (positionPrefix (c.offsets.map (fun p : Nat => (p : Int)))
            ++ c.fill PathHash.null) ∧
      ∀ (Hash : Type) (hashString : Bytes → Hash),
        hashModulo 32 hashString (c.fill h) h = hashModulo 32 hashString (c.fill h') h') := by
  have hl : (c.fill h').length = (c.fill h).length :=
    fillChunks_length_eq _ _ (by rw [h.size_eq, h'.size_eq]) _ _
  constructor
  · intro hs Hash hashString
    simp [hashModulo, hashModuloInput_64 _ h hn hs, hashModuloInput_64 _ h' hn' (hl ▸ hs),
      CallResult.map]
  · intro hs hc hc'
    have key : ∀ (x : PathHash), x.isNull = false → (c.fill x).length < 2 ^ 31 →
        (∀ k, x.rep <+: (c.fill x).drop k → k ∈ c.offsets) →
        hashModuloInput 32 (c.fill x) x
          = CallResult.ok (positionPrefix (c.offsets.map (fun p : Nat => (p : Int)))
              ++ c.fill PathHash.null) := by
      intro x hx hlx hcx
      obtain ⟨y, hy, hf⟩ := hashModuloInput_32 (c.fill x) x hlx
      rw [hashModuloInputIdeal_fill c x hx hcx] at hy
      rw [hf, ← Option.some.inj hy, positionPrefix_natCast]
    have e1 := key h hn hs hc
    have e2 := key h' hn' (hl ▸ hs) hc'
    refine ⟨e1, e2, fun Hash hashString => ?_⟩
    simp [hashModulo, e1, e2]

set_option maxRecDepth 100000 in
/-- C2 (witness). The template `x‹self›y` with the hashes `aaa…a` and `bbb…b`:
with a `size_t` of 64 bits both calls throw; with a `size_t` of 32 bits both
calls hash the same string. -/
theorem hashModulo_self_reference_witness :
    (repHash 97).isNull = false ∧ (repHash 98).isNull = false ∧
    hashModulo 64 (fun b => b) (templateXY.fill (repHash 97)) (repHash 97)
      = CallResult.outOfRange ∧
    hashModulo 64 (fun b => b) (templateXY.fill (repHash 98)) (repHash 98)
      = CallResult.outOfRange ∧
    hashModulo 32 (fun b => b) (templateXY.fill (repHash 97)) (repHash 97)
      = hashModulo 32 (fun b => b) (templateXY.fill (repHash 98)) (repHash 98) :=
  have n1 : (repHash 97).isNull = false := by decide
  have n2 : (repHash 98).isNull = false := by decide
  have o1 := occurrences_bounded (repHash 97).rep (templateXY.fill (repHash 97))
    templateXY.offsets (repHash 97).rep_ne_nil (by decide)
  have o2 := occurrences_bounded (repHash 98).rep (templateXY.fill (repHash 98))
    templateXY.offsets (repHash 98).rep_ne_nil (by decide)
  ⟨n1, n2,
   ((hashModulo_self_reference templateXY (repHash 97) (repHash 98) n1 n2).1 (by decide)
      Bytes (fun b => b)).1,
   ((hashModulo_self_reference templateXY (repHash 97) (repHash 98) n1 n2).1 (by decide)
      Bytes (fun b => b)).2,
   ((hashModulo_self_reference templateXY (repHash 97) (repHash 98) n1 n2).2 (by decide)
      o1 o2).2.2 Bytes (fun b => b)⟩

set_option maxRecDepth 100000 in
/-- With a `size_t` of 32 bits, the template `a‹self›` and the distinct hashes
`aaa…a` and `bbb…b`, neither of which is null or occurs in the literal text of
the template: `hashModulo` records the offset `0` for the first and the offset
`1` for the second, and passes different strings to the digest function. -/
theorem hashModuloInput_32_shifted :
    rewriteHashes 32 (templateA.fill (repHash 97))
        (HashRewrites.insert (repHash 97) PathHash.null []) []
      = CallResult.ok (PathHash.null.rep ++ [97], [0]) ∧
    rewriteHashes 32 (templateA.fill (repHash 98))
        (HashRewrites.insert (repHash 98) PathHash.null []) []
      = CallResult.ok (97 :: PathHash.null.rep, [1]) ∧
    hashModuloInput 32 (templateA.fill (repHash 97)) (repHash 97)
      ≠ hashModuloInput 32 (templateA.fill (repHash 98)) (repHash 98) := by
  refine ⟨by decide, by decide, ?_⟩
  intro e
  obtain ⟨x1, i1, f1⟩ := hashModuloInput_32 (templateA.fill (repHash 97)) (repHash 97)
    (by decide)
  obtain ⟨x2, i2, f2⟩ := hashModuloInput_32 (templateA.fill (repHash 98)) (repHash 98)
    (by decide)
  rw [f1, f2] at e
  simp only [CallResult.ok.injEq] at e
  exact hashModuloInputIdeal_shifted.2.2.2.2.2 (by rw [i1, i2, e])

theorem rewriteHashesIdeal_total : ∀ (m : HashRewrites) (s : Bytes) (positions : List Nat),
    ∃ r, rewriteHashesIdeal s m positions = some r := by
  intro m
  induction m with
  | nil => intro s positions; exact ⟨_, rfl⟩
  | cons a rest ih =>
    intro s positions
    obtain ⟨f, t⟩ := a
    have hlen : f.rep.length = t.rep.length := by rw [f.size_eq, t.size_eq]
    obtain ⟨r, hr⟩ := rewriteLoop_total f.rep t.rep f.rep_ne_nil hlen (s.length + 1) [] s
      positions (Nat.lt_succ_self _)
    simp only [List.nil_append, List.length_nil] at hr
    rw [rewriteHashesIdeal_cons, hr]
    exact ih _ _

theorem roundTrip_32_returns (b : Bytes) (m : HashRewrites) (hb : b.length < 2 ^ 32) :
    ∃ c, roundTrip 32 b m = CallResult.ok c ∧ c.length = b.length := by
  obtain ⟨r1, h1⟩ := rewriteHashesIdeal_total m b []
  have e1 : rewriteHashes2Ideal b m = some r1.1 := by simp [rewriteHashes2Ideal, h1]
  obtain ⟨f1, l1⟩ := rewriteHashes2_32 b m r1.1 e1 hb
  obtain ⟨r2, h2⟩ := rewriteHashesIdeal_total (HashRewrites.inverse m) r1.1 []
  have e2 : rewriteHashes2Ideal r1.1 (HashRewrites.inverse m) = some r2.1 := by
    simp [rewriteHashes2Ideal, h2]
  obtain ⟨f2, l2⟩ := rewriteHashes2_32 r1.1 (HashRewrites.inverse m) r2.1 e2 (by omega)
  exact ⟨r2.1, by simp [roundTrip, f1, f2, CallResult.bind], by omega⟩

/-- C1 (failing input). For a map that is not empty: with a `size_t` of 64
bits (and fewer than `2^32 - 1` bytes) `rewriteHashes` throws
`std::out_of_range`, so that the round trip returns nothing.  With a `size_t`
of 32 bits (and fewer than `2^32` bytes) the round trip returns a blob of the
same length for every map; for a single pair `(f, t)`, `rewriteHashes` returns
a blob `b'` and the rewritten offsets, and when `t` occurs in `b'` at these
offsets only, rewriting `b'` with the inverse map records the same offsets and
gives `b` back. -/
theorem rewriteHashes_roundtrip (b : Bytes) (m : HashRewrites) (hm : m ≠ []) :
    (b.length < 2 ^ 32 - 1 →
      (∀ positions, rewriteHashes 64 b m positions = CallResult.outOfRange) ∧
      roundTrip 64 b m = CallResult.outOfRange) ∧
    (b.length < 2 ^ 32 → ∃ c, roundTrip 32 b m = CallResult.ok c ∧ c.length = b.length) ∧
    (b.length < 2 ^ 32 → ∀ f t, m = [(f, t)] →
      ∃ (b' : Bytes) (offsets : List Nat),
        rewriteHashes 32 b m [] = CallResult.ok (b', offsets.map toInt) ∧
        ((∀ k, t.rep <+: b'.drop k → k ∈ offsets) →
          rewriteHashes 32 b' (HashRewrites.inverse m) []
            = CallResult.ok (b, offsets.map toInt) ∧
          roundTrip 32 b m = CallResult.ok b)) := by
  refine ⟨?_, fun hs => roundTrip_32_returns b m hs, ?_⟩
  · intro hs
    refine ⟨fun positions => rewriteHashes_64_throws m b hm hs positions, ?_⟩
    simp [roundTrip, rewriteHashes2_64_throws b m hm hs, CallResult.bind]
  · intro hs f t e
    subst e
    obtain ⟨b', offsets, h1, h2⟩ := rewriteHashesIdeal_roundtrip_single b f t
    obtain ⟨d, hd, hl, _, h32⟩ := rewriteHashesIdeal_sim _ _ _ _ _ h1
    simp only [List.nil_append] at hd
    subst hd
    refine ⟨b', offsets, by simpa using h32 hs [], fun hocc => ?_⟩
    have h3 := h2 hocc
    obtain ⟨d', hd', _, _, h32'⟩ := rewriteHashesIdeal_sim _ _ _ _ _ h3
    simp only [List.nil_append] at hd'
    subst hd'
    have e1 : rewriteHashes 32 b' (HashRewrites.inverse [(f, t)]) []
        = CallResult.ok (b, offsets.map toInt) := by
      simpa using h32' (by omega) []
    refine ⟨e1, ?_⟩
    have e0 : rewriteHashes 32 b [(f, t)] [] = CallResult.ok (b', offsets.map toInt) := by
      simpa using h32 hs []
    simp [roundTrip, rewriteHashes2, e0, e1, CallResult.map, CallResult.bind]

set_option maxRecDepth 100000 in
/-- C1 (witness). The blob `x bbb…b y` and the map `{bbb…b ↦ aaa…a}` meet the
premise of the round trip; with a `size_t` of 64 bits the round trip throws,
with a `size_t` of 32 bits it gives the blob back. -/
theorem rewriteHashes_roundtrip_witness :
    RoundTripPremise (templateXY.fill (repHash 98)) [(repHash 98, repHash 97)] ∧
    roundTrip 32 (templateXY.fill (repHash 98)) [(repHash 98, repHash 97)]
      = CallResult.ok (templateXY.fill (repHash 98)) ∧
    (∀ positions,
      rewriteHashes 64 (templateXY.fill (repHash 98)) [(repHash 98, repHash 97)] positions
        = CallResult.outOfRange) ∧
    roundTrip 64 (templateXY.fill (repHash 98)) [(repHash 98, repHash 97)]
      = CallResult.outOfRange :=
  ⟨by decide, by decide,
   (rewriteHashes_roundtrip (templateXY.fill (repHash 98)) [(repHash 98, repHash 97)]
      (by decide)).1 (by decide)⟩

set_option maxRecDepth 100000 in
/-- With a `size_t` of 32 bits the round trip gives the blob back for some maps
with several pairs and not for every input that the premise of the round trip
admits: the blob `keyA keyC` with the map `{keyA ↦ valA, keyC ↦ valC}` comes
back; the blob `a` followed by the hash `xxx…x` with the map
`{xxx…x ↦ aaa…a}`, and the blob `keyA keyC` with the map `threePairs`, meet
the premise and come back changed. -/
theorem roundTrip_32_examples :
    (RoundTripPremise (keyA.rep ++ keyC.rep)
        (HashRewrites.insert keyA valA (HashRewrites.insert keyC valC [])) ∧
      roundTrip 32 (keyA.rep ++ keyC.rep)
        (HashRewrites.insert keyA valA (HashRewrites.insert keyC valC []))
          = CallResult.ok (keyA.rep ++ keyC.rep)) ∧
    (RoundTripPremise (97 :: (repHash 120).rep) [(repHash 120, repHash 97)] ∧
      roundTrip 32 (97 :: (repHash 120).rep) [(repHash 120, repHash 97)]
        = CallResult.ok ((repHash 120).rep ++ [97])) ∧
    (RoundTripPremise (keyA.rep ++ keyC.rep) threePairs ∧
      roundTrip 32 (keyA.rep ++ keyC.rep) threePairs
        = CallResult.ok (List.replicate 31 112 ++ keyB.rep ++ [120])) := by
  decide
theorem rewriteLoop_positions (from_ to_ : Bytes) :
    ∀ (fuel : Nat) (s : Bytes) (j : Nat) (p0 positions : List Nat),
    rewriteLoop from_ to_ fuel s j (p0 ++ positions)
      = (rewriteLoop from_ to_ fuel s j positions).map (fun r => (r.1, p0 ++ r.2)) := by
  intro fuel
  induction fuel with
  | zero => intro s j p0 positions; rfl
  | succ fuel ih =>
    intro s j p0 positions
    unfold rewriteLoop
    cases find s from_ j with
    | none => rfl
    | some k =>
      simp only
      rw [List.append_assoc]
      exact ih _ _ _ _

theorem rewriteHashesIdeal_positions :
    ∀ (m : HashRewrites) (s : Bytes) (p0 positions : List Nat),
    rewriteHashesIdeal s m (p0 ++ positions)
      = (rewriteHashesIdeal s m positions).map (fun r => (r.1, p0 ++ r.2)) := by
  intro m
  induction m with
  | nil => intro s p0 positions; rfl
  | cons a rest ih =>
    intro s p0 positions
    obtain ⟨f, t⟩ := a
    rw [rewriteHashesIdeal_cons, rewriteHashesIdeal_cons, rewriteLoop_positions]
    cases rewriteLoop f.rep t.rep (s.length + 1) s 0 positions with
    | none => rfl
    | some r =>
      obtain ⟨s', p'⟩ := r
      simp only [Option.map_some']
      exact ih _ _ _

theorem rewriteHashes2Ideal_cons (s : Bytes) (f t : PathHash) (rest : HashRewrites) :
    rewriteHashes2Ideal s ((f, t) :: rest)
      = (rewriteHashes2Ideal s [(f, t)]).bind (fun s' => rewriteHashes2Ideal s' rest) := by
  unfold rewriteHashes2Ideal
  rw [rewriteHashesIdeal_cons, rewriteHashesIdeal_cons]
  cases rewriteLoop f.rep t.rep (s.length + 1) s 0 [] with
  | none => rfl
  | some r =>
    obtain ⟨s', p'⟩ := r
    have h := rewriteHashesIdeal_positions rest s' p' []
    rw [List.append_nil] at h
    simp only [rewriteHashesIdeal, Option.map_some', Option.some_bind]
    rw [h, Option.map_map]
    rfl

theorem rewriteHashes2Ideal_absent : ∀ (m : HashRewrites) (s : Bytes),
    (∀ kv ∈ m, ¬ kv.1.rep <:+: s) → rewriteHashes2Ideal s m = some s := by
  intro m
  induction m with
  | nil => intro s _; rfl
  | cons a rest ih =>
    intro s h
    obtain ⟨f, t⟩ := a
    have h1 : rewriteHashes2Ideal s [(f, t)] = some s := by
      unfold rewriteHashes2Ideal
      rw [rewriteHashesIdeal_absent s f t (h (f, t) (List.mem_cons_self _ _))]
      rfl
    rw [rewriteHashes2Ideal_cons, h1, Option.some_bind]
    exact ih s (fun kv hkv => h kv (List.mem_cons_of_mem _ hkv))

theorem rewriteHashes2Ideal_storePath_map (pre : Bytes) (h : PathHash) (name : Bytes) :
    ∀ (m : HashRewrites),
    (∀ kv ∈ m, ∀ i, kv.1.rep <+: (storePath pre h name).drop i →
      i = pre.length + 1 ∧ h = kv.1) →
    (∀ kv ∈ m, h = kv.1 → ∀ kv' ∈ m, ¬ kv'.1.rep <:+: storePath pre kv.2 name) →
    rewriteHashes2Ideal (storePath pre h name) m = some (storePath pre (m.image h) name) := by
  intro m
  induction m with
  | nil => intro _ _; rfl
  | cons a rest ih =>
    intro ha hb
    obtain ⟨k, v⟩ := a
    rw [rewriteHashes2Ideal_cons,
      rewriteHashes2Ideal_storePath k v pre h name (ha (k, v) (List.mem_cons_self _ _)),
      Option.some_bind]
    by_cases hk : h = k
    · subst hk
      rw [if_pos rfl]
      have himg : HashRewrites.image ((h, v) :: rest) h = v := by
        simp [HashRewrites.image, List.find?]
      rw [himg]
      exact rewriteHashes2Ideal_absent rest _
        (fun kv hkv => hb (h, v) (List.mem_cons_self _ _) rfl kv (List.mem_cons_of_mem _ hkv))
    · rw [if_neg hk]
      have himg : HashRewrites.image ((k, v) :: rest) h = HashRewrites.image rest h := by
        have : decide (k = h) = false := by simpa using fun e : k = h => hk e.symm
        simp [HashRewrites.image, List.find?, this]
      rw [himg]
      exact ih (fun kv hkv => ha kv (List.mem_cons_of_mem _ hkv))
        (fun kv hkv e kv' hkv' =>
          hb kv (List.mem_cons_of_mem _ hkv) e kv' (List.mem_cons_of_mem _ hkv'))

theorem rewriteReferencesLoopIdeal_parts_map (m : HashRewrites) :
    ∀ (parts : List (Bytes × PathHash × Bytes)) (result : List Bytes),
    (∀ p ∈ parts, ∀ kv ∈ m, ∀ i, kv.1.rep <+: (storePath p.1 p.2.1 p.2.2).drop i →
      i = p.1.length + 1 ∧ p.2.1 = kv.1) →
    (∀ p ∈ parts, ∀ kv ∈ m, p.2.1 = kv.1 →
      ∀ kv' ∈ m, ¬ kv'.1.rep <:+: storePath p.1 kv.2 p.2.2) →
    rewriteReferencesLoopIdeal m (parts.map (fun p => storePath p.1 p.2.1 p.2.2)) result
      = some ((parts.map (fun p => storePath p.1 (m.image p.2.1) p.2.2)).foldl
          (fun acc r => stringSetInsert r acc) result) := by
  intro parts
  induction parts with
  | nil => intro result _ _; rfl
  | cons p parts ih =>
    intro result ha hb
    simp only [List.map_cons, rewriteReferencesLoopIdeal, List.foldl_cons]
    rw [rewriteHashes2Ideal_storePath_map p.1 p.2.1 p.2.2 m (ha p (List.mem_cons_self _ _))
      (hb p (List.mem_cons_self _ _))]
    exact ih _ (fun q hq => ha q (List.mem_cons_of_mem _ hq))
      (fun q hq => hb q (List.mem_cons_of_mem _ hq))

/-- C14 (failing input). The function `rewriteReferences` on a set of store
paths that is not empty and a map that is not empty.  With a `size_t` of 64
bits (and paths shorter than `2^32 - 1` bytes) the call throws
`std::out_of_range` and returns no set.  With a `size_t` of 32 bits (and paths
shorter than `2^32` bytes) it returns the set of the paths with the hash part
replaced by the value that the map gives it and nothing else changed, when
every occurrence of a key in a path string is the hash part of that path and
no key occurs in a path whose hash part has been replaced. -/
theorem rewriteReferences_hash_parts (m : HashRewrites)
    (parts : List (Bytes × PathHash × Bytes)) (hm : m ≠ []) (hp : parts ≠ []) :
    ((∀ p ∈ parts, (storePath p.1 p.2.1 p.2.2).length < 2 ^ 32 - 1) →
      rewriteReferences 64 (parts.map (fun p => storePath p.1 p.2.1 p.2.2)) m
        = CallResult.outOfRange) ∧
    ((∀ p ∈ parts, (storePath p.1 p.2.1 p.2.2).length < 2 ^ 32) →
      (∀ p ∈ parts, ∀ kv ∈ m, ∀ i, kv.1.rep <+: (storePath p.1 p.2.1 p.2.2).drop i →
        i = p.1.length + 1 ∧ p.2.1 = kv.1) →
      (∀ p ∈ parts, ∀ kv ∈ m, p.2.1 = kv.1 →
        ∀ kv' ∈ m, ¬ kv'.1.rep <:+: storePath p.1 kv.2 p.2.2) →
      rewriteReferences 32 (parts.map (fun p => storePath p.1 p.2.1 p.2.2)) m
        = CallResult.ok (rewriteHashPartsMap m parts)) := by
  refine ⟨fun hlen => ?_, fun hlen ha hb => ?_⟩
  · cases parts with
    | nil => exact absurd rfl hp
    | cons p rest =>
      exact rewriteReferences_64_throws m _ _ hm (hlen p (List.mem_cons_self _ _))
  · refine rewriteReferencesLoop_32 m _ [] _ ?_
      (rewriteReferencesLoopIdeal_parts_map m parts [] ha hb)
    intro r hr
    obtain ⟨p, hp1, rfl⟩ := List.mem_map.mp hr
    exact hlen p hp1

set_option maxRecDepth 100000 in
/-- C14 (witness). The paths `/s/aaa…a-n` and `/s/ccc…c-n` and the map
`{aaa…a ↦ bbb…b, ddd…d ↦ eee…e}`: with a `size_t` of 64 bits the call throws,
with a `size_t` of 32 bits it returns `/s/bbb…b-n` and `/s/ccc…c-n`. -/
theorem rewriteReferences_hash_parts_witness :
    rewriteReferences 64
        ([(examplePrefix, repHash 97, [110]), (examplePrefix, repHash 99, [110])].map
          (fun p => storePath p.1 p.2.1 p.2.2))
        [(repHash 97, repHash 98), (repHash 100, repHash 101)] = CallResult.outOfRange ∧
    rewriteReferences 32
        ([(examplePrefix, repHash 97, [110]), (examplePrefix, repHash 99, [110])].map
          (fun p => storePath p.1 p.2.1 p.2.2))
        [(repHash 97, repHash 98), (repHash 100, repHash 101)]
      = CallResult.ok (rewriteHashPartsMap [(repHash 97, repHash 98), (repHash 100, repHash 101)]
          [(examplePrefix, repHash 97, [110]), (examplePrefix, repHash 99, [110])]) ∧
    rewriteHashPartsMap [(repHash 97, repHash 98), (repHash 100, repHash 101)]
        [(examplePrefix, repHash 97, [110]), (examplePrefix, repHash 99, [110])]
      = [storePath examplePrefix (repHash 98) [110], storePath examplePrefix (repHash 99) [110]] :=
  ⟨(rewriteReferences_hash_parts [(repHash 97, repHash 98), (repHash 100, repHash 101)]
      [(examplePrefix, repHash 97, [110]), (examplePrefix, repHash 99, [110])]
      (by simp) (by simp)).1 (by decide),
   (rewriteReferences_hash_parts [(repHash 97, repHash 98), (repHash 100, repHash 101)]
      [(examplePrefix, repHash 97, [110]), (examplePrefix, repHash 99, [110])]
      (by simp) (by simp)).2 (by decide)
      (by
        intro p hp kv hkv
        simp only [List.mem_cons, List.mem_singleton, List.not_mem_nil, or_false] at hp hkv
        rcases hp with rfl | rfl <;> rcases hkv with rfl | rfl <;> intro i hi
        · have := occurrences_bounded (repHash 97).rep
            (storePath examplePrefix (repHash 97) [110]) [3] (repHash 97).rep_ne_nil
            (by decide) i hi
          simp only [List.mem_singleton] at this
          exact ⟨by rw [this]; rfl, rfl⟩
        · have := occurrences_bounded (repHash 100).rep
            (storePath examplePrefix (repHash 97) [110]) [] (repHash 100).rep_ne_nil
            (by decide) i hi
          simp at this
        · have := occurrences_bounded (repHash 97).rep
            (storePath examplePrefix (repHash 99) [110]) [] (repHash 97).rep_ne_nil
            (by decide) i hi
          simp at this
        · have := occurrences_bounded (repHash 100).rep
            (storePath examplePrefix (repHash 99) [110]) [] (repHash 100).rep_ne_nil
            (by decide) i hi
          simp at this)
      (by decide),
   by decide⟩

set_option maxRecDepth 100000 in
/-- The function `rewriteReferences` with a `size_t` of 32 bits on inputs
where a key occurs outside the hash part or the map is chained: the path
`/s/aaa…a-xxx…x` with the map `{xxx…x ↦ bbb…b}` comes back with its name
rewritten, and the path `/s/aaa…a-n` with the map `{aaa…a ↦ bbb…b, bbb…b ↦ ccc…c}`
comes back with the hash part `ccc…c`, which is not the value that the map
gives `aaa…a`. -/
theorem rewriteReferences_32_examples :
    rewriteReferences 32 [storePath examplePrefix (repHash 97) (repHash 120).rep]
        [(repHash 120, repHash 98)]
      = CallResult.ok [storePath examplePrefix (repHash 97) (repHash 98).rep] ∧
    rewriteReferences 32 [storePath examplePrefix (repHash 97) [110]]
        [(repHash 97, repHash 98), (repHash 98, repHash 99)]
      = CallResult.ok [storePath examplePrefix (repHash 99) [110]] ∧
    HashRewrites.image [(repHash 97, repHash 98), (repHash 98, repHash 99)] (repHash 97)
      = repHash 98 := by
  refine ⟨by decide, by decide, by decide⟩

end Nix
